import Mathlib

/-!
# Verification of the task-queue analysis subsystem

Shallow embedding of the conflict / dependency / scope analysis core of
the repository (`src/scripts/queue_manager.py`, `src/scripts/parallel_executor.py`,
`src/scripts/session_context.py`), together with theorems settling the
spec claims about it.

Modelling conventions:
* Python lists become Lean `List`, Python sets of strings become `Finset String`
  where cardinalities matter (session-context scoring) and `List String`
  viewed up to membership elsewhere.  Where Python iterates over a `set`
  (whose iteration order is unspecified), the embedded code either only
  uses order-independent facts (non-emptiness, membership, sums over sets)
  or the proved statements are order-independent.
* Python float scores become `ℚ`; the literals 0.5 / 0.35 / 0.15 / 0.8 are
  exactly representable so no rounding is lost on the inputs considered.
* `datetime.now()` is passed in as an explicit `now : String` argument.
* Tasks created through `QueueManager.add` always carry a populated scope
  dict (``asdict(ScopeInfo(...))`` is a non-empty dict even when all the
  lists are empty, hence truthy), so `Task.scope` is modelled as a plain
  `ScopeInfo` value and the dead ``if not task.scope`` fallbacks are not
  modelled.  The single `ScopeInfo` structure merges the field sets of
  `queue_manager.ScopeInfo` and `parallel_executor.ScopeInfo`; a missing
  key in the Python dict reads as `[]` via ``dict.get``, i.e. as an empty
  list here.
* String comparison (`<`, `≤`) agrees with Python's code-point ordering on
  the strings that occur; `Char.toLower` agrees with `str.lower` on ASCII
  (all scope/command strings used in statements are ASCII).
-/

namespace QueueSpec

/-- `Priority` enum of `queue_manager.py` (`CRITICAL = 0 … LOW = 3`).
Task priority strings are one of the four enum names (the data-model
invariant; `Task.create` defaults to `"normal"`, `move` only writes the
four valid names). -/
inductive Priority where
  | critical
  | high
  | normal
  | low
deriving DecidableEq, Repr

/-- `Priority[name].value` of the Python enum. -/
def Priority.value : Priority → Nat
  | .critical => 0
  | .high => 1
  | .normal => 2
  | .low => 3

/-- The priority name string (`Priority.NORMAL.value` side of `move`). -/
def Priority.toName : Priority → String
  | .critical => "critical"
  | .high => "high"
  | .normal => "normal"
  | .low => "low"

/-- `ConflictLevel` enum of `parallel_executor.py`. -/
inductive ConflictLevel where
  | NONE
  | SOFT
  | HARD
deriving DecidableEq, Repr

/-- Merged scope record: fields of `queue_manager.ScopeInfo`
(files, directories, modules, patterns, estimated_scope) together with
the `imports` / `exports` fields read by
`parallel_executor.EnhancedConflictAnalyzer._extract_scope`. -/
structure ScopeInfo where
  files : List String := []
  directories : List String := []
  modules : List String := []
  patterns : List String := []
  imports : List String := []
  exports : List String := []
  estimated_scope : String := "unknown"
deriving DecidableEq, Repr

/-- `Task` dataclass of `queue_manager.py`. -/
structure Task where
  id : String
  command : String := ""
  priority : Priority := .normal
  status : String := "queued"
  scope : ScopeInfo := {}
  depends_on : List String := []
  on_success : Option String := none
  on_fail : Option String := none
  created_at : String := ""
  started_at : Option String := none
  completed_at : Option String := none
  note : String := ""
  error_message : Option String := none
deriving DecidableEq, Repr

/-! ## String primitives

Python `str.startswith` / `str.endswith` / `str.lower` re-expressed on the
character lists underlying Lean strings (the built-in `String` versions
are byte-position based and do not reduce inside the kernel).  Python
operates on code points, as these do. -/
/-- `p` is a prefix of the character list `s`. -/
def listIsPre : List Char → List Char → Bool
  | [], _ => true
  | _ :: _, [] => false
  | p :: ps, c :: cs => p == c && listIsPre ps cs

/-- Python `s.startswith (p)`. -/
def strStartsWith (s p : String) : Bool := listIsPre p.data s.data

/-- Python `s.endswith (p)`. -/
def strEndsWith (s p : String) : Bool := listIsPre p.data.reverse s.data.reverse

/-- ASCII lower-casing of one character (`str.lower` restricted to the
ASCII range; every character appearing in the statements below is ASCII). -/
def lowerChar (c : Char) : Char :=
  if 'A' ≤ c ∧ c ≤ 'Z' then Char.ofNat (c.toNat + 32) else c

/-- Python `s.lower ()` (ASCII fragment). -/
def pyLower (s : String) : String := ⟨s.data.map lowerChar⟩

/-! ## EnhancedConflictAnalyzer (`parallel_executor.py`) -/
/-- Truth of `bool(set(xs) & set(ys))` for lists of strings. -/
def listsIntersect (xs ys : List String) : Bool :=
  xs.any (fun x => ys.contains x)

/-- `EnhancedConflictAnalyzer._has_file_overlap`. -/
def has_file_overlap (a b : ScopeInfo) : Bool :=
  listsIntersect a.files b.files

/-- `EnhancedConflictAnalyzer._has_directory_overlap` (exact set
intersection of the directory strings; no prefix logic here). -/
def has_directory_overlap (a b : ScopeInfo) : Bool :=
  listsIntersect a.directories b.directories

/-- `EnhancedConflictAnalyzer._has_import_relationship`. -/
def has_import_relationship (a b : ScopeInfo) : Bool :=
  listsIntersect a.exports b.imports || listsIntersect b.exports a.imports

/-- `EnhancedConflictAnalyzer.analyze_conflict_level`.  The
`hasattr … and task.depends_on` truthiness guard is kept as a
non-emptiness test (redundant over list membership, as in the source). -/
def analyze_conflict_level (task_a task_b : Task) : ConflictLevel :=
  if task_b.depends_on ≠ [] ∧ task_b.depends_on.contains task_a.id then
    ConflictLevel.HARD
  else if task_a.depends_on ≠ [] ∧ task_a.depends_on.contains task_b.id then
    ConflictLevel.HARD
  else if has_file_overlap task_a.scope task_b.scope then
    ConflictLevel.HARD
  else if has_directory_overlap task_a.scope task_b.scope then
    ConflictLevel.SOFT
  else if has_import_relationship task_a.scope task_b.scope then
    ConflictLevel.SOFT
  else
    ConflictLevel.NONE

/-! ## ConflictAnalyzer.detect_conflicts (`queue_manager.py`) -/
/-- One entry of the list returned by `ConflictAnalyzer.detect_conflicts`. -/
structure TaskConflict where
  task_id : String
  task_command : String
  reasons : List String
deriving DecidableEq, Repr

/-- `", ".join` of Python. -/
def joinComma (xs : List String) : String :=
  String.intercalate ", " xs

/-- Elements of `set(xs) & set(ys)` (first-occurrence order; the Python
set iteration order inside the joined reason string is unspecified, and no
proved statement inspects that order). -/
def setInterList (xs ys : List String) : List String :=
  (xs.filter (fun x => ys.contains x)).dedup

/-- The `conflict_reasons` list built by `detect_conflicts` for one
existing task: file overlap, module overlap, then the directory
double loop with its `startswith` test in both directions. -/
def conflict_reasons (newScope existingScope : ScopeInfo) : List String :=
  (if setInterList newScope.files existingScope.files ≠ [] then
      ["files: " ++ joinComma (setInterList newScope.files existingScope.files)]
    else []) ++
  (if setInterList newScope.modules existingScope.modules ≠ [] then
      ["modules: " ++ joinComma (setInterList newScope.modules existingScope.modules)]
    else []) ++
  (newScope.directories.flatMap (fun nd =>
    existingScope.directories.filterMap (fun ed =>
      if strStartsWith nd ed || strStartsWith ed nd then
        some ("directories: " ++ nd ++ " ↔ " ++ ed)
      else none)))

/-- `ConflictAnalyzer.detect_conflicts`.  Tasks in the store always carry
a populated scope dict, so the `ScopeInfo(**scope)` branch is the live one
(see the header note). -/
def detect_conflicts (new_task : Task) (existing_tasks : List Task) : List TaskConflict :=
  existing_tasks.flatMap (fun existing =>
    if existing.status ≠ "queued" ∧ existing.status ≠ "running" then []
    else
      let reasons := conflict_reasons new_task.scope existing.scope
      if reasons ≠ [] then
        [{ task_id := existing.id, task_command := existing.command, reasons := reasons }]
      else [])

/-! ## Claim C6: directory path-prefix does NOT yield SOFT -/
/-- Task with scope directory `src/`, used to refute C6. -/
def c6TaskA : Task := { id := "task-c6a", scope := { directories := ["src/"] } }

/-- Task with scope directory `src/auth/` (a proper path extension of
`src/`), used to refute C6. -/
def c6TaskB : Task := { id := "task-c6b", scope := { directories := ["src/auth/"] } }

/-- Task used to refute C1. -/
def c1TaskA : Task := { id := "task-c1a" }

/-- Task depending explicitly on `c1TaskA`, with an all-empty scope. -/
def c1TaskB : Task := { id := "task-c1b", depends_on := ["task-c1a"] }

/-! ## SessionContext and ContextMatcher (`session_context.py`)

The Python sets of strings become `Finset String` (cardinalities enter the
scores).  Scores are rationals; the float literals 0.5/0.35/0.15/0.8 are
exact. -/
/-- `SessionContext` dataclass (work-tracking fields; the id/timestamp
fields play no role in matching and are omitted from the scores). -/
structure SessionContext where
  session_id : String := ""
  files : Finset String := ∅
  modules : Finset String := ∅
  directories : Finset String := ∅
  started_at : String := ""
  last_updated : String := ""
deriving DecidableEq

/-- `SessionContext.has_work`. -/
def SessionContext.has_work (c : SessionContext) : Bool :=
  c.files ≠ ∅ ∨ c.modules ≠ ∅ ∨ c.directories ≠ ∅

/-- `pathlib.Path(f).name`: the final path component, with trailing
slashes stripped first (as `Path` normalisation does). -/
def pathName (f : String) : String :=
  ⟨((f.data.reverse.dropWhile (fun c => c == '/')).takeWhile (fun c => c != '/')).reverse⟩

/-- `pathlib.Path(f).stem`: `pathName` minus the last suffix.  The suffix
is `name[i:]` for `i = name.rfind('.')` when `0 < i < len(name) - 1`. -/
def pathStem (f : String) : String :=
  let n := (pathName f).data
  let revIdx := n.reverse.findIdx (fun c => c == '.')
  if revIdx < n.length then
    let i := n.length - 1 - revIdx
    if 0 < i ∧ i < n.length - 1 then ⟨n.take i⟩ else ⟨n⟩
  else ⟨n⟩

/-- `str(pathlib.Path(f).parent)`: the path with its final component
removed (`.` for a bare filename, `/` below the root).  Faithful on
normalised paths without repeated slashes, which is all the call sites
produce. -/
def pathParent (f : String) : String :=
  let stripped := f.data.reverse.dropWhile (fun c => c == '/')
  let woName := stripped.dropWhile (fun c => c != '/')
  if woName = [] then (if f.data.take 1 = ['/'] then "/" else ".")
  else
    let woSlash := woName.dropWhile (fun c => c == '/')
    if woSlash = [] then "/" else ⟨woSlash.reverse⟩

/-- `SessionContext.add_file`: records the file, derives a module name
from its stem and from the parent directory name, and records the parent
directory path.  (`_update_timestamp` only touches `last_updated`, which
no score reads; timestamps are left unchanged here.) -/
def SessionContext.add_file (c : SessionContext) (file_path : String) : SessionContext :=
  if file_path = "" then c
  else
    let c1 := { c with files := insert file_path c.files }
    let module_name := pathStem file_path
    let c2 := if 1 < module_name.length then
        { c1 with modules := insert module_name c1.modules } else c1
    -- `if path.parent:` — a Path object is always truthy, so this guard passes
    let parent := pathParent file_path
    let parent_name := pathName parent
    let c3 := if 1 < parent_name.length ∧ parent_name ≠ "." ∧ parent_name ≠ ".." then
        { c2 with modules := insert parent_name c2.modules } else c2
    let dir_path := if strEndsWith parent "/" then parent else parent ++ "/"
    { c3 with directories := insert dir_path c3.directories }

/-- `ContextMatcher._calculate_file_overlap`. -/
def calculate_file_overlap (task_scope : ScopeInfo) (context : SessionContext) : ℚ :=
  let task_files := task_scope.files.toFinset
  if task_files = ∅ then 0
  else
    let exact_matches := task_files ∩ context.files
    if exact_matches ≠ ∅ then (exact_matches.card : ℚ) / task_files.card
    else
      let task_filenames := task_files.image pathName
      let context_filenames := context.files.image pathName
      let filename_matches := task_filenames ∩ context_filenames
      if filename_matches ≠ ∅ then
        (filename_matches.card : ℚ) / task_files.card * (4 / 5)
      else 0

/-- Substring test (`tm in cm` on Python strings). -/
def strContains (hay needle : String) : Bool :=
  decide (needle.data <:+: hay.data)

/-- `ContextMatcher._calculate_module_overlap`. -/
def calculate_module_overlap (task_scope : ScopeInfo) (context : SessionContext) : ℚ :=
  let task_modules := task_scope.modules.toFinset
  if task_modules = ∅ then 0
  else
    let context_modules_lower := context.modules.image pyLower
    let task_modules_lower := task_modules.image pyLower
    let exact_matches := task_modules_lower ∩ context_modules_lower
    if exact_matches ≠ ∅ then (exact_matches.card : ℚ) / task_modules.card
    else
      let partial_score := ∑ tm ∈ task_modules_lower, ∑ cm ∈ context_modules_lower,
        if strContains cm tm || strContains tm cm then
          (1 / 2 : ℚ) / task_modules.card
        else 0
      min 1 partial_score

/-- `ContextMatcher._calculate_directory_overlap`. -/
def calculate_directory_overlap (task_scope : ScopeInfo) (context : SessionContext) : ℚ :=
  let task_dirs := task_scope.directories.toFinset
  if task_dirs = ∅ then 0
  else
    let task_dirs_normalized :=
      task_dirs.image (fun d => if strEndsWith d "/" then d else d ++ "/")
    let overlap_count := (task_dirs_normalized.filter (fun td =>
      ∃ cd ∈ context.directories,
        td = cd ∨ strStartsWith td cd = true ∨ strStartsWith cd td = true)).card
    if overlap_count ≠ 0 then (overlap_count : ℚ) / task_dirs.card
    else 0

/-- `ContextMatcher.match_score`.  Stored tasks always carry a populated
scope dict, so the `if not task_scope` early-out is not modelled (header
note); the `has_work` early-out is. -/
def match_score (task : Task) (context : SessionContext) : ℚ :=
  if context.has_work = false then 0
  else
    let file_overlap := calculate_file_overlap task.scope context
    let module_overlap := calculate_module_overlap task.scope context
    let dir_overlap := calculate_directory_overlap task.scope context
    let weighted_overlap :=
      file_overlap * (1 / 2) + module_overlap * (7 / 20) + dir_overlap * (3 / 20)
    let max_single := max file_overlap (max module_overlap dir_overlap)
    let boosted := max weighted_overlap (max_single * (4 / 5))
    min 1 boosted

/-! ## Claim C7: monotonicity of `match_score` under added matching files -/
/-- Task whose scope names two files in distinct directories; used for C7. -/
def c7Task : Task := { id := "task-c7", scope := { files := ["a/x.ts", "b/y.ts"] } }

/-- Context that matches both of `c7Task`'s files by filename only. -/
def c7Ctx1 : SessionContext := { files := {"c/x.ts", "d/y.ts"} }

/-- Task for the module-collapse side of C7: three scope files and three
scope modules, of which `nn` is a substring of every context module. -/
def c7TaskM : Task :=
  { id := "task-c7m",
    scope := { files := ["d/m.ts", "e/nn.ts", "f/qq.ts"], modules := ["nn", "zz", "ww"] } }

/-- Context for the module-collapse side of C7: it already holds the
exact file `d/m.ts`, and six modules that each contain `nn` strictly. -/
def c7CtxM : SessionContext :=
  { files := {"d/m.ts"}, modules := {"nna", "nnb", "nnc", "nnd", "nne", "nnf"} }

/-! ## Python dicts as insertion-ordered association lists

`queue_manager.py` builds `graph` / `in_degree` / `task_map` as Python
dicts, whose iteration order is insertion order; assigning to an existing
key keeps its position.  `Assoc` mirrors exactly that. -/
/-- Insertion-ordered string-keyed map. -/
abbrev Assoc (α : Type) : Type := List (String × α)

/-- Lookup (`m[k]` / `m.get(k)`). -/
def aGet? {α : Type} (m : Assoc α) (k : String) : Option α :=
  (List.find? (fun p => p.1 == k) m).map (fun p => p.2)

/-- Assignment `m[k] = v`: updates in place, appends if absent. -/
def aSet {α : Type} (m : Assoc α) (k : String) (v : α) : Assoc α :=
  match m with
  | [] => [(k, v)]
  | (k', v') :: rest => if k' = k then (k, v) :: rest else (k', v') :: aSet rest k v

/-- Key membership `k in m`. -/
def aMem {α : Type} (m : Assoc α) (k : String) : Bool :=
  (aGet? m k).isSome

namespace DependencyResolver

/-- `task_map[tid]` where `task_map = {t.id: t for t in tasks}` — with
duplicate ids the dict keeps the last write, hence the reversed search.
(Stored task ids are unique, so this matters only to degenerate inputs.) -/
def task_map_get (tasks : List Task) (tid : String) : Option Task :=
  tasks.reverse.find? (fun t => t.id == tid)

/-- The sort key `(Priority[task.priority.upper()].value, task.created_at)`
of the queue entry `tid`.  Queue entries always resolve in `task_map`
(they come from the graph's keys); the default is dead code. -/
def taskKey (tasks : List Task) (tid : String) : Nat × String :=
  match task_map_get tasks tid with
  | some t => (t.priority.value, t.created_at)
  | none => (0, "")

/-- Code-point-lexicographic `≤` on character lists: exactly Python's
string comparison. -/
def charListLE : List Char → List Char → Bool
  | [], _ => true
  | _ :: _, [] => false
  | c :: cs, d :: ds =>
    if c.toNat < d.toNat then true
    else if c.toNat = d.toNat then charListLE cs ds
    else false

/-- Python `a <= b` on strings. -/
def strLE (a b : String) : Bool := charListLE a.data b.data

/-- Python tuple `≤` on the sort keys (lexicographic, strings by code
point). -/
def keyLE (a b : Nat × String) : Bool :=
  a.1 < b.1 || (a.1 == b.1 && strLE a.2 b.2)

/-- Insert into a key-sorted list, before the first entry of larger-or-
equal key seen from the left — elements already in the list that compare
equal keep their place after the processing order of `sortByKey`. -/
def insertSorted {α : Type} (key : α → Nat × String) (x : α) : List α → List α
  | [] => [x]
  | y :: ys => if keyLE (key x) (key y) then x :: y :: ys else y :: insertSorted key x ys

/-- Stable sort by key (`queue.sort(key=…)`; Python's sort is stable,
and this insertion sort keeps equal-key entries in list order). -/
def sortByKey {α : Type} (key : α → Nat × String) (l : List α) : List α :=
  l.foldr (insertSorted key) []

/-- One neighbour visit of Kahn's loop: decrement the in-degree, enqueue
on reaching zero (`in_degree` holds `Int`s exactly as Python ints do). -/
def visitNeighbor (st : List String × Assoc Int) (nb : String) : List String × Assoc Int :=
  let d := (aGet? st.2 nb).getD 0 - 1
  let ind := aSet st.2 nb d
  if d = 0 then (st.1 ++ [nb], ind) else (st.1, ind)

/-- The `while queue:` loop of `DependencyResolver.topological_sort`.
Fuel counts loop iterations; the caller passes more fuel than the loop
can consume (each pop was enqueued once), so the base case is dead. -/
def kahnLoop (tasks : List Task) (graph : Assoc (List String)) :
    Nat → List String → Assoc Int → List Task → List Task
  | 0, _, _, result => result
  | fuel + 1, queue, ind, result =>
    if queue = [] then result
    else
      match sortByKey (taskKey tasks) queue with
      | [] => result
      | current :: qrest =>
        let result' := match task_map_get tasks current with
          | some t => result ++ [t]
          | none => result
        let st := ((aGet? graph current).getD []).foldl visitNeighbor (qrest, ind)
        kahnLoop tasks graph fuel st.1 st.2 result'

/-- One `dep_id` visit of the graph construction: if `dep_id in graph`,
append the dependent to `graph[dep_id]` and increment its in-degree. -/
def edgeStep (t : Task) (st : Assoc (List String) × Assoc Int) (dep : String) :
    Assoc (List String) × Assoc Int :=
  match aGet? st.1 dep with
  | some lst => (aSet st.1 dep (lst ++ [t.id]),
      aSet st.2 t.id ((aGet? st.2 t.id).getD 0 + 1))
  | none => st

/-- Graph/in-degree construction of `topological_sort` (lines 301–310):
`graph = {t.id: [] for t in tasks}`, `in_degree = {t.id: 0 for t in tasks}`,
then one append + increment per `dep_id in task.depends_on` that is a key
of `graph` — absent dep ids are skipped. -/
def buildGraphInd (tasks : List Task) : Assoc (List String) × Assoc Int :=
  let graph0 : Assoc (List String) := tasks.foldl (fun g t => aSet g t.id []) []
  let ind0 : Assoc Int := tasks.foldl (fun m t => aSet m t.id 0) []
  tasks.foldl (fun gi t => t.depends_on.foldl (edgeStep t) gi) (graph0, ind0)

/-- `DependencyResolver.topological_sort` (Kahn's algorithm with the
priority/created-at tie-break).  `none` models the raised
`ValueError("Circular dependency detected in task queue")`. -/
def topological_sort (tasks : List Task) : Option (List Task) :=
  if tasks = [] then some []
  else
    let gi := buildGraphInd tasks
    let queue0 := gi.2.filterMap (fun p => if p.2 = 0 then some p.1 else none)
    let result := kahnLoop tasks gi.1
      (tasks.length + (tasks.map (fun t => t.depends_on.length)).sum + 1)
      queue0 gi.2 []
    if result.length ≠ tasks.length then none else some result

/-- `DependencyResolver.get_next_executable`.  The outer `Option` models
the `ValueError` a cyclic queued set would raise through the sort; the
inner one is the function's own `None`. -/
def get_next_executable (tasks : List Task) : Option (Option Task) :=
  let completed_ids := (tasks.filter (fun t => t.status == "completed")).map (fun t => t.id)
  match topological_sort (tasks.filter (fun t => t.status == "queued")) with
  | none => none
  | some sorted =>
      some (sorted.find? (fun t => t.depends_on.all (fun d => completed_ids.contains d)))

/-- One `for task in tasks:` pass of the blocked-closure loop of
`get_independent_tasks` (the set grows during the pass, as in Python). -/
def closureStep (tasks : List Task) (blocked : List String) : List String × Bool :=
  tasks.foldl (fun (st : List String × Bool) t =>
    if st.1.contains t.id then st
    else if t.depends_on.any (fun d => st.1.contains d) then (st.1 ++ [t.id], true)
    else st) (blocked, false)

/-- The `while changed:` loop; each changing pass adds at least one id,
so `tasks.length + 1` passes always reach the fixed point. -/
def closureLoop (tasks : List Task) : Nat → List String → List String
  | 0, bl => bl
  | fuel + 1, bl =>
    match closureStep tasks bl with
    | (bl', true) => closureLoop tasks fuel bl'
    | (bl', false) => bl'

/-- `DependencyResolver.get_independent_tasks`. -/
def get_independent_tasks (tasks : List Task) (failed_task_id : String) : List Task :=
  let blocked := closureLoop tasks (tasks.length + 1) [failed_task_id]
  tasks.filter (fun t => ¬ blocked.contains t.id ∧ t.status == "queued")

/-! ### Abstract view of the Kahn loop

To reason about `topological_sort` the loop is restated over a queue of
`Task` values and an explicit popped-id list; the in-degree counters are
recomputed from `popped` instead of being threaded through an assoc list.
`kahnLoop_eq_absLoop` below proves the two views coincide. -/
/-- The id list of a task list. -/
def idsOf (tasks : List Task) : List String := tasks.map (fun t => t.id)

/-- The occurrences of a task's `depends_on` that name ids present in the
task list (absent ids are skipped by the graph construction). -/
def presentDeps (tasks : List Task) (v : Task) : List String :=
  v.depends_on.filter (fun d => (idsOf tasks).contains d)

/-- The in-degree counter of `v` once the tasks with ids in `popped` have
been popped: the number of present-dep occurrences still outstanding. -/
def remCount (tasks : List Task) (popped : List String) (v : Task) : Nat :=
  ((presentDeps tasks v).filter (fun d => ¬ popped.contains d)).length

/-- The sort key of a task value. -/
def taskKeyT (t : Task) : Nat × String := (t.priority.value, t.created_at)

/-- Adjacency list of node `i` as built by `buildGraphInd`: one copy of
`t.id` per occurrence of `i` in `t.depends_on`, in input order. -/
def adjSpec (tasks : List Task) (i : String) : List String :=
  tasks.flatMap (fun t => (t.depends_on.filter (fun d => d == i)).map (fun _ => t.id))

/-- The tasks whose counter reaches zero while the neighbours of `t` are
visited: `t` is one of their outstanding deps and popping it clears the
last one.  They are appended in input order. -/
def released (tasks : List Task) (popped : List String) (t : Task) : List Task :=
  tasks.filter (fun v =>
    (presentDeps tasks v).contains t.id ∧ remCount tasks (popped ++ [t.id]) v = 0)

/-- Abstract Kahn loop: sort the queue by key, pop the head, append the
newly released tasks, record the pop. -/
def absLoop (tasks : List Task) : Nat → List Task → List String → List Task
  | 0, _, _ => []
  | fuel + 1, queue, popped =>
    if queue = [] then []
    else
      match sortByKey taskKeyT queue with
      | [] => []
      | t :: rest =>
          t :: absLoop tasks fuel (rest ++ released tasks popped t) (popped ++ [t.id])

/-- The step at which a queue member was enqueued, reconstructed from the
popped prefix: 0 for tasks with no present deps, otherwise one past the
pop index of the latest present dep. -/
def insStep (tasks : List Task) (popped : List String) (v : Task) : Nat :=
  if presentDeps tasks v = [] then 0
  else 1 + ((presentDeps tasks v).map (fun d => popped.indexOf d)).foldr max 0

/-- Input position of a task, by id. -/
def posIn (tasks : List Task) (v : Task) : Nat := (idsOf tasks).indexOf v.id

end DependencyResolver

/-! ## QueueManager start / complete / move (`queue_manager.py`)

The JSON store is passed in and returned explicitly: each operation is a
pure function of the loaded task list (plus history for `complete`), with
`datetime.now()` supplied as `now`. -/
/-- The `history.json` contents. -/
structure History where
  completed : List Task := []
  cancelled : List Task := []
  failed : List Task := []
deriving DecidableEq, Repr

/-- Result dict of `QueueManager.start`. -/
inductive StartResult where
  | started (task_id : String)
  | error (msg : String)
deriving DecidableEq, Repr

/-- Mark the first task with the given id as running (the `for task in
tasks:` loop mutates and returns inside the loop). -/
def markStarted (task_id now : String) : List Task → Option (List Task)
  | [] => none
  | t :: ts =>
    if t.id == task_id then
      some ({ t with status := "running", started_at := some now } :: ts)
    else (markStarted task_id now ts).map (fun ts' => t :: ts')

/-- `QueueManager.start`: returns the updated store and the result dict;
an unknown id leaves the store unsaved and reports a structured error. -/
def start (tasks : List Task) (task_id now : String) : List Task × StartResult :=
  match markStarted task_id now tasks with
  | some ts => (ts, StartResult.started task_id)
  | none => (tasks, StartResult.error ("Task " ++ task_id ++ " not found"))

/-- Result dict of `QueueManager.move`. -/
inductive MoveResult where
  | moved (task_id new_priority : String)
  | error (msg : String)
deriving DecidableEq, Repr

/-- The priority rewrite of `move` for one task. -/
def movePriority (position : String) (p : Priority) : Priority :=
  if position = "first" then Priority.critical
  else if position = "last" then Priority.low
  else if position = "critical" then Priority.critical
  else if position = "high" then Priority.high
  else if position = "normal" then Priority.normal
  else if position = "low" then Priority.low
  else p

/-- Mark the first task with the given id with its new priority. -/
def markMoved (task_id position : String) : List Task → Option (List Task × Priority)
  | [] => none
  | t :: ts =>
    if t.id == task_id then
      let p := movePriority position t.priority
      some ({ t with priority := p } :: ts, p)
    else (markMoved task_id position ts).map (fun pr => (t :: pr.1, pr.2))

/-- `QueueManager.move`. -/
def move (tasks : List Task) (task_id position : String) : List Task × MoveResult :=
  match markMoved task_id position tasks with
  | some (ts, p) => (ts, MoveResult.moved task_id p.toName)
  | none => (tasks, MoveResult.error ("Task " ++ task_id ++ " not found"))

/-- Result dict of `QueueManager.complete`: `task_id`, `status` and
`chain_task` are always present; `next_task`/`auto_execute` appear when a
next task exists, otherwise `queue_empty`/`blocked_count` do.  There is
no error field: `complete` has no not-found branch. -/
structure CompleteResult where
  task_id : String
  status : String
  chain_task : Option String
  next_task : Option Task
  auto_execute : Bool
  queue_empty : Option Bool
  blocked_count : Option Nat
deriving DecidableEq, Repr

/-- Mark the first task with the given id completed/failed, returning the
updated list together with the mutated task (used for history and chain). -/
def markCompleted (task_id : String) (success : Bool) (error_message : Option String)
    (now : String) : List Task → Option (List Task × Task)
  | [] => none
  | t :: ts =>
    if t.id == task_id then
      let t' := if success then { t with completed_at := some now, status := "completed" }
        else { t with completed_at := some now, status := "failed",
                      error_message := error_message }
      some (t' :: ts, t')
    else (markCompleted task_id success error_message now ts).map
      (fun pr => (t :: pr.1, pr.2))

/-- `QueueManager.complete`.  The outer `Option` models the `ValueError`
that `get_next_executable` can raise on a cyclic queued set; in all other
cases the saved active list, updated history and the result dict are
returned — note that an unknown `task_id` silently falls through to a
success-shaped result. -/
def complete (tasks : List Task) (task_id : String) (success : Bool)
    (error_message : Option String) (now : String) (history : History) :
    Option (List Task × History × CompleteResult) :=
  let found := markCompleted task_id success error_message now tasks
  let tasks1 := match found with
    | some pr => pr.1
    | none => tasks
  let chain_task : Option String := match found with
    | some pr => if success then pr.2.on_success else pr.2.on_fail
    | none => none
  let history1 := match found with
    | some pr =>
      if success then { history with completed := history.completed ++ [pr.2] }
      else { history with failed := history.failed ++ [pr.2] }
    | none => history
  let active := tasks1.filter (fun t =>
    t.status ≠ "completed" ∧ t.status ≠ "failed" ∧ t.status ≠ "cancelled")
  let nextRes : Option (Option Task) :=
    if success then DependencyResolver.get_next_executable active
    else some (DependencyResolver.get_independent_tasks active task_id).head?
  match nextRes with
  | none => none
  | some nt =>
    some (active, history1,
      { task_id := task_id,
        status := if success then "completed" else "failed",
        chain_task := chain_task,
        next_task := nt,
        auto_execute := nt.isSome,
        queue_empty := if nt.isSome then none else some active.isEmpty,
        blocked_count := if nt.isSome then none else
          some (active.filter (fun t => t.status == "queued")).length })

/-- Task present in the store for the C9 counterexample. -/
def c9Task : Task := { id := "task-c9", created_at := "1" }

namespace DependencyResolver

/-- The in-degree value used through the outer fold: tasks already
processed carry their full present-dep count. -/
def cntP (tasks P : List Task) (u : Task) : Int :=
  if u ∈ P then ((presentDeps tasks u).length : Int) else 0

/-- The state invariant of the Kahn loop: the queue is exactly the
frontier of the popped prefix, popped ids are closed under present deps
(each dep popped strictly earlier), and everything is duplicate-free. -/
structure Good (tasks queue : List Task) (popped : List String) : Prop where
  sub : ∀ v ∈ queue, v ∈ tasks
  nd : (queue.map (fun v => v.id)).Nodup
  frontier : ∀ v ∈ tasks, (v ∈ queue ↔ (remCount tasks popped v = 0 ∧ ¬ v.id ∈ popped))
  popped_sub : ∀ d ∈ popped, d ∈ idsOf tasks
  popped_nd : popped.Nodup
  closed : ∀ v ∈ tasks, v.id ∈ popped → ∀ d ∈ presentDeps tasks v,
      d ∈ popped ∧ popped.indexOf d < popped.indexOf v.id

/-- The order invariant: equal-key queue members appear in lexicographic
(insertion step, input position) order. -/
def OrdInv (tasks queue : List Task) (popped : List String) : Prop :=
  queue.Pairwise (fun u v => taskKeyT u = taskKeyT v →
    (insStep tasks popped u < insStep tasks popped v ∨
     (insStep tasks popped u = insStep tasks popped v ∧ posIn tasks u < posIn tasks v)))

/-! ### From `topological_sort` to the abstract loop -/
/-- The fuel `topological_sort` hands to the loop. -/
def fuelOf (tasks : List Task) : Nat :=
  tasks.length + (tasks.map (fun t => t.depends_on.length)).sum + 1

/-- The initial queue: the tasks whose in-degree starts at zero. -/
def initQueue (tasks : List Task) : List Task :=
  tasks.filter (fun u => remCount tasks [] u == 0)

/-- Acyclicity of the dependency relation restricted to present ids,
expressed by a ranking function. -/
def NoDepCycle (tasks : List Task) : Prop :=
  ∃ f : String → Nat, ∀ v ∈ tasks, ∀ u ∈ tasks,
    u.id ∈ v.depends_on → f u.id < f v.id

def c4TaskA : Task := { id := "a", created_at := "1" }

def c4TaskB : Task := { id := "b", depends_on := ["a"], created_at := "2" }

/-- A queued task whose only dependency id is absent from the store. -/
def c5Task : Task := { id := "t1", depends_on := ["ghost"], created_at := "1" }

end DependencyResolver

namespace ParallelScheduler
open DependencyResolver

/-- The task-id association lists reuse `Assoc`. -/
structure DepGraph where
  edges : Assoc (Assoc String) := []
  nodes : List String := []
deriving DecidableEq, Repr

/-- `DependencyGraph.add_node`. -/
def addNode (g : DepGraph) (n : String) : DepGraph :=
  { g with nodes := if g.nodes.contains n then g.nodes else g.nodes ++ [n] }

/-- `DependencyGraph.add_edge` (also inserts both endpoints as nodes). -/
def addEdge (g : DepGraph) (f t ty : String) : DepGraph :=
  let g2 := addNode (addNode g f) t
  { g2 with edges := aSet g2.edges f (aSet ((aGet? g2.edges f).getD []) t ty) }

/-- `DependencyGraph.get_edge_type`. -/
def get_edge_type (g : DepGraph) (f t : String) : Option String :=
  match aGet? g.edges f with
  | some inner => aGet? inner t
  | none => none

/-- The in-degree map of `DependencyGraph.topological_sort`: zero for
every node, then one increment per edge (`defaultdict(int)`). -/
def inDeg0 (g : DepGraph) : Assoc Int :=
  let base := g.nodes.foldl (fun m n => aSet m n 0) []
  g.edges.foldl (fun m p =>
    p.2.foldl (fun m q => aSet m q.1 ((aGet? m q.1).getD 0 + 1)) m) base

/-- The `while queue:` loop of `DependencyGraph.topological_sort` (FIFO,
no tie-break).  Fuel exceeds the number of possible enqueues. -/
def topoLoop (g : DepGraph) : Nat → List String → Assoc Int → List String → List String
  | 0, _, _, result => result
  | fuel + 1, queue, ind, result =>
    match queue with
    | [] => result
    | node :: qrest =>
      let st := ((aGet? g.edges node).getD []).foldl
        (fun (st : List String × Assoc Int) q =>
          let d := (aGet? st.2 q.1).getD 0 - 1
          let ind2 := aSet st.2 q.1 d
          if d = 0 then (st.1 ++ [q.1], ind2) else (st.1, ind2)) (qrest, ind)
      topoLoop g fuel st.1 st.2 (result ++ [node])

/-- `DependencyGraph.topological_sort`. -/
def DepGraph.topological_sort (g : DepGraph) : List String :=
  let ind := inDeg0 g
  let queue := g.nodes.filter (fun n => (aGet? ind n).getD 0 == 0)
  topoLoop g (g.nodes.length + 1) queue ind []

/-- `get_dependencies`: the sources of incoming edges of `tid`. -/
def dependsSources (g : DepGraph) (tid : String) : List String :=
  (g.edges.filter (fun p => (aGet? p.2 tid).isSome)).map (fun p => p.1)

/-- The `hard_deps <= scheduled` test of `create_parallel_groups`:
every incoming `"hard"`/`"dependency"` edge source is scheduled. -/
def hardDepsSat (g : DepGraph) (tid : String) (scheduled : List String) : Bool :=
  (dependsSources g tid).all (fun d =>
    match get_edge_type g d tid with
    | some ty => if ty = "hard" ∨ ty = "dependency" then scheduled.contains d else true
    | none => true)

/-- `ParallelScheduler.build_dependency_graph`: nodes for every task,
a `"dependency"` edge `dep → task` for every `depends_on` entry (absent
ids become extra nodes), then a `"hard"` edge `earlier → later` for every
HARD-conflicting pair, in pair order. -/
def hardPairStep (g : DepGraph) (a : Task) (rest : List Task) : DepGraph :=
  rest.foldl (fun g b =>
    if analyze_conflict_level a b = ConflictLevel.HARD
    then addEdge g a.id b.id "hard" else g) g

def pairFoldHard : DepGraph → List Task → DepGraph
  | g, [] => g
  | g, a :: rest => pairFoldHard (hardPairStep g a rest) rest

def build_dependency_graph (tasks : List Task) : DepGraph :=
  let g1 := tasks.foldl (fun g t => addNode g t.id) {}
  let g2 := tasks.foldl (fun g t =>
    t.depends_on.foldl (fun g d => addEdge g d t.id "dependency") g) g1
  pairFoldHard g2 tasks

/-- `ParallelGroup` dataclass. -/
structure ParallelGroup where
  tasks : List Task := []
  can_parallel : Bool := true
  has_soft_conflicts : Bool := false
  soft_conflict_pairs : List (String × String) := []
deriving DecidableEq, Repr

/-- One candidate of the group-formation loop: check the candidate
against every current member (`break` on HARD, record SOFT pairs), then
append on `can_add`.  `none` models the `KeyError` a `task_map` lookup of
an id with no task raises. -/
def innerStep (tasks : List Task) (tid : String)
    (acc : Option (Bool × ParallelGroup)) (eid : String) :
    Option (Bool × ParallelGroup) :=
  match acc with
  | none => none
  | some (can_add, grp) =>
    if can_add = false then some (false, grp)
    else
      match task_map_get tasks eid, task_map_get tasks tid with
      | some te, some tt =>
        match analyze_conflict_level te tt with
        | ConflictLevel.HARD => some (false, grp)
        | ConflictLevel.SOFT => some (true, { grp with
            has_soft_conflicts := true,
            soft_conflict_pairs := grp.soft_conflict_pairs ++ [(eid, tid)] })
        | ConflictLevel.NONE => some (true, grp)
      | _, _ => none

def considerTask (tasks : List Task)
    (st : ParallelGroup × List String × List String) (tid : String) :
    Option (ParallelGroup × List String × List String) :=
  match st with
  | (group, gids, scheduled) =>
    let inner := gids.foldl (innerStep tasks tid) (some (true, group))
    match inner with
    | none => none
    | some (can_add, grp) =>
      if can_add then
        match task_map_get tasks tid with
        | none => none
        | some t => some ({ grp with tasks := grp.tasks ++ [t] },
            (if gids.contains tid then gids else gids ++ [tid]),
            (if scheduled.contains tid then scheduled else scheduled ++ [tid]))
      else some (grp, gids, scheduled)

/-- The `for task_id in available:` loop. -/
def considerLoop (tasks : List Task) :
    List String → ParallelGroup × List String × List String →
    Option (ParallelGroup × List String × List String)
  | [], st => some st
  | tid :: rest, st =>
    match considerTask tasks st tid with
    | none => none
    | some st2 => considerLoop tasks rest st2

/-- The `while len(scheduled) < len(tasks):` loop. -/
def schedLoop (tasks : List Task) (g : DepGraph) (topo : List String) :
    Nat → List String → List ParallelGroup → Option (List ParallelGroup)
  | 0, _, groups => some groups
  | fuel + 1, scheduled, groups =>
    if scheduled.length < tasks.length then
      let avail := topo.filter (fun tid =>
        ¬ scheduled.contains tid ∧ hardDepsSat g tid scheduled)
      if avail = [] then some groups
      else
        match considerLoop tasks avail ({}, [], scheduled) with
        | none => none
        | some (group, _, scheduled2) =>
          if group.tasks = [] then
            schedLoop tasks g topo fuel scheduled2 groups
          else
            schedLoop tasks g topo fuel scheduled2
              (groups ++ [{ group with can_parallel := decide (group.tasks.length > 1) }])
    else some groups

/-- `ParallelScheduler.create_parallel_groups`; `none` models the
`KeyError` raised when an absent dependency id reaches the group loop. -/
def create_parallel_groups (tasks : List Task) : Option (List ParallelGroup) :=
  if tasks = [] then some []
  else
    let g := build_dependency_graph tasks
    schedLoop tasks g g.topological_sort (tasks.length + 1) [] []

/-- An edge that the scheduler treats as blocking. -/
def EdgeOK (g : DepGraph) (f s : String) : Prop :=
  ∃ ty, get_edge_type g f s = some ty ∧ (ty = "hard" ∨ ty = "dependency")

/-- The invariant of the group under formation: members are stored tasks
with pairwise non-HARD conflicts, the id set `gids` tracks the members,
`scheduled` grew from `sched₀` by exactly the member ids, and every
member was an `available` entry. -/
structure GState (tasks : List Task) (sched₀ avail : List String)
    (st : ParallelGroup × List String × List String) : Prop where
  sub : ∀ t ∈ st.1.tasks, t ∈ tasks
  pair : st.1.tasks.Pairwise
    (fun a b => analyze_conflict_level a b ≠ ConflictLevel.HARD)
  mem_gids : ∀ t ∈ st.1.tasks, t.id ∈ st.2.1
  gids_mem : ∀ x ∈ st.2.1, ∃ t ∈ st.1.tasks, t.id = x
  sched_iff : ∀ x, x ∈ st.2.2 ↔ x ∈ sched₀ ∨ ∃ t ∈ st.1.tasks, t.id = x
  from_avail : ∀ t ∈ st.1.tasks, t.id ∈ avail

def c3TaskA : Task := { id := "a", created_at := "1" }

def c3TaskB : Task := { id := "b", depends_on := ["a"], created_at := "2" }

def c3GroupA : ParallelGroup := { tasks := [c3TaskA], can_parallel := false }

def c3GroupB : ParallelGroup := { tasks := [c3TaskB], can_parallel := false }

end ParallelScheduler

/-! ## `ConflictAnalyzer.extract_scope` — the `file_ops` patterns

`re.findall` of the four `file_ops` patterns over `command.lower()`,
modelled as left-to-right non-overlapping scans.  Every pattern captures
`([^\s]+\.[a-z]+)`: backtracking resolves to the **last** dot of the
non-space run that is followed by a lowercase letter, with a maximal
letter run after it.  `\s` is modelled as ASCII whitespace (the claims
here use ASCII commands; Python's `\s` additionally matches rare Unicode
whitespace). -/
/-- ASCII `\s`. -/
def pyIsSpace (c : Char) : Bool :=
  c = ' ' ∨ c = '\t' ∨ c = '\n' ∨ c = '\r' ∨ c = '\x0b' ∨ c = '\x0c'

/-- `[a-z]` (the input is lowercased, so `re.IGNORECASE` adds nothing). -/
def isLowerAlpha (c : Char) : Bool :=
  97 ≤ c.toNat ∧ c.toNat ≤ 122

/-- Index `d` of `run` can serve as the `\.` of `([^\s]+\.[a-z]+)`. -/
def eligDot (run : List Char) (d : Nat) : Bool :=
  decide (1 ≤ d) && decide (run.get? d = some '.') &&
    (match run.get? (d + 1) with
     | some c => isLowerAlpha c
     | none => false)

/-- The last eligible dot (greedy `[^\s]+` backtracks to it first). -/
def lastDotIdx (run : List Char) : Option Nat :=
  (List.range run.length).foldl
    (fun acc d => if eligDot run d then some d else acc) none

/-- Core of the capture once the non-space run is known. -/
def fileCapCore (l run : List Char) : Option (List Char × List Char) :=
  match lastDotIdx run with
  | none => none
  | some d =>
    let bLen := ((run.drop (d + 1)).takeWhile isLowerAlpha).length
    some (l.take (d + 1 + bLen), l.drop (d + 1 + bLen))

/-- Match `([^\s]+\.[a-z]+)` at the start of `l`: the capture and the
rest of the text. -/
def fileCapAt (l : List Char) : Option (List Char × List Char) :=
  fileCapCore l (l.takeWhile (fun c => ¬ pyIsSpace c))

/-- First alternation branch whose literal is a prefix (the keyword sets
used here have pairwise distinct first letters, so at most one fits). -/
def kwPick : List (List Char) → List Char → Option (List Char)
  | [], _ => none
  | kw :: kws, l => if listIsPre kw l then some (l.drop kw.length) else kwPick kws l

/-- `(?:kw…)\s+([^\s]+\.[a-z]+)` at the start of `l`. -/
def kwFileMatcher (kws : List (List Char)) (l : List Char) :
    Option (List Char × List Char) :=
  match kwPick kws l with
  | none => none
  | some afterKw =>
    let sp := afterKw.takeWhile pyIsSpace
    if sp.length = 0 then none
    else fileCapAt (afterKw.drop sp.length)

/-- `@([^\s]+\.[a-z]+)` at the start of `l`. -/
def atMatcher (l : List Char) : Option (List Char × List Char) :=
  match l with
  | [] => none
  | c :: rest => if c = '@' then fileCapAt rest else none

/-- Try dot position `d` for `([^\s]+\.[a-z]+)\s+file`. -/
def p4Try (l run : List Char) (d : Nat) : Option (List Char × List Char) :=
  if eligDot run d then
    let bLen := ((run.drop (d + 1)).takeWhile isLowerAlpha).length
    let after := l.drop (d + 1 + bLen)
    let sp := after.takeWhile pyIsSpace
    if sp.length ≠ 0 ∧ listIsPre ['f', 'i', 'l', 'e'] (after.drop sp.length)
    then some (l.take (d + 1 + bLen), (after.drop sp.length).drop 4)
    else none
  else none

/-- Backtracking over dot positions, largest first. -/
def p4Find (l run : List Char) : Nat → Option (List Char × List Char)
  | 0 => none
  | d + 1 =>
    match p4Try l run (d + 1) with
    | some r => some r
    | none => p4Find l run d

/-- `([^\s]+\.[a-z]+)\s+file` at the start of `l`. -/
def p4Cap (l : List Char) : Option (List Char × List Char) :=
  let run := l.takeWhile (fun c => ¬ pyIsSpace c)
  p4Find l run (run.length - 1)

/-- `(?:the|a)\s+([^\s]+\.[a-z]+)\s+file` at the start of `l`. -/
def p4Matcher (l : List Char) : Option (List Char × List Char) :=
  match kwPick [['t', 'h', 'e'], ['a']] l with
  | none => none
  | some afterKw =>
    let sp := afterKw.takeWhile pyIsSpace
    if sp.length = 0 then none
    else p4Cap (afterKw.drop sp.length)

/-- `re.findall`: scan left to right, consuming matches, else advancing
one character.  Fuel exceeds the text length. -/
def scanM (m : List Char → Option (List Char × List Char)) :
    Nat → List Char → List (List Char)
  | 0, _ => []
  | _ + 1, [] => []
  | fuel + 1, c :: rest =>
    match m (c :: rest) with
    | some (cap, after) => cap :: scanM m fuel after
    | none => scanM m fuel rest

/-- The concatenated `file_ops` captures, in pattern order
(`scope.files` before filtering). -/
def filesRaw (command : String) : List String :=
  let cl := (pyLower command).data
  let fuel := cl.length + 1
  ((scanM (kwFileMatcher [['e','d','i','t'], ['m','o','d','i','f','y'],
      ['u','p','d','a','t','e'], ['f','i','x'],
      ['r','e','f','a','c','t','o','r']]) fuel cl)
   ++ (scanM (kwFileMatcher [['i','n'], ['a','t'], ['f','i','l','e']]) fuel cl)
   ++ (scanM atMatcher fuel cl)
   ++ (scanM p4Matcher fuel cl)).map (fun l => ⟨l⟩)

/-- `scope.files = list(set(f for f in scope.files if f))`, the Python
set modelled as first-occurrence deduplication (the claims below only
use membership). -/
def extract_scope_files (command : String) : List String :=
  ((filesRaw command).filter (fun f => f ≠ "")).dedup

/-- Lines 234–244 of `queue_manager.py`: the `estimated_scope` decision,
parameterised over the extracted lists. -/
def estimatedScopeOf (files directories modules : List String)
    (command_lower : String) : String :=
  if files ≠ [] then "file"
  else if directories ≠ [] then "directory"
  else if modules ≠ [] then "module"
  else if strContains command_lower "all" ∨ strContains command_lower "project"
    ∨ strContains command_lower "everything" then "project"
  else "unknown"

/-! # Theorems -/

/-! ## Basic lemmas about the conflict analyzer -/
theorem listsIntersect_iff (xs ys : List String) :
    listsIntersect xs ys = true ↔ ∃ x, x ∈ xs ∧ x ∈ ys := by
  simp [listsIntersect, List.any_eq_true, List.elem_iff]

theorem listsIntersect_comm (xs ys : List String) :
    listsIntersect xs ys = listsIntersect ys xs := by
  rw [Bool.eq_iff_iff, listsIntersect_iff, listsIntersect_iff]
  exact ⟨fun ⟨x, h1, h2⟩ => ⟨x, h2, h1⟩, fun ⟨x, h1, h2⟩ => ⟨x, h2, h1⟩⟩

theorem has_file_overlap_comm (a b : ScopeInfo) :
    has_file_overlap a b = has_file_overlap b a :=
  listsIntersect_comm _ _

theorem has_directory_overlap_comm (a b : ScopeInfo) :
    has_directory_overlap a b = has_directory_overlap b a :=
  listsIntersect_comm _ _

theorem has_import_relationship_comm (a b : ScopeInfo) :
    has_import_relationship a b = has_import_relationship b a :=
  Bool.or_comm _ _

/-- The decision structure of `analyze_conflict_level` collapsed to one
three-way split (the first two HARD branches merge, and the truthiness
guards are absorbed into the membership tests). -/
theorem analyze_conflict_level_eq (a b : Task) :
    analyze_conflict_level a b =
      (if a.id ∈ b.depends_on ∨ b.id ∈ a.depends_on ∨
          has_file_overlap a.scope b.scope = true then ConflictLevel.HARD
       else if has_directory_overlap a.scope b.scope = true ∨
          has_import_relationship a.scope b.scope = true then ConflictLevel.SOFT
       else ConflictLevel.NONE) := by
  have hne : ∀ (l : List String) (x : String), x ∈ l → l ≠ [] := by
    intro l x h hl; subst hl; simp at h
  unfold analyze_conflict_level
  by_cases h1 : a.id ∈ b.depends_on
  · simp [h1, hne _ _ h1, List.elem_iff]
  · by_cases h2 : b.id ∈ a.depends_on
    · simp [h1, h2, hne _ _ h2, List.elem_iff]
    · by_cases h3 : has_file_overlap a.scope b.scope = true <;>
        by_cases h4 : has_directory_overlap a.scope b.scope = true <;>
        by_cases h5 : has_import_relationship a.scope b.scope = true <;>
        simp [h1, h2, h3, h4, h5, List.elem_iff]

/-- Helper form of the symmetry fact, shared by several developments:
`analyze_conflict_level` is symmetric in its two arguments. -/
theorem analyze_conflict_level_symm (a b : Task) :
    analyze_conflict_level a b = analyze_conflict_level b a := by
  rw [analyze_conflict_level_eq, analyze_conflict_level_eq,
    has_file_overlap_comm, has_directory_overlap_comm, has_import_relationship_comm]
  by_cases h1 : a.id ∈ b.depends_on <;>
    by_cases h2 : b.id ∈ a.depends_on <;>
    by_cases h3 : has_file_overlap b.scope a.scope = true <;>
    by_cases h4 : has_directory_overlap b.scope a.scope = true <;>
    by_cases h5 : has_import_relationship b.scope a.scope = true <;>
    simp [h1, h2, h3, h4, h5]

/-! ## Claim C2: shared file forces a HARD conflict level -/
/-- C2: for every pair of tasks whose scope file sets intersect,
`analyze_conflict_level` returns HARD, regardless of any other overlap
between the scopes (the earlier explicit-dependency branches also return
HARD, and the file check precedes the directory/import branches). -/
theorem claim_C2_shared_file_hard (a b : Task)
    (h : ∃ f, f ∈ a.scope.files ∧ f ∈ b.scope.files) :
    analyze_conflict_level a b = ConflictLevel.HARD := by
  rw [analyze_conflict_level_eq]
  have hfile : has_file_overlap a.scope b.scope = true :=
    (listsIntersect_iff _ _).mpr h
  rw [if_pos (Or.inr (Or.inr hfile))]

/-- Concrete instance discharging C2's hypothesis: two tasks touching
`auth.ts` with additional directory and module overlap still classify HARD. -/
theorem claim_C2_shared_file_hard_witness :
    analyze_conflict_level
      { id := "task-a", scope := { files := ["auth.ts"], directories := ["src/"] } }
      { id := "task-b", scope := { files := ["auth.ts", "db.ts"], modules := ["auth"] } }
      = ConflictLevel.HARD :=
  claim_C2_shared_file_hard _ _ ⟨"auth.ts", by simp, by simp⟩

/-! ## Claim C10: symmetry of the conflict level -/
/-- C10: `analyze_conflict_level` is symmetric, although each individual
check (dependency direction, export/import direction) is written
directionally: every branch condition is itself symmetric once both
directions are disjoined, and the two HARD dependency branches merge. -/
theorem claim_C10_conflict_level_symmetric (a b : Task) :
    analyze_conflict_level a b = analyze_conflict_level b a :=
  analyze_conflict_level_symm a b

/-- C6 is false on the code: `src/` is a proper path-prefix of
`src/auth/`, the tasks have no explicit dependency and no shared file,
yet `analyze_conflict_level` returns NONE, not SOFT —
`_has_directory_overlap` only tests exact set intersection. -/
theorem claim_C6_counterexample :
    strStartsWith "src/auth/" "src/" = true ∧ "src/" ≠ "src/auth/" ∧
    c6TaskA.depends_on = [] ∧ c6TaskB.depends_on = [] ∧
    c6TaskA.scope.files = [] ∧ c6TaskB.scope.files = [] ∧
    analyze_conflict_level c6TaskA c6TaskB = ConflictLevel.NONE := by
  refine ⟨by decide, by decide, rfl, rfl, rfl, rfl, by decide⟩

/-- C6 amended: the SOFT directory rule requires an exactly shared
directory string (non-empty intersection of the directory sets); a mere
path-prefix relation between different directory strings is invisible to
`analyze_conflict_level`.  With no explicit dependency in either
direction and no shared file, a shared directory yields SOFT. -/
theorem claim_C6_amended (a b : Task)
    (hdep1 : a.id ∉ b.depends_on) (hdep2 : b.id ∉ a.depends_on)
    (hfile : ¬ ∃ f, f ∈ a.scope.files ∧ f ∈ b.scope.files)
    (hdir : ∃ d, d ∈ a.scope.directories ∧ d ∈ b.scope.directories) :
    analyze_conflict_level a b = ConflictLevel.SOFT := by
  rw [analyze_conflict_level_eq]
  have h3 : ¬ has_file_overlap a.scope b.scope = true := by
    intro hc
    exact hfile ((listsIntersect_iff _ _).mp hc)
  have h4 : has_directory_overlap a.scope b.scope = true :=
    (listsIntersect_iff _ _).mpr hdir
  rw [if_neg (by
    rintro (h | h | h)
    · exact hdep1 h
    · exact hdep2 h
    · exact h3 h)]
  rw [if_pos (Or.inl h4)]

/-- Concrete instance discharging the amended C6: two tasks sharing the
directory string `src/auth/` exactly, with no deps and no files, are SOFT. -/
theorem claim_C6_amended_witness :
    analyze_conflict_level
      { id := "task-c6c", scope := { directories := ["src/auth/"] } }
      { id := "task-c6d", scope := { directories := ["src/auth/", "lib/"] } }
      = ConflictLevel.SOFT :=
  claim_C6_amended _ _ (by decide) (by decide) (by decide)
    ⟨"src/auth/", by simp, by simp⟩

/-! ## Claim C1: what `detect_conflicts` reports vs `analyze_conflict_level` -/
theorem setInterList_eq_nil_iff (xs ys : List String) :
    setInterList xs ys = [] ↔ ¬ ∃ x, x ∈ xs ∧ x ∈ ys := by
  simp [setInterList, List.dedup_eq_nil, List.filter_eq_nil_iff, List.elem_iff]

/-- Non-emptiness of the `conflict_reasons` list, characterised by the
three scope relations `detect_conflicts` actually looks at. -/
theorem conflict_reasons_ne_nil_iff (ns es : ScopeInfo) :
    conflict_reasons ns es ≠ [] ↔
      ((∃ f, f ∈ ns.files ∧ f ∈ es.files) ∨
       (∃ m, m ∈ ns.modules ∧ m ∈ es.modules) ∨
       (∃ nd ed, nd ∈ ns.directories ∧ ed ∈ es.directories ∧
          (strStartsWith nd ed = true ∨ strStartsWith ed nd = true))) := by
  rw [← not_iff_not]
  push_neg
  unfold conflict_reasons
  constructor
  · intro h
    rw [List.append_eq_nil, List.append_eq_nil] at h
    obtain ⟨⟨hf, hm⟩, hd⟩ := h
    refine ⟨?_, ?_, ?_⟩
    · intro f hf1 hf2
      have hnil : setInterList ns.files es.files = [] := by
        by_contra hne; simp [hne] at hf
      exact ((setInterList_eq_nil_iff _ _).mp hnil) ⟨f, hf1, hf2⟩
    · intro m hm1 hm2
      have hnil : setInterList ns.modules es.modules = [] := by
        by_contra hne; simp [hne] at hm
      exact ((setInterList_eq_nil_iff _ _).mp hnil) ⟨m, hm1, hm2⟩
    · intro nd ed hnd hed
      have h1 := List.flatMap_eq_nil_iff.mp hd nd hnd
      have h2 := List.filterMap_eq_nil_iff.mp h1 ed hed
      refine ⟨fun hsw => ?_, fun hsw => ?_⟩ <;>
        · rw [if_pos (by simp [hsw])] at h2
          exact Option.some_ne_none _ h2
  · rintro ⟨hf, hm, hd⟩
    rw [List.append_eq_nil, List.append_eq_nil]
    refine ⟨⟨?_, ?_⟩, ?_⟩
    · rw [if_neg (not_not.mpr ((setInterList_eq_nil_iff _ _).mpr
        (fun ⟨x, h1, h2⟩ => hf x h1 h2)))]
    · rw [if_neg (not_not.mpr ((setInterList_eq_nil_iff _ _).mpr
        (fun ⟨x, h1, h2⟩ => hm x h1 h2)))]
    · rw [List.flatMap_eq_nil_iff]
      intro nd hnd
      rw [List.filterMap_eq_nil_iff]
      intro ed hed
      rw [if_neg]
      intro hsw
      rcases (Bool.or_eq_true _ _).mp hsw with h | h
      · exact (hd nd ed hnd hed).1 h
      · exact (hd nd ed hnd hed).2 h

/-- C1 is false on the code: with an explicit dependency of B on A and
all-empty scopes, `conflict_level` is HARD (≠ NONE) and the tasks share
no module, yet `detect_conflicts(A,[B])` reports nothing — the claimed
equivalence fails in the right-to-left direction because
`detect_conflicts` never looks at `depends_on` (nor at imports/exports). -/
theorem claim_C1_counterexample :
    c1TaskB.status = "queued" ∧
    detect_conflicts c1TaskA [c1TaskB] = [] ∧
    analyze_conflict_level c1TaskA c1TaskB = ConflictLevel.HARD ∧
    ¬ ∃ m, m ∈ c1TaskA.scope.modules ∧ m ∈ c1TaskB.scope.modules := by
  refine ⟨rfl, by decide, by decide, by decide⟩

/-- C1 amended: for B queued or running, `detect_conflicts(A,[B])`
reports a conflict for B **iff** the two scopes share a file, share a
module name, or contain a pair of directories related by string prefix
(in either direction).  Explicit dependencies and import/export
relations — which do raise `conflict_level` — are invisible to
`detect_conflicts`, and prefix-related (non-equal) directories trigger a
report without raising `conflict_level`. -/
theorem claim_C1_amended (A B : Task)
    (hst : B.status = "queued" ∨ B.status = "running") :
    (∃ c, c ∈ detect_conflicts A [B] ∧ c.task_id = B.id) ↔
      ((∃ f, f ∈ A.scope.files ∧ f ∈ B.scope.files) ∨
       (∃ m, m ∈ A.scope.modules ∧ m ∈ B.scope.modules) ∨
       (∃ nd ed, nd ∈ A.scope.directories ∧ ed ∈ B.scope.directories ∧
          (strStartsWith nd ed = true ∨ strStartsWith ed nd = true))) := by
  rw [← conflict_reasons_ne_nil_iff A.scope B.scope]
  unfold detect_conflicts
  rw [show ([B].flatMap _) = _ from List.flatMap_cons .., List.flatMap_nil, List.append_nil]
  rw [if_neg (by rcases hst with h | h <;> simp [h])]
  by_cases hr : conflict_reasons A.scope B.scope ≠ []
  · rw [if_pos hr]
    simp only [List.mem_singleton]
    exact ⟨fun _ => hr, fun _ => ⟨_, rfl, rfl⟩⟩
  · rw [if_neg hr]
    simp only [List.not_mem_nil, false_and, exists_false, false_iff]
    exact hr

/-- Concrete instance discharging the amended C1's hypothesis: a shared
module name `auth` (with nothing else shared) produces a report for B. -/
theorem claim_C1_amended_witness :
    (∃ c, c ∈ detect_conflicts
        { id := "task-c1c", scope := { modules := ["auth"] } }
        [{ id := "task-c1d", scope := { modules := ["auth", "db"] } }] ∧
      c.task_id = "task-c1d") :=
  (claim_C1_amended _ _ (Or.inl rfl)).mpr (Or.inr (Or.inl ⟨"auth", by simp, by simp⟩))

theorem c7_score_before : match_score c7Task c7Ctx1 = 16 / 25 := by
  have hf : calculate_file_overlap c7Task.scope c7Ctx1 = 4 / 5 := by
    simp only [calculate_file_overlap]
    rw [if_neg (by decide), if_neg (by decide), if_pos (by decide)]
    rw [show (c7Task.scope.files.toFinset.image pathName ∩
        c7Ctx1.files.image pathName).card = 2 from by decide]
    rw [show c7Task.scope.files.toFinset.card = 2 from by decide]
    norm_num
  have hm : calculate_module_overlap c7Task.scope c7Ctx1 = 0 := by
    simp only [calculate_module_overlap]
    rw [if_pos (by decide)]
  have hd : calculate_directory_overlap c7Task.scope c7Ctx1 = 0 := by
    simp only [calculate_directory_overlap]
    rw [if_pos (by decide)]
  simp only [match_score]
  rw [if_neg (by decide), hf, hm, hd]
  rw [show max ((4:ℚ)/5) (max 0 0) = 4/5 from by norm_num [max_def]]
  norm_num [min_def, max_def]

/-- The context after `add_file "a/x.ts"`: the file is recorded exactly,
its one-character stem and parent name are too short to become modules,
and the parent directory `a/` is recorded. -/
theorem c7_add_file_eval :
    c7Ctx1.add_file "a/x.ts" =
      { files := {"a/x.ts", "c/x.ts", "d/y.ts"}, directories := {"a/"} } := by
  decide

theorem c7_score_after : match_score c7Task (c7Ctx1.add_file "a/x.ts") = 2 / 5 := by
  rw [c7_add_file_eval]
  have hf : calculate_file_overlap c7Task.scope
      { files := {"a/x.ts", "c/x.ts", "d/y.ts"}, directories := {"a/"} } = 1 / 2 := by
    simp only [calculate_file_overlap]
    rw [if_neg (by decide), if_pos (by decide)]
    rw [show (c7Task.scope.files.toFinset ∩
        ({"a/x.ts", "c/x.ts", "d/y.ts"} : Finset String)).card = 1 from by decide]
    rw [show c7Task.scope.files.toFinset.card = 2 from by decide]
    norm_num
  have hm : calculate_module_overlap c7Task.scope
      { files := {"a/x.ts", "c/x.ts", "d/y.ts"}, directories := {"a/"} } = 0 := by
    simp only [calculate_module_overlap]
    rw [if_pos (by decide)]
  have hd : calculate_directory_overlap c7Task.scope
      { files := {"a/x.ts", "c/x.ts", "d/y.ts"}, directories := {"a/"} } = 0 := by
    simp only [calculate_directory_overlap]
    rw [if_pos (by decide)]
  simp only [match_score]
  rw [if_neg (by decide), hf, hm, hd]
  rw [show max ((1:ℚ)/2) (max 0 0) = 1/2 from by norm_num [max_def]]
  norm_num [min_def, max_def]

/-- C7 is false on the code: adding the exactly-matching file `a/x.ts`
to the context (via `add_file`) DROPS the score from 16/25 to 2/5,
because the exact-match branch (1 of 2 files) replaces the stronger
filename-fallback branch (2 of 2 filenames × 0.8). -/
theorem claim_C7_counterexample :
    "a/x.ts" ∈ c7Task.scope.files ∧
    match_score c7Task (c7Ctx1.add_file "a/x.ts") < match_score c7Task c7Ctx1 := by
  refine ⟨by decide, ?_⟩
  rw [c7_score_before, c7_score_after]
  norm_num

theorem c7M_score_before : match_score c7TaskM c7CtxM = 4 / 5 := by
  have hf : calculate_file_overlap c7TaskM.scope c7CtxM = 1 / 3 := by
    simp only [calculate_file_overlap]
    rw [if_neg (by decide), if_pos (by decide)]
    rw [show (c7TaskM.scope.files.toFinset ∩ c7CtxM.files).card = 1 from by decide]
    rw [show c7TaskM.scope.files.toFinset.card = 3 from by decide]
    norm_num
  have hm : calculate_module_overlap c7TaskM.scope c7CtxM = 1 := by
    simp only [calculate_module_overlap]
    rw [if_neg (by decide), if_neg (by decide)]
    rw [show c7TaskM.scope.modules.toFinset.image pyLower =
        ({"nn", "zz", "ww"} : Finset String) from by decide]
    rw [show c7CtxM.modules.image pyLower =
        ({"nna", "nnb", "nnc", "nnd", "nne", "nnf"} : Finset String) from by decide]
    rw [show c7TaskM.scope.modules.toFinset.card = 3 from by decide]
    simp +decide only [Finset.sum_insert, Finset.mem_insert, Finset.mem_singleton,
      Finset.sum_singleton, strContains]
    norm_num [min_def]
  have hd : calculate_directory_overlap c7TaskM.scope c7CtxM = 0 := by
    simp only [calculate_directory_overlap]
    rw [if_pos (by decide)]
  simp only [match_score]
  rw [if_neg (by decide), hf, hm, hd]
  norm_num [min_def, max_def]

/-- The context after `add_file "e/nn.ts"`: the file is recorded, its
stem `nn` becomes a module, the one-character parent name `e` does not,
and the parent directory `e/` is recorded. -/
theorem c7M_add_file_eval :
    c7CtxM.add_file "e/nn.ts" =
      { files := {"e/nn.ts", "d/m.ts"},
        modules := {"nn", "nna", "nnb", "nnc", "nnd", "nne", "nnf"},
        directories := {"e/"} } := by decide

theorem c7M_score_after :
    match_score c7TaskM
      { files := {"e/nn.ts", "d/m.ts"},
        modules := {"nn", "nna", "nnb", "nnc", "nnd", "nne", "nnf"},
        directories := {"e/"} } = 8 / 15 := by
  have hf : calculate_file_overlap c7TaskM.scope
      { files := {"e/nn.ts", "d/m.ts"},
        modules := {"nn", "nna", "nnb", "nnc", "nnd", "nne", "nnf"},
        directories := {"e/"} } = 2 / 3 := by
    simp only [calculate_file_overlap]
    rw [if_neg (by decide), if_pos (by decide)]
    rw [show (c7TaskM.scope.files.toFinset ∩
        ({"e/nn.ts", "d/m.ts"} : Finset String)).card = 2 from by decide]
    rw [show c7TaskM.scope.files.toFinset.card = 3 from by decide]
    norm_num
  have hm : calculate_module_overlap c7TaskM.scope
      { files := {"e/nn.ts", "d/m.ts"},
        modules := {"nn", "nna", "nnb", "nnc", "nnd", "nne", "nnf"},
        directories := {"e/"} } = 1 / 3 := by
    simp only [calculate_module_overlap]
    rw [if_neg (by decide), if_pos (by decide)]
    rw [show (c7TaskM.scope.modules.toFinset.image pyLower ∩
        ({"nn", "nna", "nnb", "nnc", "nnd", "nne", "nnf"} : Finset String).image
          pyLower).card = 1 from by decide]
    rw [show c7TaskM.scope.modules.toFinset.card = 3 from by decide]
    norm_num
  have hd : calculate_directory_overlap c7TaskM.scope
      { files := {"e/nn.ts", "d/m.ts"},
        modules := {"nn", "nna", "nnb", "nnc", "nnd", "nne", "nnf"},
        directories := {"e/"} } = 0 := by
    simp only [calculate_directory_overlap]
    rw [if_pos (by decide)]
  simp only [match_score]
  rw [if_neg (by decide), hf, hm, hd]
  norm_num [min_def, max_def]

/-- Even with an exact file match already present, `add_file` of a
further exactly-matching file can DROP the score: the stem `nn` of
`e/nn.ts` becomes an exact (lowercased) module match, collapsing the
capped partial-substring module score 1 to the exact fraction 1/3, so
the score falls from 4/5 to 8/15.  This is why the amended C7 also
requires the module dimension to be in its exact regime already. -/
theorem c7_add_file_module_collapse :
    "e/nn.ts" ∈ c7TaskM.scope.files ∧
    (∃ g, g ∈ c7TaskM.scope.files ∧ g ∈ c7CtxM.files) ∧
    match_score c7TaskM (c7CtxM.add_file "e/nn.ts") < match_score c7TaskM c7CtxM := by
  refine ⟨by decide, ⟨"d/m.ts", by decide, by decide⟩, ?_⟩
  rw [c7M_add_file_eval, c7M_score_after, c7M_score_before]
  norm_num

/-- `add_file` only ever inserts into the context's file set. -/
theorem add_file_files_subset (c : SessionContext) (f : String) :
    c.files ⊆ (c.add_file f).files := by
  simp only [SessionContext.add_file]
  split_ifs <;> intro x hx <;> simp [Finset.mem_insert, hx]

/-- `add_file` only ever inserts into the context's module set. -/
theorem add_file_modules_subset (c : SessionContext) (f : String) :
    c.modules ⊆ (c.add_file f).modules := by
  simp only [SessionContext.add_file]
  split_ifs <;> intro x hx <;> simp [Finset.mem_insert, hx]

/-- `add_file` only ever inserts into the context's directory set. -/
theorem add_file_directories_subset (c : SessionContext) (f : String) :
    c.directories ⊆ (c.add_file f).directories := by
  simp only [SessionContext.add_file]
  split_ifs <;> intro x hx <;> simp [Finset.mem_insert, hx]

/-- In the exact-match regime (non-empty file intersection), the file
overlap score is monotone in the context's file set. -/
theorem calculate_file_overlap_mono (ts : ScopeInfo) (c c' : SessionContext)
    (hsub : c.files ⊆ c'.files)
    (hex : ts.files.toFinset ∩ c.files ≠ ∅) :
    calculate_file_overlap ts c ≤ calculate_file_overlap ts c' := by
  have hT : ¬ ts.files.toFinset = ∅ := by
    intro h
    apply hex
    rw [h, Finset.empty_inter]
  have hex' : ts.files.toFinset ∩ c'.files ≠ ∅ := by
    obtain ⟨x, hx⟩ := Finset.nonempty_of_ne_empty hex
    obtain ⟨hx1, hx2⟩ := Finset.mem_inter.mp hx
    exact Finset.ne_empty_of_mem (Finset.mem_inter.mpr ⟨hx1, hsub hx2⟩)
  simp only [calculate_file_overlap, if_neg hT, if_pos hex, if_pos hex']
  have hcard : ((ts.files.toFinset ∩ c.files).card : ℚ) ≤
      ((ts.files.toFinset ∩ c'.files).card : ℚ) := by
    exact_mod_cast Finset.card_le_card
      (Finset.inter_subset_inter (Finset.Subset.refl _) hsub)
  gcongr

/-- The module overlap score is monotone in the context's module set
when the task lists no modules (both sides 0) or an exact lowercased
module match is already present (both sides stay in the exact branch,
whose intersection only grows).  Without that the partial-substring
branch can be replaced by a smaller exact fraction
(`c7_add_file_module_collapse`). -/
theorem calculate_module_overlap_mono (ts : ScopeInfo) (c c' : SessionContext)
    (hsub : c.modules ⊆ c'.modules)
    (h : ts.modules = [] ∨
      ts.modules.toFinset.image pyLower ∩ c.modules.image pyLower ≠ ∅) :
    calculate_module_overlap ts c ≤ calculate_module_overlap ts c' := by
  rcases h with h | hex
  · simp [calculate_module_overlap, h]
  · have hT : ¬ ts.modules.toFinset = ∅ := by
      intro h0
      apply hex
      rw [h0, Finset.image_empty, Finset.empty_inter]
    have hex' : ts.modules.toFinset.image pyLower ∩ c'.modules.image pyLower ≠ ∅ := by
      obtain ⟨x, hx⟩ := Finset.nonempty_of_ne_empty hex
      obtain ⟨hx1, hx2⟩ := Finset.mem_inter.mp hx
      exact Finset.ne_empty_of_mem
        (Finset.mem_inter.mpr ⟨hx1, Finset.image_subset_image hsub hx2⟩)
    simp only [calculate_module_overlap, if_neg hT, if_pos hex, if_pos hex']
    have hcard : ((ts.modules.toFinset.image pyLower ∩ c.modules.image pyLower).card : ℚ) ≤
        ((ts.modules.toFinset.image pyLower ∩ c'.modules.image pyLower).card : ℚ) := by
      exact_mod_cast Finset.card_le_card
        (Finset.inter_subset_inter (Finset.Subset.refl _) (Finset.image_subset_image hsub))
    gcongr

/-- A guarded count/denominator quotient is monotone in the count. -/
theorem ite_count_div_mono (m n k : ℕ) (hmn : m ≤ n) :
    (if m ≠ 0 then (m : ℚ) / k else 0) ≤ (if n ≠ 0 then (n : ℚ) / k else 0) := by
  by_cases hm : m = 0
  · rw [if_neg (by simp [hm])]
    split_ifs
    · positivity
    · exact le_refl 0
  · have hn : n ≠ 0 := by omega
    rw [if_pos hm, if_pos hn]
    gcongr

/-- The directory overlap score is monotone in the context's directory
set unconditionally: the per-task-directory overlap test is existential
over the context directories. -/
theorem calculate_directory_overlap_mono (ts : ScopeInfo) (c c' : SessionContext)
    (hsub : c.directories ⊆ c'.directories) :
    calculate_directory_overlap ts c ≤ calculate_directory_overlap ts c' := by
  by_cases hT : ts.directories.toFinset = ∅
  · simp [calculate_directory_overlap, hT]
  · simp only [calculate_directory_overlap, if_neg hT]
    apply ite_count_div_mono
    apply Finset.card_le_card
    intro td htd
    rw [Finset.mem_filter] at htd ⊢
    obtain ⟨h1, cd, hcd, h2⟩ := htd
    exact ⟨h1, cd, hsub hcd, h2⟩

/-- C7 amended: under the code's `add_file` (which also records the
file's stem and parent name as modules and its parent directory), the
monotonicity needs both exact-match regimes to be established already:
the context holds a file exactly matching a task scope file (else the
0.8-weighted filename fallback can exceed the exact fraction — the
counterexample), and the task either lists no modules or already has an
exact lowercased module match in the context (else the added file's stem
can turn the capped partial-substring module score into a smaller exact
fraction — `c7_add_file_module_collapse`).  Under those hypotheses,
`add_file` of a file exactly matching a task scope file never decreases
`match_score`: the context's file, module and directory sets only grow,
and each overlap score is monotone in its exact regime. -/
theorem claim_C7_amended (task : Task) (ctx : SessionContext) (f : String)
    (hf : f ∈ task.scope.files)
    (hex : ∃ g, g ∈ task.scope.files ∧ g ∈ ctx.files)
    (hmod : task.scope.modules = [] ∨
      ∃ m, m ∈ task.scope.modules.toFinset.image pyLower ∩ ctx.modules.image pyLower) :
    match_score task (ctx.add_file f) ≥ match_score task ctx := by
  obtain ⟨g, hg1, hg2⟩ := hex
  have hgT : g ∈ task.scope.files.toFinset := List.mem_toFinset.mpr hg1
  have hexF : task.scope.files.toFinset ∩ ctx.files ≠ ∅ :=
    Finset.ne_empty_of_mem (Finset.mem_inter.mpr ⟨hgT, hg2⟩)
  have hfile := calculate_file_overlap_mono task.scope ctx (ctx.add_file f)
    (add_file_files_subset ctx f) hexF
  have hmodle := calculate_module_overlap_mono task.scope ctx (ctx.add_file f)
    (add_file_modules_subset ctx f)
    (by
      rcases hmod with h | ⟨m, hm⟩
      · exact Or.inl h
      · exact Or.inr (Finset.ne_empty_of_mem hm))
  have hdirle := calculate_directory_overlap_mono task.scope ctx (ctx.add_file f)
    (add_file_directories_subset ctx f)
  have hw1 : ctx.has_work = true := by
    simp only [SessionContext.has_work, decide_eq_true_eq]
    exact Or.inl (Finset.ne_empty_of_mem hg2)
  have hw2 : (ctx.add_file f).has_work = true := by
    simp only [SessionContext.has_work, decide_eq_true_eq]
    exact Or.inl (Finset.ne_empty_of_mem (add_file_files_subset ctx f hg2))
  simp only [match_score, ge_iff_le]
  rw [if_neg (by simp [hw1]), if_neg (by simp [hw2])]
  gcongr

/-- Concrete instance discharging the amended C7's hypotheses: a context
already holding the exact file `a/x.ts`, matched against a task with no
scope modules, only gains from `add_file` of the task's second file
`b/y.ts`. -/
theorem claim_C7_amended_witness :
    match_score { id := "task-c7w", scope := { files := ["a/x.ts", "b/y.ts"] } }
      (SessionContext.add_file { files := ({"a/x.ts"} : Finset String) } "b/y.ts") ≥
    match_score { id := "task-c7w", scope := { files := ["a/x.ts", "b/y.ts"] } }
      { files := ({"a/x.ts"} : Finset String) } :=
  claim_C7_amended _ { files := ({"a/x.ts"} : Finset String) } "b/y.ts"
    (by decide) ⟨"a/x.ts", by decide, by decide⟩ (Or.inl rfl)

/-! ## Claim C9: unknown task ids in start / complete / move -/
theorem markStarted_eq_none (tasks : List Task) (task_id now : String)
    (h : ∀ t ∈ tasks, t.id ≠ task_id) :
    markStarted task_id now tasks = none := by
  induction tasks with
  | nil => rfl
  | cons t ts ih =>
    unfold markStarted
    rw [if_neg (by simp [h t (List.mem_cons_self t ts)])]
    rw [ih (fun u hu => h u (List.mem_cons_of_mem _ hu))]
    rfl

theorem markMoved_eq_none (tasks : List Task) (task_id position : String)
    (h : ∀ t ∈ tasks, t.id ≠ task_id) :
    markMoved task_id position tasks = none := by
  induction tasks with
  | nil => rfl
  | cons t ts ih =>
    unfold markMoved
    rw [if_neg (by simp [h t (List.mem_cons_self t ts)])]
    rw [ih (fun u hu => h u (List.mem_cons_of_mem _ hu))]
    rfl

theorem markCompleted_eq_none (tasks : List Task) (task_id : String) (success : Bool)
    (em : Option String) (now : String)
    (h : ∀ t ∈ tasks, t.id ≠ task_id) :
    markCompleted task_id success em now tasks = none := by
  induction tasks with
  | nil => rfl
  | cons t ts ih =>
    unfold markCompleted
    rw [if_neg (by simp [h t (List.mem_cons_self t ts)])]
    rw [ih (fun u hu => h u (List.mem_cons_of_mem _ hu))]
    rfl

/-- C9 is false on the code for `complete`: completing an id that is not
in the store does NOT produce a structured not-found result — the loop
falls through and the returned dict reports `status = "completed"` with
no error field, exactly as for a successful completion. -/
theorem claim_C9_counterexample :
    (∀ t ∈ [c9Task], t.id ≠ "ghost") ∧
    complete [c9Task] "ghost" true none "t0" {} =
      some ([c9Task], {},
        { task_id := "ghost", status := "completed", chain_task := none,
          next_task := some c9Task, auto_execute := true,
          queue_empty := none, blocked_count := none }) := by
  exact ⟨by decide, by decide⟩

/-- C9 amended: `start` and `move` do return the structured not-found
result (store unchanged, error string naming the id) for an absent id,
but `complete` never reports not-found: whenever it returns at all for an
absent id, the result's status is the usual "completed"/"failed" of the
success flag, indistinguishable from a real completion. -/
theorem claim_C9_amended (tasks : List Task) (task_id now position : String)
    (success : Bool) (em : Option String) (hist : History)
    (out : List Task × History × CompleteResult)
    (h : ∀ t ∈ tasks, t.id ≠ task_id)
    (hout : complete tasks task_id success em now hist = some out) :
    start tasks task_id now =
        (tasks, StartResult.error ("Task " ++ task_id ++ " not found")) ∧
    move tasks task_id position =
        (tasks, MoveResult.error ("Task " ++ task_id ++ " not found")) ∧
    out.2.2.status = (if success then "completed" else "failed") := by
  refine ⟨?_, ?_, ?_⟩
  · unfold start
    rw [markStarted_eq_none tasks task_id now h]
  · unfold move
    rw [markMoved_eq_none tasks task_id position h]
  · unfold complete at hout
    rw [markCompleted_eq_none tasks task_id success em now h] at hout
    simp only at hout
    rcases hnr : (if success then
        DependencyResolver.get_next_executable (tasks.filter (fun t =>
          t.status ≠ "completed" ∧ t.status ≠ "failed" ∧ t.status ≠ "cancelled"))
      else some (DependencyResolver.get_independent_tasks (tasks.filter (fun t =>
          t.status ≠ "completed" ∧ t.status ≠ "failed" ∧ t.status ≠ "cancelled"))
            task_id).head?) with _ | nt
    · rw [hnr] at hout
      exact absurd hout (by simp)
    · rw [hnr] at hout
      have := Option.some_injective _ hout
      rw [← this]

/-- Concrete instance discharging the amended C9's hypotheses: the store
holds one task `task-c9w` while the operations reference `zzz`. -/
theorem claim_C9_amended_witness :
    start [{ id := "task-c9w", created_at := "1" }] "zzz" "t0" =
        ([{ id := "task-c9w", created_at := "1" }],
          StartResult.error "Task zzz not found") ∧
    move [{ id := "task-c9w", created_at := "1" }] "zzz" "first" =
        ([{ id := "task-c9w", created_at := "1" }],
          MoveResult.error "Task zzz not found") ∧
    ((([{ id := "task-c9w", created_at := "1" }], ({} : History),
      { task_id := "zzz", status := "completed", chain_task := none,
        next_task := some { id := "task-c9w", created_at := "1" },
        auto_execute := true, queue_empty := none, blocked_count := none })
        : List Task × History × CompleteResult)).2.2.status =
      (if true then "completed" else "failed") :=
  claim_C9_amended [{ id := "task-c9w", created_at := "1" }] "zzz" "t0" "first"
    true none {} _ (by decide) (by decide)

namespace DependencyResolver

/-! ### The sort key order -/
theorem charListLE_total : ∀ a b : List Char, charListLE a b = true ∨ charListLE b a = true
  | [], _ => by left; rfl
  | _ :: _, [] => by right; rfl
  | c :: cs, d :: ds => by
    rcases Nat.lt_trichotomy c.toNat d.toNat with h | h | h
    · left; simp [charListLE, h]
    · rcases charListLE_total cs ds with ih | ih
      · left; simp [charListLE, h, Nat.lt_irrefl, ih]
      · right; simp [charListLE, h.symm, Nat.lt_irrefl, ih]
    · right; simp [charListLE, h]

theorem charListLE_trans : ∀ a b c : List Char,
    charListLE a b = true → charListLE b c = true → charListLE a c = true
  | [], _, _ => by intro _ _; rfl
  | _ :: _, [], _ => by intro h _; simp [charListLE] at h
  | _ :: _, _ :: _, [] => by intro _ h; simp [charListLE] at h
  | a :: as, b :: bs, c :: cs => by
    intro h1 h2
    simp only [charListLE] at h1 h2 ⊢
    rcases Nat.lt_trichotomy a.toNat b.toNat with hab | hab | hab
    · have hle : b.toNat ≤ c.toNat := by
        by_cases hbc : b.toNat < c.toNat
        · omega
        · by_cases hbc2 : b.toNat = c.toNat
          · omega
          · rw [if_neg hbc, if_neg hbc2] at h2
            exact absurd h2 (by simp)
      rw [if_pos (by omega)]
    · rw [if_neg (by omega), if_pos hab] at h1
      by_cases hbc : b.toNat < c.toNat
      · rw [if_pos (by omega)]
      · rw [if_neg hbc] at h2
        by_cases hbc2 : b.toNat = c.toNat
        · rw [if_pos hbc2] at h2
          rw [if_neg (by omega), if_pos (by omega)]
          exact charListLE_trans as bs cs h1 h2
        · rw [if_neg hbc2] at h2
          exact absurd h2 (by simp)
    · rw [if_neg (by omega), if_neg (by omega)] at h1
      exact absurd h1 (by simp)

theorem charListLE_antisymm : ∀ a b : List Char,
    charListLE a b = true → charListLE b a = true → a = b
  | [], [] => by intro _ _; rfl
  | [], _ :: _ => by intro _ h; simp [charListLE] at h
  | _ :: _, [] => by intro h _; simp [charListLE] at h
  | a :: as, b :: bs => by
    intro h1 h2
    simp only [charListLE] at h1 h2
    rcases Nat.lt_trichotomy a.toNat b.toNat with hab | hab | hab
    · rw [if_neg (by omega), if_neg (by omega)] at h2; exact absurd h2 (by simp)
    · rw [if_neg (by omega), if_pos hab] at h1
      rw [if_neg (by omega), if_pos hab.symm] at h2
      have : a = b := Char.ext (UInt32.ext hab)
      rw [this, charListLE_antisymm as bs h1 h2]
    · rw [if_neg (by omega), if_neg (by omega)] at h1; exact absurd h1 (by simp)

theorem strLE_total (a b : String) : strLE a b = true ∨ strLE b a = true :=
  charListLE_total a.data b.data

theorem strLE_trans {a b c : String} (h1 : strLE a b = true) (h2 : strLE b c = true) :
    strLE a c = true :=
  charListLE_trans a.data b.data c.data h1 h2

theorem strLE_antisymm {a b : String} (h1 : strLE a b = true) (h2 : strLE b a = true) :
    a = b := by
  cases a; cases b
  exact congrArg String.mk (charListLE_antisymm _ _ h1 h2)

theorem strLE_refl (a : String) : strLE a a = true := by
  rcases strLE_total a a with h | h <;> exact h

theorem keyLE_refl (a : Nat × String) : keyLE a a = true := by
  simp [keyLE, strLE_refl]

theorem keyLE_total (a b : Nat × String) : keyLE a b = true ∨ keyLE b a = true := by
  simp only [keyLE, Bool.or_eq_true, Bool.and_eq_true, beq_iff_eq, decide_eq_true_eq]
  rcases Nat.lt_trichotomy a.1 b.1 with h | h | h
  · left; left; exact h
  · rcases strLE_total a.2 b.2 with hs | hs
    · left; right; exact ⟨by exact_mod_cast h, hs⟩
    · right; right; exact ⟨by exact_mod_cast h.symm, hs⟩
  · right; left; exact h

theorem keyLE_trans {a b c : Nat × String} (h1 : keyLE a b = true) (h2 : keyLE b c = true) :
    keyLE a c = true := by
  simp only [keyLE, Bool.or_eq_true, Bool.and_eq_true, beq_iff_eq, decide_eq_true_eq] at h1 h2 ⊢
  rcases h1 with h1 | ⟨h1e, h1s⟩ <;> rcases h2 with h2 | ⟨h2e, h2s⟩
  · exact Or.inl (h1.trans h2)
  · exact Or.inl (by omega)
  · exact Or.inl (by omega)
  · exact Or.inr ⟨by omega, strLE_trans h1s h2s⟩

theorem keyLE_antisymm {a b : Nat × String} (h1 : keyLE a b = true) (h2 : keyLE b a = true) :
    a = b := by
  simp only [keyLE, Bool.or_eq_true, Bool.and_eq_true, beq_iff_eq, decide_eq_true_eq] at h1 h2
  rcases h1 with h1 | ⟨h1e, h1s⟩ <;> rcases h2 with h2 | ⟨h2e, h2s⟩
  · omega
  · omega
  · omega
  · exact Prod.ext (by omega) (strLE_antisymm h1s h2s)

theorem keyLE_of_not_keyLE {a b : Nat × String} (h : ¬ keyLE a b = true) :
    keyLE b a = true ∧ a ≠ b := by
  rcases keyLE_total a b with h1 | h1
  · exact absurd h1 h
  · refine ⟨h1, fun he => h (he ▸ keyLE_refl a)⟩

/-! ### The stable insertion sort -/
theorem insertSorted_perm {α : Type} (key : α → Nat × String) (x : α) (l : List α) :
    List.Perm (insertSorted key x l) (x :: l) := by
  induction l with
  | nil => exact List.Perm.refl _
  | cons y ys ih =>
    unfold insertSorted
    by_cases h : keyLE (key x) (key y) = true
    · rw [if_pos h]
    · rw [if_neg h]
      exact (List.Perm.cons y ih).trans (List.Perm.swap x y ys)

theorem mem_insertSorted {α : Type} (key : α → Nat × String) (x : α) (l : List α) (z : α) :
    z ∈ insertSorted key x l ↔ z = x ∨ z ∈ l := by
  rw [(insertSorted_perm key x l).mem_iff]
  simp

theorem insertSorted_sorted {α : Type} (key : α → Nat × String) (x : α) (l : List α)
    (h : l.Pairwise (fun u v => keyLE (key u) (key v) = true)) :
    (insertSorted key x l).Pairwise (fun u v => keyLE (key u) (key v) = true) := by
  induction l with
  | nil => simp [insertSorted]
  | cons y ys ih =>
    rcases List.pairwise_cons.mp h with ⟨hy, hys⟩
    unfold insertSorted
    by_cases hxy : keyLE (key x) (key y) = true
    · rw [if_pos hxy]
      refine List.pairwise_cons.mpr ⟨?_, h⟩
      intro z hz
      rcases List.mem_cons.mp hz with rfl | hz
      · exact hxy
      · exact keyLE_trans hxy (hy z hz)
    · rw [if_neg hxy]
      refine List.pairwise_cons.mpr ⟨?_, ih hys⟩
      intro z hz
      rcases (mem_insertSorted key x ys z).mp hz with rfl | hz
      · exact (keyLE_of_not_keyLE hxy).1
      · exact hy z hz

/-- Stability, in pairwise form: any relation guaranteed between
equal-key elements in list order survives the sort. -/
theorem insertSorted_pairwise_cond {α : Type} (key : α → Nat × String) (S : α → α → Prop)
    (x : α) (l : List α)
    (hx : ∀ y ∈ l, key x = key y → S x y)
    (h : l.Pairwise (fun u v => key u = key v → S u v)) :
    (insertSorted key x l).Pairwise (fun u v => key u = key v → S u v) := by
  induction l with
  | nil => simp [insertSorted]
  | cons y ys ih =>
    rcases List.pairwise_cons.mp h with ⟨hy, hys⟩
    unfold insertSorted
    by_cases hxy : keyLE (key x) (key y) = true
    · rw [if_pos hxy]
      exact List.pairwise_cons.mpr ⟨hx, h⟩
    · rw [if_neg hxy]
      refine List.pairwise_cons.mpr ⟨?_, ih (fun z hz => hx z (List.mem_cons_of_mem _ hz)) hys⟩
      intro z hz
      rcases (mem_insertSorted key x ys z).mp hz with rfl | hz
      · intro he; exact absurd he.symm (keyLE_of_not_keyLE hxy).2
      · exact hy z hz

theorem sortByKey_perm {α : Type} (key : α → Nat × String) (l : List α) :
    List.Perm (sortByKey key l) l := by
  induction l with
  | nil => exact List.Perm.refl _
  | cons x xs ih =>
    exact (insertSorted_perm key x (sortByKey key xs)).trans (List.Perm.cons x ih)

theorem sortByKey_sorted {α : Type} (key : α → Nat × String) (l : List α) :
    (sortByKey key l).Pairwise (fun u v => keyLE (key u) (key v) = true) := by
  induction l with
  | nil => simp [sortByKey]
  | cons x xs ih => exact insertSorted_sorted key x _ ih

theorem sortByKey_pairwise_cond {α : Type} (key : α → Nat × String) (S : α → α → Prop)
    (l : List α) (h : l.Pairwise (fun u v => key u = key v → S u v)) :
    (sortByKey key l).Pairwise (fun u v => key u = key v → S u v) := by
  induction l with
  | nil => simp [sortByKey]
  | cons x xs ih =>
    rcases List.pairwise_cons.mp h with ⟨hx, hxs⟩
    exact insertSorted_pairwise_cond key S x _
      (fun y hy he => hx y ((sortByKey_perm key xs).mem_iff.mp hy) he) (ih hxs)

/-! ### Association list facts -/
theorem aGet?_cons_self {α : Type} (k : String) (v0 : α) (l : Assoc α) :
    aGet? ((k, v0) :: l) k = some v0 := by
  unfold aGet?
  rw [List.find?_cons_of_pos _ (by simp)]
  rfl

theorem aGet?_cons_ne {α : Type} (k0 : String) (v0 : α) (l : Assoc α) (k : String)
    (h : k0 ≠ k) : aGet? ((k0, v0) :: l) k = aGet? l k := by
  unfold aGet?
  rw [List.find?_cons_of_neg _ (by simp [h])]

theorem aGet?_aSet_self {α : Type} (m : Assoc α) (k : String) (v : α) :
    aGet? (aSet m k v) k = some v := by
  induction m with
  | nil => exact aGet?_cons_self k v []
  | cons p rest ih =>
    rcases p with ⟨k', v'⟩
    by_cases h : k' = k
    · rw [show aSet ((k', v') :: rest) k v = (k, v) :: rest from if_pos h]
      exact aGet?_cons_self k v rest
    · rw [show aSet ((k', v') :: rest) k v = (k', v') :: aSet rest k v from if_neg h]
      rw [aGet?_cons_ne k' v' _ k h]
      exact ih

theorem aGet?_aSet_ne {α : Type} (m : Assoc α) (k k' : String) (v : α) (h : k' ≠ k) :
    aGet? (aSet m k v) k' = aGet? m k' := by
  induction m with
  | nil =>
    rw [show aSet ([] : Assoc α) k v = [(k, v)] from rfl]
    rw [aGet?_cons_ne k v [] k' (Ne.symm h)]
  | cons p rest ih =>
    rcases p with ⟨k0, v0⟩
    by_cases h0 : k0 = k
    · have h1 : k0 ≠ k' := by rw [h0]; exact Ne.symm h
      rw [show aSet ((k0, v0) :: rest) k v = (k, v) :: rest from if_pos h0,
        aGet?_cons_ne k v rest k' (Ne.symm h), aGet?_cons_ne k0 v0 rest k' h1]
    · rw [show aSet ((k0, v0) :: rest) k v = (k0, v0) :: aSet rest k v from if_neg h0]
      by_cases h1 : k0 = k'
      · subst h1
        rw [aGet?_cons_self, aGet?_cons_self]
      · rw [aGet?_cons_ne k0 v0 _ k' h1, aGet?_cons_ne k0 v0 rest k' h1]
        exact ih

/-- With distinct ids, the lookup of a keyed `tasks.map` is the value at
the (unique) task with that id. -/
theorem aGet?_map_id {α : Type} (tasks : List Task) (f : Task → α)
    (hnd : (idsOf tasks).Nodup) (v : Task) (hv : v ∈ tasks) :
    aGet? (tasks.map (fun u => (u.id, f u))) v.id = some (f v) := by
  induction tasks with
  | nil => cases hv
  | cons t ts ih =>
    rcases List.mem_cons.mp hv with rfl | hv'
    · rw [List.map_cons]
      exact aGet?_cons_self v.id (f v) _
    · have hne : t.id ≠ v.id := by
        intro he
        have : v.id ∈ ts.map (fun u => u.id) := List.mem_map_of_mem _ hv'
        rw [← he] at this
        exact (List.nodup_cons.mp hnd).1 this
      rw [List.map_cons, aGet?_cons_ne t.id (f t) _ v.id hne]
      exact ih (List.nodup_cons.mp hnd).2 hv'

theorem aGet?_map_id_none {α : Type} (tasks : List Task) (f : Task → α)
    (i : String) (hi : ¬ i ∈ idsOf tasks) :
    aGet? (tasks.map (fun u => (u.id, f u))) i = none := by
  induction tasks with
  | nil => rfl
  | cons t ts ih =>
    have h1 : t.id ≠ i := fun he => hi (by rw [← he]; exact List.mem_map_of_mem _ (by simp))
    have h2 : ¬ i ∈ idsOf ts := fun hm => hi (by
      rcases List.mem_map.mp hm with ⟨u, hu, he⟩
      exact he ▸ List.mem_map_of_mem _ (List.mem_cons_of_mem _ hu))
    rw [List.map_cons, aGet?_cons_ne t.id (f t) _ i h1]
    exact ih h2

/-- `aSet` on a keyed `tasks.map` at an existing id rewrites that single
value (functional-update view). -/
theorem aSet_map_id {α : Type} (tasks : List Task) (f : Task → α)
    (hnd : (idsOf tasks).Nodup) (v : Task) (hv : v ∈ tasks) (x : α) :
    aSet (tasks.map (fun u => (u.id, f u))) v.id x =
      tasks.map (fun u => (u.id, if u.id = v.id then x else f u)) := by
  induction tasks with
  | nil => cases hv
  | cons t ts ih =>
    by_cases hte : t.id = v.id
    · rw [List.map_cons,
        show aSet ((t.id, f t) :: ts.map (fun u => (u.id, f u))) v.id x =
          (v.id, x) :: ts.map (fun u => (u.id, f u)) from if_pos hte,
        List.map_cons, if_pos hte]
      have htail : ts.map (fun u => (u.id, f u)) =
          ts.map (fun u => (u.id, if u.id = v.id then x else f u)) := by
        apply List.map_congr_left
        intro u hu
        have hne : u.id ≠ v.id := by
          intro he
          have : v.id ∈ ts.map (fun w => w.id) := he ▸ List.mem_map_of_mem _ hu
          rw [← hte] at this
          exact (List.nodup_cons.mp hnd).1 this
        rw [if_neg hne]
      rw [← htail, ← hte]
    · have hv' : v ∈ ts := by
        rcases List.mem_cons.mp hv with rfl | hv'
        · exact absurd rfl hte
        · exact hv'
      rw [List.map_cons,
        show aSet ((t.id, f t) :: ts.map (fun u => (u.id, f u))) v.id x =
          (t.id, f t) :: aSet (ts.map (fun u => (u.id, f u))) v.id x from if_neg hte,
        List.map_cons, if_neg hte, ih (List.nodup_cons.mp hnd).2 hv']

/-- Tasks with pairwise-distinct ids are themselves pairwise distinct,
and equal ids identify equal tasks. -/
theorem task_id_inj {tasks : List Task} (hnd : (idsOf tasks).Nodup)
    {u v : Task} (hu : u ∈ tasks) (hv : v ∈ tasks) (h : u.id = v.id) : u = v :=
  List.inj_on_of_nodup_map hnd hu hv h

/-! ### `buildGraphInd` computes `adjSpec` and the present-dep counts -/
theorem aSet_fresh_append {α : Type} (m : Assoc α) (k : String) (v : α)
    (h : ¬ k ∈ m.map (fun p => p.1)) :
    aSet m k v = m ++ [(k, v)] := by
  induction m with
  | nil => rfl
  | cons p rest ih =>
    rcases p with ⟨k0, v0⟩
    have h1 : k0 ≠ k := fun he => h (by simp [he])
    simp only [aSet, show ((k0 == k) = false) from beq_eq_false_iff_ne.mpr h1]
    rw [if_neg (by simp [h1]), ih (fun hm => h (by simp [hm]))]
    rfl

theorem foldl_aSet_const {α : Type} (c : α) :
    ∀ (ts : List Task) (m : Assoc α),
    (∀ t ∈ ts, ¬ t.id ∈ m.map (fun p => p.1)) → (idsOf ts).Nodup →
    ts.foldl (fun g t => aSet g t.id c) m = m ++ ts.map (fun t => (t.id, c))
  | [], m => by intro _ _; simp
  | t :: ts, m => by
    intro hfresh hnd
    have h1 : aSet m t.id c = m ++ [(t.id, c)] :=
      aSet_fresh_append m t.id c (hfresh t (by simp))
    simp only [List.foldl_cons, h1]
    rw [foldl_aSet_const c ts (m ++ [(t.id, c)]) ?_ (List.nodup_cons.mp hnd).2]
    · simp
    · intro u hu
      simp only [List.map_append, List.mem_append]
      rintro (hm | hm)
      · exact hfresh u (List.mem_cons_of_mem _ hu) hm
      · have hui : u.id = t.id := by simpa using hm
        have hmem : t.id ∈ ts.map (fun w => w.id) := by
          rw [← hui]; exact List.mem_map_of_mem _ hu
        exact (List.nodup_cons.mp hnd).1 hmem

theorem adjSpec_append (P : List Task) (t : Task) (i : String) :
    adjSpec (P ++ [t]) i =
      adjSpec P i ++ (t.depends_on.filter (fun d => d == i)).map (fun _ => t.id) := by
  simp [adjSpec]

/-- Inner dependency fold: processing the deps `D` of task `t` appends
`t.id` to the adjacency of each present dep occurrence and adds the
number of present occurrences to `t`'s in-degree. -/
theorem depsFold_rep (tasks : List Task) (hnd : (idsOf tasks).Nodup) (t : Task)
    (ht : t ∈ tasks) :
    ∀ (D : List String) (fG : Task → List String) (fI : Task → Int),
    D.foldl (edgeStep t)
      (tasks.map (fun u => (u.id, fG u)), tasks.map (fun u => (u.id, fI u)))
    = (tasks.map (fun u =>
          (u.id, fG u ++ (D.filter (fun d => d == u.id)).map (fun _ => t.id))),
       tasks.map (fun u =>
          (u.id, if u.id = t.id then
              fI u + (D.filter (fun d => (idsOf tasks).contains d)).length else fI u)))
  | [], fG, fI => by
    simp only [List.foldl_nil, List.filter_nil, List.map_nil, List.append_nil,
      List.length_nil, Nat.cast_zero, add_zero, ite_self]
  | d :: D, fG, fI => by
    by_cases hd : d ∈ idsOf tasks
    · rcases List.mem_map.mp hd with ⟨u0, hu0, hu0d⟩
      have hget : aGet? (tasks.map (fun u => (u.id, fG u))) d = some (fG u0) := by
        rw [← hu0d]; exact aGet?_map_id tasks fG hnd u0 hu0
      have hgetI : aGet? (tasks.map (fun u => (u.id, fI u))) t.id = some (fI t) :=
        aGet?_map_id tasks fI hnd t ht
      have hsetG : aSet (tasks.map (fun u => (u.id, fG u))) d (fG u0 ++ [t.id]) =
          tasks.map (fun u => (u.id, if u.id = d then fG u ++ [t.id] else fG u)) := by
        rw [← hu0d, aSet_map_id tasks fG hnd u0 hu0]
        apply List.map_congr_left
        intro u hu
        by_cases huu : u.id = u0.id
        · rw [if_pos huu, if_pos huu, task_id_inj hnd hu hu0 huu]
        · rw [if_neg huu, if_neg huu]
      have hsetI : aSet (tasks.map (fun u => (u.id, fI u))) t.id (fI t + 1) =
          tasks.map (fun u => (u.id, if u.id = t.id then fI u + 1 else fI u)) := by
        rw [aSet_map_id tasks fI hnd t ht]
        apply List.map_congr_left
        intro u hu
        by_cases hut : u.id = t.id
        · rw [if_pos hut, if_pos hut, task_id_inj hnd hu ht hut]
        · rw [if_neg hut, if_neg hut]
      simp only [List.foldl_cons, edgeStep, hget, hgetI, Option.getD_some, hsetG, hsetI]
      rw [depsFold_rep tasks hnd t ht D _ _]
      have hG2 : ∀ u ∈ tasks,
          ((if u.id = d then fG u ++ [t.id] else fG u) ++
            (D.filter (fun x => x == u.id)).map (fun _ => t.id)) =
          fG u ++ (((d :: D).filter (fun x => x == u.id)).map (fun _ => t.id)) := by
        intro u hu
        by_cases hud : u.id = d
        · rw [if_pos hud]
          rw [List.filter_cons, if_pos (by simp [hud])]
          simp
        · rw [if_neg hud]
          rw [List.filter_cons, if_neg (by simp; exact fun he => hud he.symm)]
      have hI2 : ∀ u ∈ tasks,
          (if u.id = t.id then
              (if u.id = t.id then fI u + 1 else fI u) +
                ((D.filter (fun x => (idsOf tasks).contains x)).length : Int)
            else (if u.id = t.id then fI u + 1 else fI u)) =
          (if u.id = t.id then
              fI u + (((d :: D).filter (fun x => (idsOf tasks).contains x)).length : Int)
            else fI u) := by
        intro u hu
        by_cases hut : u.id = t.id
        · rw [if_pos hut, if_pos hut, if_pos hut,
            List.filter_cons, if_pos (by simpa [List.elem_iff] using hd)]
          rw [List.length_cons]
          push_cast
          ring
        · rw [if_neg hut, if_neg hut, if_neg hut]
      have hmG : tasks.map (fun u =>
          (u.id, (if u.id = d then fG u ++ [t.id] else fG u) ++
            (D.filter (fun x => x == u.id)).map (fun _ => t.id))) =
        tasks.map (fun u =>
          (u.id, fG u ++ (((d :: D).filter (fun x => x == u.id)).map
            (fun _ => t.id)))) :=
        List.map_congr_left (fun u hu => by rw [hG2 u hu])
      have hmI : tasks.map (fun u =>
          (u.id, if u.id = t.id then
              (if u.id = t.id then fI u + 1 else fI u) +
                ((D.filter (fun x => (idsOf tasks).contains x)).length : Int)
            else (if u.id = t.id then fI u + 1 else fI u))) =
        tasks.map (fun u =>
          (u.id, if u.id = t.id then
              fI u + (((d :: D).filter (fun x => (idsOf tasks).contains x)).length : Int)
            else fI u)) :=
        List.map_congr_left (fun u hu => by rw [hI2 u hu])
      rw [hmG, hmI]
    · have hget : aGet? (tasks.map (fun u => (u.id, fG u))) d = none :=
        aGet?_map_id_none tasks fG d hd
      simp only [List.foldl_cons, edgeStep, hget]
      rw [depsFold_rep tasks hnd t ht D fG fI]
      have hG2 : ∀ u ∈ tasks,
          ((d :: D).filter (fun x => x == u.id)) = D.filter (fun x => x == u.id) := by
        intro u hu
        rw [List.filter_cons, if_neg (by
          simp only [beq_iff_eq, decide_eq_true_eq]
          exact fun he => hd (he ▸ List.mem_map_of_mem _ hu))]
      have hI2 : ((d :: D).filter (fun x => (idsOf tasks).contains x)) =
          D.filter (fun x => (idsOf tasks).contains x) := by
        rw [List.filter_cons, if_neg (by simp [List.elem_iff, hd])]
      rw [show (tasks.map (fun u =>
            (u.id, fG u ++ ((D.filter (fun x => x == u.id)).map (fun _ => t.id))))) =
          tasks.map (fun u =>
            (u.id, fG u ++ (((d :: D).filter (fun x => x == u.id)).map
              (fun _ => t.id)))) from
        List.map_congr_left (fun u hu => by rw [hG2 u hu]), hI2]

theorem edgeFold_rep (tasks : List Task) (hnd : (idsOf tasks).Nodup) :
    ∀ (rest P : List Task), tasks = P ++ rest →
    rest.foldl (fun gi t => t.depends_on.foldl (edgeStep t) gi)
      (tasks.map (fun u => (u.id, adjSpec P u.id)),
       tasks.map (fun u => (u.id, cntP tasks P u)))
    = (tasks.map (fun u => (u.id, adjSpec tasks u.id)),
       tasks.map (fun u => (u.id, cntP tasks tasks u)))
  | [], P => by
    intro he
    simp only [List.foldl_nil]
    rw [he, List.append_nil]
  | t :: rest, P => by
    intro he
    have ht : t ∈ tasks := by rw [he]; simp
    have htP : ¬ t ∈ P := by
      intro hP
      have hnd2 : (idsOf (P ++ t :: rest)).Nodup := he ▸ hnd
      simp only [idsOf, List.map_append] at hnd2
      have hdj := List.disjoint_of_nodup_append hnd2
      exact hdj (List.mem_map_of_mem _ hP) (by simp)
    simp only [List.foldl_cons]
    rw [depsFold_rep tasks hnd t ht t.depends_on _ _]
    have hg : (tasks.map (fun u =>
        (u.id, adjSpec P u.id ++
          (t.depends_on.filter (fun d => d == u.id)).map (fun _ => t.id)))) =
        tasks.map (fun u => (u.id, adjSpec (P ++ [t]) u.id)) := by
      apply List.map_congr_left
      intro u hu
      rw [adjSpec_append]
    have hi : (tasks.map (fun u =>
        (u.id, if u.id = t.id then
            cntP tasks P u + (t.depends_on.filter
              (fun d => (idsOf tasks).contains d)).length else cntP tasks P u))) =
        tasks.map (fun u => (u.id, cntP tasks (P ++ [t]) u)) := by
      apply List.map_congr_left
      intro u hu
      by_cases hut : u.id = t.id
      · have huet : u = t := task_id_inj hnd hu ht hut
        rw [if_pos hut]
        subst huet
        rw [show cntP tasks P u = 0 from if_neg htP,
          show cntP tasks (P ++ [u]) u = ((presentDeps tasks u).length : Int) from
            if_pos (by simp)]
        simp [presentDeps]
      · rw [if_neg hut]
        have : (u ∈ P ++ [t]) ↔ u ∈ P := by
          simp only [List.mem_append, List.mem_singleton]
          exact ⟨fun h => h.elim id (fun he => absurd (he ▸ rfl) hut), Or.inl⟩
        unfold cntP
        rw [if_congr this rfl rfl]
    rw [hg, hi]
    exact edgeFold_rep tasks hnd rest (P ++ [t]) (by rw [he]; simp)

/-- `buildGraphInd` in closed form: the adjacency of every id and the
present-dep count of every task, keyed in input order. -/
theorem buildGraphInd_eq (tasks : List Task) (hnd : (idsOf tasks).Nodup) :
    buildGraphInd tasks =
      (tasks.map (fun u => (u.id, adjSpec tasks u.id)),
       tasks.map (fun u => (u.id, ((presentDeps tasks u).length : Int)))) := by
  unfold buildGraphInd
  have h0g : tasks.foldl (fun g t => aSet g t.id []) ([] : Assoc (List String)) =
      tasks.map (fun u => (u.id, ([] : List String))) := by
    rw [foldl_aSet_const ([] : List String) tasks [] (by simp) hnd]
    simp
  have h0i : tasks.foldl (fun m t => aSet m t.id 0) ([] : Assoc Int) =
      tasks.map (fun u => (u.id, (0 : Int))) := by
    rw [foldl_aSet_const (0 : Int) tasks [] (by simp) hnd]
    simp
  rw [h0g, h0i]
  have hg0 : tasks.map (fun u => (u.id, ([] : List String))) =
      tasks.map (fun u => (u.id, adjSpec [] u.id)) := by
    apply List.map_congr_left; intro u _; rfl
  have hi0 : tasks.map (fun u => (u.id, (0 : Int))) =
      tasks.map (fun u => (u.id, cntP tasks [] u)) := by
    apply List.map_congr_left; intro u _
    rw [show cntP tasks [] u = 0 from if_neg (by simp)]
  rw [hg0, hi0, edgeFold_rep tasks hnd tasks [] rfl]
  apply congrArg
  apply List.map_congr_left
  intro u hu
  rw [show cntP tasks tasks u = ((presentDeps tasks u).length : Int) from if_pos hu]

/-! ### Simulation: the concrete loop runs the abstract loop -/
theorem find?_id_eq {tasks : List Task} (hnd : (idsOf tasks).Nodup)
    {v : Task} (hv : v ∈ tasks) :
    tasks.find? (fun t => t.id == v.id) = some v := by
  induction tasks with
  | nil => cases hv
  | cons t ts ih =>
    rcases List.mem_cons.mp hv with rfl | hv'
    · rw [List.find?_cons_of_pos _ (by simp)]
    · have hne : t.id ≠ v.id := by
        intro he
        have : v.id ∈ ts.map (fun u => u.id) := List.mem_map_of_mem _ hv'
        rw [← he] at this
        exact (List.nodup_cons.mp hnd).1 this
      rw [List.find?_cons_of_neg _ (by simp [hne])]
      exact ih (List.nodup_cons.mp hnd).2 hv'

theorem task_map_get_eq {tasks : List Task} (hnd : (idsOf tasks).Nodup)
    {v : Task} (hv : v ∈ tasks) :
    task_map_get tasks v.id = some v := by
  unfold task_map_get
  have hnd' : (idsOf tasks.reverse).Nodup := by
    unfold idsOf
    rw [List.map_reverse]
    exact (List.nodup_reverse).mpr hnd
  exact find?_id_eq hnd' (List.mem_reverse.mpr hv)

theorem taskKey_eq {tasks : List Task} (hnd : (idsOf tasks).Nodup)
    {v : Task} (hv : v ∈ tasks) :
    taskKey tasks v.id = taskKeyT v := by
  unfold taskKey
  rw [task_map_get_eq hnd hv]
  rfl

theorem insertSorted_map {α β : Type} (key1 : β → Nat × String) (key2 : α → Nat × String)
    (f : α → β) (x : α) (m : List α)
    (hx : key1 (f x) = key2 x) (hm : ∀ y ∈ m, key1 (f y) = key2 y) :
    insertSorted key1 (f x) (m.map f) = (insertSorted key2 x m).map f := by
  induction m with
  | nil => rfl
  | cons y ys ih =>
    have hy := hm y (by simp)
    simp only [List.map_cons, insertSorted, hx, hy]
    by_cases h : keyLE (key2 x) (key2 y) = true
    · rw [if_pos h, if_pos h]
      rfl
    · rw [if_neg h, if_neg h, List.map_cons,
        ih (fun z hz => hm z (List.mem_cons_of_mem _ hz))]

theorem sortByKey_map {α β : Type} (key1 : β → Nat × String) (key2 : α → Nat × String)
    (f : α → β) (l : List α) (h : ∀ x ∈ l, key1 (f x) = key2 x) :
    sortByKey key1 (l.map f) = (sortByKey key2 l).map f := by
  induction l with
  | nil => rfl
  | cons x xs ih =>
    have h1 : sortByKey key1 ((x :: xs).map f) =
        insertSorted key1 (f x) (sortByKey key1 (xs.map f)) := rfl
    have h2 : sortByKey key2 (x :: xs) = insertSorted key2 x (sortByKey key2 xs) := rfl
    rw [h1, h2, ih (fun z hz => h z (List.mem_cons_of_mem _ hz))]
    exact insertSorted_map key1 key2 f x (sortByKey key2 xs) (h x (by simp))
      (fun y hy => h y (List.mem_cons_of_mem _ ((sortByKey_perm key2 xs).mem_iff.mp hy)))

/-- One adjacency block: visiting `k` copies of `v.id` decrements `v`'s
counter by `k` and enqueues `v.id` exactly when the counter passes
through zero on the way. -/
theorem visit_block (tasks : List Task) (hnd : (idsOf tasks).Nodup)
    (v : Task) (hv : v ∈ tasks) :
    ∀ (k : Nat) (q : List String) (g : Task → Int),
    (List.replicate k v.id).foldl visitNeighbor
        (q, tasks.map (fun u => (u.id, g u)))
    = (q ++ (if 1 ≤ g v ∧ g v ≤ (k : Int) then [v.id] else []),
       tasks.map (fun u => (u.id, if u.id = v.id then g u - (k : Int) else g u)))
  | 0, q, g => by
    simp only [List.replicate, List.foldl_nil, Nat.cast_zero, sub_zero, ite_self]
    rw [if_neg (by omega), List.append_nil]
  | k + 1, q, g => by
    have hget : aGet? (tasks.map (fun u => (u.id, g u))) v.id = some (g v) :=
      aGet?_map_id tasks g hnd v hv
    have hset : aSet (tasks.map (fun u => (u.id, g u))) v.id (g v - 1) =
        tasks.map (fun u => (u.id, if u.id = v.id then g v - 1 else g u)) :=
      aSet_map_id tasks g hnd v hv (g v - 1)
    simp only [List.replicate, List.foldl_cons, visitNeighbor, hget, Option.getD_some, hset]
    by_cases hz : g v - 1 = 0
    · rw [if_pos hz]
      rw [visit_block tasks hnd v hv k (q ++ [v.id]) _]
      rw [if_pos rfl]
      have h2 : ¬ (1 ≤ g v - 1 ∧ g v - 1 ≤ (k : Int)) := by omega
      rw [if_neg h2, List.append_nil]
      refine Prod.ext ?_ ?_
      · rw [if_pos (show 1 ≤ g v ∧ g v ≤ ((k + 1 : Nat) : Int) by push_cast; omega)]
      · apply List.map_congr_left
        intro u hu
        by_cases hu1 : u.id = v.id
        · rw [if_pos hu1, if_pos hu1, if_pos hu1, task_id_inj hnd hu hv hu1]
          push_cast
          ring
        · rw [if_neg hu1, if_neg hu1, if_neg hu1]
    · rw [if_neg hz]
      rw [visit_block tasks hnd v hv k q _]
      rw [if_pos rfl]
      refine Prod.ext ?_ ?_
      · have hcond : (1 ≤ g v - 1 ∧ g v - 1 ≤ (k : Int)) ↔
            (1 ≤ g v ∧ g v ≤ ((k + 1 : Nat) : Int)) := by push_cast; omega
        rw [if_congr hcond rfl rfl]
      · apply List.map_congr_left
        intro u hu
        by_cases hu1 : u.id = v.id
        · rw [if_pos hu1, if_pos hu1, if_pos hu1, task_id_inj hnd hu hv hu1]
          push_cast
          ring
        · rw [if_neg hu1, if_neg hu1, if_neg hu1]

theorem map_const_replicate {α β : Type} (c : β) : ∀ (l : List α),
    l.map (fun _ => c) = List.replicate l.length c
  | [] => rfl
  | _ :: xs => by
    simp only [List.map_cons, List.length_cons, List.replicate,
      map_const_replicate c xs]

theorem filter_present_self (tasks : List Task) (t : Task) (ht : t ∈ tasks) :
    ∀ (L : List String),
    (L.filter (fun d => (idsOf tasks).contains d)).filter (fun d => d == t.id) =
      L.filter (fun d => d == t.id)
  | [] => rfl
  | d :: L => by
    by_cases hd : d = t.id
    · have hc : ((idsOf tasks).contains d) = true := by
        rw [hd]
        exact List.elem_iff.mpr (List.mem_map_of_mem _ ht)
      rw [List.filter_cons, if_pos (by simpa using hc), List.filter_cons,
        if_pos (by simp [hd]), List.filter_cons, if_pos (by simp [hd]),
        filter_present_self tasks t ht L]
    · by_cases hc : ((idsOf tasks).contains d) = true
      · rw [List.filter_cons, if_pos (by simpa using hc), List.filter_cons,
          if_neg (by simp [hd]), List.filter_cons, if_neg (by simp [hd]),
          filter_present_self tasks t ht L]
      · rw [List.filter_cons, if_neg (by simpa using hc), List.filter_cons,
          if_neg (by simp [hd]), filter_present_self tasks t ht L]

theorem filter_split_pop (t : Task) (popped : List String)
    (htp : ¬ popped.contains t.id = true) : ∀ (L : List String),
    (L.filter (fun d => ¬ popped.contains d)).length =
      (L.filter (fun d => ¬ (popped ++ [t.id]).contains d)).length +
      (L.filter (fun d => d == t.id)).length
  | [] => rfl
  | d :: L => by
    have ih := filter_split_pop t popped htp L
    by_cases hd : d = t.id
    · rw [List.filter_cons, if_pos (by simpa [hd] using htp),
        List.filter_cons, if_neg (by simp [hd]),
        List.filter_cons, if_pos (by simp [hd])]
      simp only [List.length_cons]
      omega
    · by_cases hp : popped.contains d = true
      · have hpm : d ∈ popped := List.elem_iff.mp hp
        rw [List.filter_cons, if_neg (by simpa using hp),
          List.filter_cons, if_neg (by
            simp only [List.elem_iff, List.mem_append, List.mem_singleton,
              decide_eq_true_eq, not_not]
            exact Or.inl hpm),
          List.filter_cons, if_neg (by simp [hd])]
        exact ih
      · rw [List.filter_cons, if_pos (by simpa using hp),
          List.filter_cons, if_pos (by
            simp only [List.elem_iff, List.mem_append, List.mem_singleton] at hp ⊢
            simp only [decide_eq_true_eq, not_or]
            exact ⟨by simpa using hp, hd⟩),
          List.filter_cons, if_neg (by simp [hd])]
        simp only [List.length_cons]
        omega

/-- Popping `t` lowers each present-dep counter by the number of `t.id`
occurrences in the task's `depends_on`. -/
theorem remCount_pop (tasks : List Task) (t : Task) (ht : t ∈ tasks)
    (popped : List String) (htp : ¬ popped.contains t.id = true) (v : Task) :
    remCount tasks popped v =
      remCount tasks (popped ++ [t.id]) v +
        (v.depends_on.filter (fun d => d == t.id)).length := by
  unfold remCount
  rw [filter_split_pop t popped htp (presentDeps tasks v)]
  have hps : (presentDeps tasks v).filter (fun d => d == t.id) =
      v.depends_on.filter (fun d => d == t.id) :=
    filter_present_self tasks t ht v.depends_on
  rw [hps]

/-- Folding the adjacency list of `t` over the queue/counter state: all
counters drop to their post-pop values and exactly the released tasks are
appended, in input order. -/
theorem adj_fold (tasks : List Task) (hnd : (idsOf tasks).Nodup)
    (t : Task) (ht : t ∈ tasks) (popped : List String)
    (htp : ¬ popped.contains t.id = true) :
    ∀ (src done : List Task), tasks = done ++ src → ∀ (q : List String),
    ((src.flatMap (fun v =>
        (v.depends_on.filter (fun d => d == t.id)).map (fun _ => v.id))).foldl
      visitNeighbor
      (q, tasks.map (fun u => (u.id,
        if u ∈ src then (remCount tasks popped u : Int)
        else (remCount tasks (popped ++ [t.id]) u : Int)))))
    = (q ++ (src.filter (fun v =>
          (presentDeps tasks v).contains t.id ∧
            remCount tasks (popped ++ [t.id]) v = 0)).map (fun v => v.id),
       tasks.map (fun u => (u.id, (remCount tasks (popped ++ [t.id]) u : Int))))
  | [], done, hsplit, q => by
    simp only [List.flatMap_nil, List.foldl_nil, List.filter_nil, List.map_nil,
      List.append_nil, List.not_mem_nil, if_false]
  | v :: src, done, hsplit, q => by
    have hv : v ∈ tasks := by rw [hsplit]; simp
    have hvsrc : ¬ v ∈ src := by
      have hndt : tasks.Nodup := List.Nodup.of_map _ hnd
      rw [hsplit] at hndt
      have h1 := ((List.nodup_append.mp hndt).2.1)
      exact (List.nodup_cons.mp h1).1
    have hk := remCount_pop tasks t ht popped htp v
    set k := (v.depends_on.filter (fun d => d == t.id)).length with hkdef
    simp only [List.flatMap_cons, List.foldl_append]
    rw [map_const_replicate v.id (v.depends_on.filter (fun d => d == t.id))]
    rw [visit_block tasks hnd v hv k q _]
    rw [show (if v ∈ v :: src then (remCount tasks popped v : Int)
        else (remCount tasks (popped ++ [t.id]) v : Int)) =
      (remCount tasks popped v : Int) from if_pos (by simp)]
    have hmap : (tasks.map (fun u => (u.id,
        if u.id = v.id then
          (if u ∈ v :: src then (remCount tasks popped u : Int)
            else (remCount tasks (popped ++ [t.id]) u : Int)) - (k : Int)
        else (if u ∈ v :: src then (remCount tasks popped u : Int)
          else (remCount tasks (popped ++ [t.id]) u : Int))))) =
      tasks.map (fun u => (u.id,
        if u ∈ src then (remCount tasks popped u : Int)
        else (remCount tasks (popped ++ [t.id]) u : Int))) := by
      apply List.map_congr_left
      intro u hu
      by_cases hu1 : u.id = v.id
      · have huv : u = v := task_id_inj hnd hu hv hu1
        subst huv
        rw [if_pos hu1, if_pos (by simp), if_neg hvsrc]
        rw [show (remCount tasks popped u : Int) =
          (remCount tasks (popped ++ [t.id]) u : Int) + (k : Int) by
            rw [hk]; push_cast; ring]
        ring
      · have huv : u ≠ v := fun he => hu1 (he ▸ rfl)
        rw [if_neg hu1]
        by_cases hus : u ∈ src
        · rw [if_pos (by simp [hus]), if_pos hus]
        · rw [if_neg (by simp [huv, hus]), if_neg hus]
    rw [hmap]
    rw [adj_fold tasks hnd t ht popped htp src (done ++ [v]) (by rw [hsplit]; simp) _]
    have hcond : (1 ≤ (remCount tasks popped v : Int) ∧
        (remCount tasks popped v : Int) ≤ (k : Int)) ↔
        ((presentDeps tasks v).contains t.id = true ∧
          remCount tasks (popped ++ [t.id]) v = 0) := by
      have hkmem : ((presentDeps tasks v).contains t.id = true) ↔ 1 ≤ k := by
        rw [hkdef]
        constructor
        · intro hm
          have : t.id ∈ v.depends_on.filter (fun d => d == t.id) := by
            rcases List.mem_filter.mp (List.elem_iff.mp hm) with ⟨hm1, _⟩
            unfold presentDeps at hm
            exact List.mem_filter.mpr ⟨by
              rcases List.mem_filter.mp (List.elem_iff.mp hm) with ⟨h1, _⟩
              exact h1, by simp⟩
          rcases List.length_pos.mpr (List.ne_nil_of_mem this) with h
          omega
        · intro hlen
          have hne : v.depends_on.filter (fun d => d == t.id) ≠ [] := by
            intro he
            rw [he] at hlen
            simp at hlen
          rcases List.exists_mem_of_ne_nil _ hne with ⟨d, hd⟩
          rcases List.mem_filter.mp hd with ⟨hd1, hd2⟩
          have hdt : d = t.id := by simpa using hd2
          subst hdt
          apply List.elem_iff.mpr
          unfold presentDeps
          exact List.mem_filter.mpr ⟨hd1, by
            simp only [List.elem_iff, decide_eq_true_eq]
            exact List.mem_map_of_mem _ ht⟩
      rw [hkmem]
      omega
    rw [List.filter_cons]
    by_cases hrel : (1 ≤ (remCount tasks popped v : Int) ∧
        (remCount tasks popped v : Int) ≤ (k : Int))
    · rw [if_pos hrel, if_pos (by
        have hc2 := hcond.mp hrel
        simp only [decide_eq_true_eq]
        exact ⟨hc2.1, hc2.2⟩)]
      simp
    · rw [if_neg hrel, if_neg (by
        intro hcontra
        apply hrel
        apply hcond.mpr
        simp only [Bool.and_eq_true, decide_eq_true_eq] at hcontra
        exact ⟨hcontra.1, hcontra.2⟩)]
      simp

/-! ### The loop invariant -/
theorem remCount_zero_iff (tasks : List Task) (popped : List String) (v : Task) :
    remCount tasks popped v = 0 ↔ ∀ d ∈ presentDeps tasks v, d ∈ popped := by
  unfold remCount
  rw [List.length_eq_zero, List.filter_eq_nil_iff]
  constructor
  · intro h d hd
    have := h d hd
    simp only [List.elem_iff, decide_eq_true_eq, not_not] at this
    exact this
  · intro h d hd
    simp only [List.elem_iff, decide_eq_true_eq, not_not]
    exact h d hd

theorem remCount_ne_zero (tasks : List Task) (popped : List String) (v : Task)
    (d : String) (hd : d ∈ presentDeps tasks v) (hdp : ¬ d ∈ popped) :
    ¬ remCount tasks popped v = 0 := fun h =>
  hdp ((remCount_zero_iff tasks popped v).mp h d hd)

theorem remCount_zero_append (tasks : List Task) (popped : List String) (v : Task)
    (l : List String) (h : remCount tasks popped v = 0) :
    remCount tasks (popped ++ l) v = 0 := by
  rw [remCount_zero_iff] at h ⊢
  intro d hd
  exact List.mem_append.mpr (Or.inl (h d hd))

theorem remCount_exists_of_ne_zero (tasks : List Task) (popped : List String) (v : Task)
    (h : ¬ remCount tasks popped v = 0) :
    ∃ d ∈ presentDeps tasks v, ¬ d ∈ popped := by
  by_contra hc
  push_neg at hc
  exact h ((remCount_zero_iff tasks popped v).mpr hc)

theorem indexOf_append_mem {d : String} {l : List String} (h : d ∈ l) (l' : List String) :
    (l ++ l').indexOf d = l.indexOf d := by
  induction l with
  | nil => cases h
  | cons x xs ih =>
    by_cases hx : x = d
    · simp [List.indexOf_cons, hx]
    · rcases List.mem_cons.mp h with rfl | h'
      · exact absurd rfl hx
      · simp only [List.cons_append, List.indexOf_cons,
          show ((x == d) = false) from beq_eq_false_iff_ne.mpr hx]
        rw [ih h']

theorem indexOf_append_not_mem {d : String} {l : List String} (h : ¬ d ∈ l) :
    (l ++ [d]).indexOf d = l.length := by
  induction l with
  | nil => simp [List.indexOf_cons]
  | cons x xs ih =>
    have hx : x ≠ d := fun he => h (by simp [he])
    simp only [List.cons_append, List.indexOf_cons,
      show ((x == d) = false) from beq_eq_false_iff_ne.mpr hx, List.length_cons]
    rw [ih (fun hm => h (List.mem_cons_of_mem _ hm))]
    rfl

theorem released_mem_iff (tasks : List Task) (popped : List String) (t v : Task) :
    v ∈ released tasks popped t ↔
      v ∈ tasks ∧ t.id ∈ presentDeps tasks v ∧
        remCount tasks (popped ++ [t.id]) v = 0 := by
  unfold released
  rw [List.mem_filter]
  simp [List.elem_iff]

theorem Good.head_facts {tasks queue : List Task} {popped : List String}
    {t : Task} {rest : List Task}
    (G : Good tasks queue popped) (hsort : sortByKey taskKeyT queue = t :: rest) :
    t ∈ queue ∧ t ∈ tasks ∧ remCount tasks popped t = 0 ∧ ¬ t.id ∈ popped := by
  have hperm : List.Perm (t :: rest) queue := by
    rw [← hsort]; exact sortByKey_perm taskKeyT queue
  have htq : t ∈ queue := hperm.mem_iff.mp (by simp)
  have ht : t ∈ tasks := G.sub t htq
  rcases (G.frontier t ht).mp htq with ⟨h1, h2⟩
  exact ⟨htq, ht, h1, h2⟩

/-- Invariant preservation for one pop. -/
theorem Good.stepGood {tasks queue : List Task} {popped : List String}
    (hnd : (idsOf tasks).Nodup) {t : Task} {rest : List Task}
    (G : Good tasks queue popped) (hsort : sortByKey taskKeyT queue = t :: rest) :
    Good tasks (rest ++ released tasks popped t) (popped ++ [t.id]) := by
  obtain ⟨htq, ht, hrem0, htp⟩ := G.head_facts hsort
  have hperm : List.Perm (t :: rest) queue := by
    rw [← hsort]; exact sortByKey_perm taskKeyT queue
  have hsortnd : ((t :: rest).map (fun v => v.id)).Nodup := by
    have := G.nd
    exact (hperm.map (fun v => v.id)).nodup_iff.mpr this
  have hrestq : ∀ v ∈ rest, v ∈ queue :=
    fun v hv => hperm.mem_iff.mp (List.mem_cons_of_mem _ hv)
  have hrest_ne_t : ∀ v ∈ rest, v.id ≠ t.id := by
    intro v hv he
    rcases List.nodup_cons.mp hsortnd with ⟨hn1, _⟩
    have hm : t.id ∈ rest.map (fun v => v.id) := by
      rw [← he]; exact List.mem_map_of_mem _ hv
    exact hn1 hm
  have hrelA : ∀ v ∈ released tasks popped t, ¬ v.id ∈ popped ∧ v.id ≠ t.id := by
    intro v hv
    rcases (released_mem_iff tasks popped t v).mp hv with ⟨hvt, hvdep, _⟩
    constructor
    · intro hvp
      rcases G.closed v hvt hvp t.id hvdep with ⟨htpop, _⟩
      exact htp htpop
    · intro he
      have hveq : v = t := task_id_inj hnd hvt ht he
      rw [hveq] at hvdep
      exact remCount_ne_zero tasks popped t t.id hvdep htp hrem0
  have htpc : ¬ popped.contains t.id = true := by
    intro h; exact htp (List.elem_iff.mp h)
  refine ⟨?_, ?_, ?_, ?_, ?_, ?_⟩
  · intro v hv
    rcases List.mem_append.mp hv with hv | hv
    · exact G.sub v (hrestq v hv)
    · exact ((released_mem_iff tasks popped t v).mp hv).1
  · rw [List.map_append]
    rw [List.nodup_append]
    refine ⟨(List.nodup_cons.mp hsortnd).2, ?_, ?_⟩
    · have hsub : List.Sublist ((released tasks popped t).map (fun v => v.id))
          (idsOf tasks) := by
        unfold released idsOf
        exact List.Sublist.map _ (List.filter_sublist tasks)
      exact hsub.nodup hnd
    · intro a ha hb
      rcases List.mem_map.mp ha with ⟨u, hu, hua⟩
      rcases List.mem_map.mp hb with ⟨w, hw, hwa⟩
      have huid : u.id = w.id := by rw [hua, hwa]
      have huw : u = w := task_id_inj hnd (G.sub u (hrestq u hu))
        ((released_mem_iff tasks popped t w).mp hw).1 huid
      subst huw
      rcases (released_mem_iff tasks popped t u).mp hw with ⟨hut, hudep, _⟩
      have hfr := (G.frontier u hut).mp (hrestq u hu)
      exact remCount_ne_zero tasks popped u t.id hudep htp hfr.1
  · intro v hv
    constructor
    · intro hvq
      rcases List.mem_append.mp hvq with hvr | hvr
      · have hfr := (G.frontier v hv).mp (hrestq v hvr)
        refine ⟨remCount_zero_append tasks popped v [t.id] hfr.1, ?_⟩
        simp only [List.mem_append, List.mem_singleton]
        rintro (h | h)
        · exact hfr.2 h
        · exact hrest_ne_t v hvr h
      · rcases (released_mem_iff tasks popped t v).mp hvr with ⟨_, _, hz⟩
        rcases hrelA v hvr with ⟨hp1, hp2⟩
        refine ⟨hz, ?_⟩
        simp only [List.mem_append, List.mem_singleton]
        rintro (h | h)
        · exact hp1 h
        · exact hp2 h
    · rintro ⟨hz, hnp⟩
      have hnp1 : ¬ v.id ∈ popped := fun h => hnp (List.mem_append.mpr (Or.inl h))
      have hnpt : v.id ≠ t.id := fun h => hnp (by simp [h])
      by_cases h0 : remCount tasks popped v = 0
      · have hvq := (G.frontier v hv).mpr ⟨h0, hnp1⟩
        rcases hperm.mem_iff.mpr hvq with hm
        rcases List.mem_cons.mp hm with rfl | hm
        · exact absurd rfl hnpt
        · exact List.mem_append.mpr (Or.inl hm)
      · rcases remCount_exists_of_ne_zero tasks popped v h0 with ⟨d, hd, hdp⟩
        have hdp' : d ∈ popped ++ [t.id] :=
          (remCount_zero_iff tasks _ v).mp hz d hd
        have hdt : d = t.id := by
          rcases List.mem_append.mp hdp' with h | h
          · exact absurd h hdp
          · simpa using h
        subst hdt
        exact List.mem_append.mpr (Or.inr
          ((released_mem_iff tasks popped t v).mpr ⟨hv, hd, hz⟩))
  · intro d hd
    rcases List.mem_append.mp hd with h | h
    · exact G.popped_sub d h
    · rw [List.mem_singleton.mp h]
      exact List.mem_map_of_mem _ ht
  · rw [List.nodup_append]
    exact ⟨G.popped_nd, List.nodup_singleton _, by
      intro a ha hb
      rw [List.mem_singleton.mp hb] at ha
      exact htp ha⟩
  · intro v hv hvp d hd
    rcases List.mem_append.mp hvp with hvp | hvp
    · rcases G.closed v hv hvp d hd with ⟨hd1, hd2⟩
      refine ⟨List.mem_append.mpr (Or.inl hd1), ?_⟩
      rw [indexOf_append_mem hd1 [t.id], indexOf_append_mem hvp [t.id]]
      exact hd2
    · have hvt : v.id = t.id := by simpa using hvp
      have hveq : v = t := task_id_inj hnd hv ht hvt
      subst hveq
      have hdp : d ∈ popped := (remCount_zero_iff tasks popped v).mp hrem0 d hd
      refine ⟨List.mem_append.mpr (Or.inl hdp), ?_⟩
      rw [indexOf_append_mem hdp [v.id], hvt, indexOf_append_not_mem htp]
      exact List.indexOf_lt_length.mpr hdp

/-- The concrete Kahn loop, run on the graph and counters built by
`buildGraphInd`, is the abstract loop. -/
theorem kahnLoop_eq_absLoop (tasks : List Task) (hnd : (idsOf tasks).Nodup) :
    ∀ (fuel : Nat) (queue : List Task) (popped : List String) (result : List Task),
    Good tasks queue popped →
    kahnLoop tasks (tasks.map (fun u => (u.id, adjSpec tasks u.id))) fuel
        (queue.map (fun v => v.id))
        (tasks.map (fun u => (u.id, (remCount tasks popped u : Int))))
        result
      = result ++ absLoop tasks fuel queue popped
  | 0, queue, popped, result, _ => by
    simp [kahnLoop, absLoop]
  | fuel + 1, queue, popped, result, G => by
    by_cases hq : queue = []
    · subst hq
      simp [kahnLoop, absLoop]
    · have hqm : ¬ queue.map (fun v => v.id) = [] := by
        simpa using hq
      rw [show kahnLoop tasks (tasks.map (fun u => (u.id, adjSpec tasks u.id))) (fuel + 1)
          (queue.map (fun v => v.id))
          (tasks.map (fun u => (u.id, (remCount tasks popped u : Int)))) result =
        (if queue.map (fun v => v.id) = [] then result
         else
          match sortByKey (taskKey tasks) (queue.map (fun v => v.id)) with
          | [] => result
          | current :: qrest =>
            let result' := match task_map_get tasks current with
              | some t => result ++ [t]
              | none => result
            let st := ((aGet? (tasks.map (fun u => (u.id, adjSpec tasks u.id)))
                current).getD []).foldl visitNeighbor
              (qrest, tasks.map (fun u => (u.id, (remCount tasks popped u : Int))))
            kahnLoop tasks (tasks.map (fun u => (u.id, adjSpec tasks u.id))) fuel
              st.1 st.2 result') from rfl]
      rw [if_neg hqm]
      rw [sortByKey_map (taskKey tasks) taskKeyT (fun v => v.id) queue
        (fun v hv => taskKey_eq hnd (G.sub v hv))]
      rcases hsort : sortByKey taskKeyT queue with _ | ⟨t, rest⟩
      · exact absurd (List.Perm.eq_nil (hsort ▸ (sortByKey_perm taskKeyT queue)).symm) hq
      · obtain ⟨htq, ht, hrem0, htp⟩ := G.head_facts hsort
        have htpc : ¬ popped.contains t.id = true := fun h => htp (List.elem_iff.mp h)
        simp only [List.map_cons]
        rw [show task_map_get tasks t.id = some t from task_map_get_eq hnd ht]
        rw [show aGet? (tasks.map (fun u => (u.id, adjSpec tasks u.id))) t.id =
          some (adjSpec tasks t.id) from aGet?_map_id tasks _ hnd t ht]
        simp only [Option.getD_some]
        have hindcong : (tasks.map (fun u =>
            (u.id, (remCount tasks popped u : Int)))) =
          tasks.map (fun u => (u.id,
            if u ∈ tasks then (remCount tasks popped u : Int)
            else (remCount tasks (popped ++ [t.id]) u : Int))) := by
          apply List.map_congr_left
          intro u hu
          rw [if_pos hu]
        rw [hindcong]
        rw [show adjSpec tasks t.id = tasks.flatMap (fun v =>
          (v.depends_on.filter (fun d => d == t.id)).map (fun _ => v.id)) from rfl]
        rw [adj_fold tasks hnd t ht popped htpc tasks [] rfl _]
        show kahnLoop tasks (tasks.map (fun u => (u.id, adjSpec tasks u.id))) fuel
            (rest.map (fun v => v.id) ++ (released tasks popped t).map (fun v => v.id))
            (tasks.map (fun u => (u.id, (remCount tasks (popped ++ [t.id]) u : Int))))
            (result ++ [t])
          = result ++ absLoop tasks (fuel + 1) queue popped
        rw [show (rest.map (fun v => v.id) ++ (released tasks popped t).map
            (fun v => v.id)) = (rest ++ released tasks popped t).map (fun v => v.id)
          from (List.map_append _ _ _).symm]
        rw [kahnLoop_eq_absLoop tasks hnd fuel (rest ++ released tasks popped t)
          (popped ++ [t.id]) (result ++ [t]) (G.stepGood hnd hsort)]
        rw [show absLoop tasks (fuel + 1) queue popped =
          t :: absLoop tasks fuel (rest ++ released tasks popped t)
            (popped ++ [t.id]) from by
          rw [show absLoop tasks (fuel + 1) queue popped =
            (if queue = [] then []
             else match sortByKey taskKeyT queue with
              | [] => []
              | t :: rest => t :: absLoop tasks fuel
                  (rest ++ released tasks popped t) (popped ++ [t.id])) from rfl]
          rw [if_neg hq, hsort]]
        simp

/-! ### The insertion-order invariant -/
theorem le_foldr_max {x : Nat} : ∀ {L : List Nat}, x ∈ L → x ≤ L.foldr max 0
  | [], h => by cases h
  | y :: ys, h => by
    rcases List.mem_cons.mp h with rfl | h'
    · exact le_max_left _ _
    · exact le_trans (le_foldr_max h') (le_max_right _ _)

theorem foldr_max_le {b : Nat} : ∀ {L : List Nat}, (∀ x ∈ L, x ≤ b) → L.foldr max 0 ≤ b
  | [], _ => Nat.zero_le b
  | y :: ys, h => by
    simp only [List.foldr_cons, max_le_iff]
    exact ⟨h y (by simp), foldr_max_le (fun x hx => h x (List.mem_cons_of_mem _ hx))⟩

/-- `insStep` does not change when the popped list grows, for tasks whose
present deps were already popped. -/
theorem insStep_stable (tasks : List Task) (popped l : List String) (v : Task)
    (h : ∀ d ∈ presentDeps tasks v, d ∈ popped) :
    insStep tasks (popped ++ l) v = insStep tasks popped v := by
  unfold insStep
  by_cases he : presentDeps tasks v = []
  · rw [if_pos he, if_pos he]
  · rw [if_neg he, if_neg he]
    congr 1
    apply congrArg
    apply List.map_congr_left
    intro d hd
    exact indexOf_append_mem (h d hd) l

/-- For a task whose deps are popped, `insStep` is at most the popped
length. -/
theorem insStep_le (tasks : List Task) (popped : List String) (v : Task)
    (h : ∀ d ∈ presentDeps tasks v, d ∈ popped) :
    insStep tasks popped v ≤ popped.length := by
  unfold insStep
  by_cases he : presentDeps tasks v = []
  · rw [if_pos he]; exact Nat.zero_le _
  · rw [if_neg he]
    rcases List.exists_mem_of_ne_nil _ he with ⟨d0, hd0⟩
    have hlt : popped.indexOf d0 < popped.length := List.indexOf_lt_length.mpr (h d0 hd0)
    have hb : ((presentDeps tasks v).map (fun d => popped.indexOf d)).foldr max 0 ≤
        popped.length - 1 := by
      apply foldr_max_le
      intro x hx
      rcases List.mem_map.mp hx with ⟨d, hd, rfl⟩
      have := List.indexOf_lt_length.mpr (h d hd)
      omega
    omega

/-- A task released by popping `t` has `insStep` exactly one past the end
of the old popped list. -/
theorem insStep_released (tasks : List Task) (popped : List String) (t v : Task)
    (htp : ¬ t.id ∈ popped)
    (hdep : t.id ∈ presentDeps tasks v)
    (h : ∀ d ∈ presentDeps tasks v, d ∈ popped ++ [t.id]) :
    insStep tasks (popped ++ [t.id]) v = popped.length + 1 := by
  unfold insStep
  rw [if_neg (List.ne_nil_of_mem hdep)]
  have hmax : ((presentDeps tasks v).map
      (fun d => (popped ++ [t.id]).indexOf d)).foldr max 0 = popped.length := by
    apply le_antisymm
    · apply foldr_max_le
      intro x hx
      rcases List.mem_map.mp hx with ⟨d, hd, rfl⟩
      rcases List.mem_append.mp (h d hd) with hdm | hdm
      · have h1 := List.indexOf_lt_length.mpr hdm
        rw [indexOf_append_mem hdm [t.id]]
        omega
      · rw [List.mem_singleton.mp hdm, indexOf_append_not_mem htp]
    · apply le_foldr_max
      have : (popped ++ [t.id]).indexOf t.id = popped.length :=
        indexOf_append_not_mem htp
      rw [← this]
      exact List.mem_map_of_mem _ hdep
  omega

/-- Tasks listed earlier have a strictly smaller input position. -/
theorem pairwise_posIn (tasks : List Task) (hnd : (idsOf tasks).Nodup) :
    tasks.Pairwise (fun u w => posIn tasks u < posIn tasks w) := by
  have haux : ∀ (l : List Task), (idsOf l).Nodup →
      ∀ pre : List String, (∀ v ∈ l, ¬ v.id ∈ pre) →
      l.Pairwise (fun u w =>
        (pre ++ idsOf l).indexOf u.id < (pre ++ idsOf l).indexOf w.id) := by
    intro l
    induction l with
    | nil => intro _ _ _; exact List.Pairwise.nil
    | cons t ts ih =>
      intro hnd2 pre hpre
      rcases List.nodup_cons.mp hnd2 with ⟨ht1, ht2⟩
      constructor
      · intro w hw
        have hwt : w.id ≠ t.id := by
          intro he
          have hm2 : t.id ∈ ts.map (fun v => v.id) := by
            rw [← he]; exact List.mem_map_of_mem _ hw
          exact ht1 hm2
        have h1 : (pre ++ idsOf (t :: ts)).indexOf t.id = pre.length := by
          have : idsOf (t :: ts) = t.id :: idsOf ts := rfl
          rw [this, show pre ++ t.id :: idsOf ts = (pre ++ [t.id]) ++ idsOf ts by simp,
            indexOf_append_mem (by simp) (idsOf ts),
            indexOf_append_not_mem (hpre t (by simp))]
        have h2 : pre.length < (pre ++ idsOf (t :: ts)).indexOf w.id := by
          have hw1 : ¬ w.id ∈ pre ++ [t.id] := by
            simp only [List.mem_append, List.mem_singleton]
            rintro (h | h)
            · exact hpre w (List.mem_cons_of_mem _ hw) h
            · exact hwt h
          have : idsOf (t :: ts) = t.id :: idsOf ts := rfl
          rw [this, show pre ++ t.id :: idsOf ts = (pre ++ [t.id]) ++ idsOf ts by simp]
          by_cases hm : w.id ∈ (pre ++ [t.id]) ++ idsOf ts
          · rcases List.mem_append.mp hm with hmm | hmm
            · exact absurd hmm hw1
            · have halt : ∀ (l1 l2 : List String) (d : String), ¬ d ∈ l1 → d ∈ l2 →
                  l1.length ≤ (l1 ++ l2).indexOf d := by
                intro l1
                induction l1 with
                | nil => intro _ _ _ _; exact Nat.zero_le _
                | cons x xs ih2 =>
                  intro l2 d hd1 hd2
                  have hx : x ≠ d := fun he => hd1 (by simp [he])
                  simp only [List.cons_append, List.indexOf_cons,
                    show ((x == d) = false) from beq_eq_false_iff_ne.mpr hx,
                    List.length_cons]
                  have := ih2 l2 d (fun hm2 => hd1 (List.mem_cons_of_mem _ hm2)) hd2
                  simp only [Bool.cond_false]
                  omega
              have := halt (pre ++ [t.id]) (idsOf ts) w.id hw1 hmm
              simp only [List.length_append, List.length_singleton] at this
              omega
          · have : ((pre ++ [t.id]) ++ idsOf ts).indexOf w.id =
                ((pre ++ [t.id]) ++ idsOf ts).length := List.indexOf_eq_length.mpr hm
            rw [this]
            simp only [List.length_append, List.length_singleton]
            omega
        omega
      · have hts := ih ht2 (pre ++ [t.id]) (by
          intro v hv
          simp only [List.mem_append, List.mem_singleton]
          rintro (h | h)
          · exact hpre v (List.mem_cons_of_mem _ hv) h
          · have hm2 : t.id ∈ ts.map (fun u => u.id) := by
              rw [← h]; exact List.mem_map_of_mem _ hv
            exact ht1 hm2)
        apply hts.imp
        intro u w h
        have heq : pre ++ idsOf (t :: ts) = (pre ++ [t.id]) ++ idsOf ts := by
          have : idsOf (t :: ts) = t.id :: idsOf ts := rfl
          rw [this]; simp
        rw [heq]
        exact h
  have := haux tasks hnd [] (by simp)
  apply this.imp
  intro u w h
  unfold posIn
  simpa using h

/-- Preservation of the order invariant over one pop. -/
theorem OrdInv.stepOrd {tasks queue : List Task} {popped : List String}
    (hnd : (idsOf tasks).Nodup) {t : Task} {rest : List Task}
    (G : Good tasks queue popped) (O : OrdInv tasks queue popped)
    (hsort : sortByKey taskKeyT queue = t :: rest) :
    OrdInv tasks (rest ++ released tasks popped t) (popped ++ [t.id]) := by
  obtain ⟨htq, ht, hrem0, htp⟩ := G.head_facts hsort
  have hsorted := sortByKey_pairwise_cond taskKeyT _ queue O
  rw [hsort] at hsorted
  rcases List.pairwise_cons.mp hsorted with ⟨_, hrestord⟩
  have hreststable : ∀ v ∈ rest,
      insStep tasks (popped ++ [t.id]) v = insStep tasks popped v := by
    intro v hv
    have hvq : v ∈ queue := by
      have hperm : List.Perm (t :: rest) queue := by
        rw [← hsort]; exact sortByKey_perm taskKeyT queue
      exact hperm.mem_iff.mp (List.mem_cons_of_mem _ hv)
    have hfr := (G.frontier v (G.sub v hvq)).mp hvq
    exact insStep_stable tasks popped [t.id] v
      ((remCount_zero_iff tasks popped v).mp hfr.1)
  have hrestle : ∀ v ∈ rest,
      insStep tasks (popped ++ [t.id]) v ≤ popped.length := by
    intro v hv
    rw [hreststable v hv]
    have hvq : v ∈ queue := by
      have hperm : List.Perm (t :: rest) queue := by
        rw [← hsort]; exact sortByKey_perm taskKeyT queue
      exact hperm.mem_iff.mp (List.mem_cons_of_mem _ hv)
    have hfr := (G.frontier v (G.sub v hvq)).mp hvq
    exact insStep_le tasks popped v ((remCount_zero_iff tasks popped v).mp hfr.1)
  have hrelstep : ∀ v ∈ released tasks popped t,
      insStep tasks (popped ++ [t.id]) v = popped.length + 1 := by
    intro v hv
    rcases (released_mem_iff tasks popped t v).mp hv with ⟨hvt, hvdep, hvz⟩
    exact insStep_released tasks popped t v htp hvdep
      ((remCount_zero_iff tasks _ v).mp hvz)
  unfold OrdInv
  rw [List.pairwise_append]
  refine ⟨?_, ?_, ?_⟩
  · apply hrestord.imp_of_mem
    intro u v hu hv h hk
    rcases h hk with h1 | h1
    · left
      rw [hreststable u hu, hreststable v hv]
      exact h1
    · right
      rw [hreststable u hu, hreststable v hv]
      exact h1
  · have hppos := pairwise_posIn tasks hnd
    have hrel : (released tasks popped t).Pairwise
        (fun u w => posIn tasks u < posIn tasks w) :=
      List.Pairwise.filter _ hppos
    apply hrel.imp_of_mem
    intro u v hu hv h _
    right
    rw [hrelstep u hu, hrelstep v hv]
    exact ⟨rfl, h⟩
  · intro u hu v hv _
    left
    rw [hrelstep v hv]
    have := hrestle u hu
    omega

/-! ### Facts about a full run of the abstract loop -/
theorem absLoop_zero (tasks queue : List Task) (popped : List String) :
    absLoop tasks 0 queue popped = [] := rfl

theorem absLoop_nil (tasks : List Task) (fuel : Nat) (popped : List String) :
    absLoop tasks fuel [] popped = [] := by
  cases fuel with
  | zero => rfl
  | succ fuel => simp [absLoop]

theorem absLoop_cons (tasks : List Task) (fuel : Nat) {queue : List Task}
    (popped : List String) {t : Task} {rest : List Task}
    (hq : queue ≠ []) (hsort : sortByKey taskKeyT queue = t :: rest) :
    absLoop tasks (fuel + 1) queue popped =
      t :: absLoop tasks fuel (rest ++ released tasks popped t) (popped ++ [t.id]) := by
  rw [show absLoop tasks (fuel + 1) queue popped =
    (if queue = [] then []
     else match sortByKey taskKeyT queue with
      | [] => []
      | t :: rest => t :: absLoop tasks fuel
          (rest ++ released tasks popped t) (popped ++ [t.id])) from rfl]
  rw [if_neg hq, hsort]

theorem sortByKey_ne_nil {α : Type} (key : α → Nat × String) {l : List α}
    (h : l ≠ []) : sortByKey key l ≠ [] := by
  intro hc
  have hlen := (sortByKey_perm key l).length_eq
  rw [hc] at hlen
  simp only [List.length_nil] at hlen
  exact h (List.length_eq_zero.mp hlen.symm)

theorem presentDeps_mem_ids {tasks : List Task} {v : Task} {d : String}
    (hd : d ∈ presentDeps tasks v) : d ∈ idsOf tasks := by
  have h := (List.mem_filter.mp hd).2
  exact List.elem_iff.mp h

/-- Every run from a good state stays inside the task list, keeps the
pop order duplicate-free, and pops each present dep before its dependant. -/
theorem absLoop_run (tasks : List Task) (hnd : (idsOf tasks).Nodup) :
    ∀ (fuel : Nat) (queue : List Task) (popped : List String),
    Good tasks queue popped →
    (∀ v ∈ absLoop tasks fuel queue popped, v ∈ tasks) ∧
    (popped ++ (absLoop tasks fuel queue popped).map (fun v => v.id)).Nodup ∧
    (∀ v ∈ tasks,
      v.id ∈ popped ++ (absLoop tasks fuel queue popped).map (fun v => v.id) →
      ∀ d ∈ presentDeps tasks v,
        d ∈ popped ++ (absLoop tasks fuel queue popped).map (fun v => v.id) ∧
        (popped ++ (absLoop tasks fuel queue popped).map (fun v => v.id)).indexOf d <
          (popped ++ (absLoop tasks fuel queue popped).map
            (fun v => v.id)).indexOf v.id) := by
  intro fuel
  induction fuel with
  | zero =>
    intro queue popped G
    refine ⟨?_, ?_, ?_⟩
    · rw [absLoop_zero]; intro v hv; cases hv
    · simp only [absLoop_zero, List.map_nil, List.append_nil]
      exact G.popped_nd
    · intro v hv hvp d hd
      simp only [absLoop_zero, List.map_nil, List.append_nil] at hvp ⊢
      exact G.closed v hv hvp d hd
  | succ fuel ih =>
    intro queue popped G
    by_cases hq : queue = []
    · subst hq
      refine ⟨?_, ?_, ?_⟩
      · rw [absLoop_nil]; intro v hv; cases hv
      · simp only [absLoop_nil, List.map_nil, List.append_nil]
        exact G.popped_nd
      · intro v hv hvp d hd
        simp only [absLoop_nil, List.map_nil, List.append_nil] at hvp ⊢
        exact G.closed v hv hvp d hd
    · rcases hsort : sortByKey taskKeyT queue with _ | ⟨t, rest⟩
      · exact absurd hsort (sortByKey_ne_nil taskKeyT hq)
      rw [absLoop_cons tasks fuel popped hq hsort]
      obtain ⟨htq, ht, hrem0, htp⟩ := G.head_facts hsort
      obtain ⟨ih1, ih2, ih3⟩ := ih (rest ++ released tasks popped t)
        (popped ++ [t.id]) (G.stepGood hnd hsort)
      have happ : popped ++ (t :: absLoop tasks fuel
            (rest ++ released tasks popped t) (popped ++ [t.id])).map (fun v => v.id)
          = (popped ++ [t.id]) ++ (absLoop tasks fuel
            (rest ++ released tasks popped t) (popped ++ [t.id])).map
              (fun v => v.id) := by
        simp
      refine ⟨?_, ?_, ?_⟩
      · intro v hv
        rcases List.mem_cons.mp hv with rfl | hv
        · exact ht
        · exact ih1 v hv
      · rw [happ]; exact ih2
      · intro v hv hvp d hd
        rw [happ] at hvp ⊢
        exact ih3 v hv hvp d hd

/-- A nonempty list has a member minimising any `Nat`-valued measure. -/
theorem exists_min_by {α : Type} (f : α → Nat) (l : List α) (hne : l ≠ []) :
    ∃ a ∈ l, ∀ b ∈ l, f a ≤ f b := by
  induction l with
  | nil => exact absurd rfl hne
  | cons x xs ih =>
    by_cases hxs : xs = []
    · subst hxs
      refine ⟨x, by simp, ?_⟩
      intro b hb
      rcases List.mem_singleton.mp hb with rfl
      exact le_refl _
    · rcases ih hxs with ⟨a, ha, hmin⟩
      by_cases hfa : f x ≤ f a
      · refine ⟨x, by simp, ?_⟩
        intro b hb
        rcases List.mem_cons.mp hb with rfl | hb
        · exact le_refl _
        · exact le_trans hfa (hmin b hb)
      · refine ⟨a, List.mem_cons_of_mem _ ha, ?_⟩
        intro b hb
        rcases List.mem_cons.mp hb with rfl | hb
        · omega
        · exact hmin b hb

/-- Under a ranking function that decreases along present deps, a run with
enough fuel pops every task: no deadlock. -/
theorem absLoop_complete (tasks : List Task) (hnd : (idsOf tasks).Nodup)
    (f : String → Nat)
    (hrank : ∀ v ∈ tasks, ∀ d ∈ presentDeps tasks v, f d < f v.id) :
    ∀ (fuel : Nat) (queue : List Task) (popped : List String),
    Good tasks queue popped →
    tasks.length ≤ popped.length + fuel →
    ∀ v ∈ tasks,
      v.id ∈ popped ++ (absLoop tasks fuel queue popped).map (fun v => v.id) := by
  intro fuel
  induction fuel with
  | zero =>
    intro queue popped G hfuel v hv
    simp only [absLoop_zero, List.map_nil, List.append_nil]
    have hδ : popped.Subperm (idsOf tasks) :=
      List.subperm_of_subset G.popped_nd G.popped_sub
    have hlen : (idsOf tasks).length ≤ popped.length := by
      unfold idsOf
      rw [List.length_map]
      omega
    exact (hδ.perm_of_length_le hlen).mem_iff.mpr (List.mem_map_of_mem _ hv)
  | succ fuel ih =>
    intro queue popped G hfuel v hv
    by_cases hall : ∀ u ∈ tasks, u.id ∈ popped
    · exact List.mem_append.mpr (Or.inl (hall v hv))
    · push_neg at hall
      have hS : tasks.filter (fun u => ¬ popped.contains u.id) ≠ [] := by
        rcases hall with ⟨u, hu, hup⟩
        intro hc
        rw [List.filter_eq_nil_iff] at hc
        exact hc u hu (by simpa [List.elem_iff] using hup)
      rcases exists_min_by (fun u => f u.id) _ hS with ⟨v₀, hv₀S, hv₀min⟩
      rcases List.mem_filter.mp hv₀S with ⟨hv₀t, hv₀p⟩
      have hv₀p' : ¬ v₀.id ∈ popped := by
        simpa [List.elem_iff] using hv₀p
      have hrem₀ : remCount tasks popped v₀ = 0 := by
        by_contra hrc
        rcases remCount_exists_of_ne_zero tasks popped v₀ hrc with ⟨d, hd, hdp⟩
        rcases List.mem_map.mp (presentDeps_mem_ids hd) with ⟨u, hu, hud⟩
        have huS : u ∈ tasks.filter (fun u => ¬ popped.contains u.id) := by
          rw [List.mem_filter]
          refine ⟨hu, ?_⟩
          simp only [decide_not, Bool.not_eq_true', decide_eq_false_iff_not]
          intro hc
          exact hdp (by rw [← hud]; exact List.elem_iff.mp hc)
        have h1 := hv₀min u huS
        have h2 := hrank v₀ hv₀t d hd
        rw [← hud] at h2
        omega
      have hq : queue ≠ [] := by
        intro hc
        have := (G.frontier v₀ hv₀t).mpr ⟨hrem₀, hv₀p'⟩
        rw [hc] at this
        cases this
      rcases hsort : sortByKey taskKeyT queue with _ | ⟨t, rest⟩
      · exact absurd hsort (sortByKey_ne_nil taskKeyT hq)
      rw [absLoop_cons tasks fuel popped hq hsort]
      have happ : popped ++ (t :: absLoop tasks fuel
            (rest ++ released tasks popped t) (popped ++ [t.id])).map (fun v => v.id)
          = (popped ++ [t.id]) ++ (absLoop tasks fuel
            (rest ++ released tasks popped t) (popped ++ [t.id])).map
              (fun v => v.id) := by
        simp
      rw [happ]
      refine ih (rest ++ released tasks popped t) (popped ++ [t.id])
        (G.stepGood hnd hsort) ?_ v hv
      rw [List.length_append, List.length_singleton]
      omega

theorem indexOf_append_ge {d : String} {l1 l2 : List String} (h : ¬ d ∈ l1) :
    l1.length ≤ (l1 ++ l2).indexOf d := by
  induction l1 with
  | nil => simp
  | cons x xs ih =>
    have hx : x ≠ d := fun he => h (by simp [he])
    simp only [List.cons_append, List.indexOf_cons,
      show ((x == d) = false) from beq_eq_false_iff_ne.mpr hx, List.length_cons,
      cond_false]
    have := ih (fun hm => h (List.mem_cons_of_mem _ hm))
    omega

/-- Each task popped by the run has a minimal sort key among the tasks
that are ready but not yet popped at that point. -/
theorem absLoop_min_key (tasks : List Task) (hnd : (idsOf tasks).Nodup) :
    ∀ (fuel : Nat) (queue : List Task) (popped : List String),
    Good tasks queue popped →
    ∀ (k : Nat) (u : Task),
      (absLoop tasks fuel queue popped).get? k = some u →
      ∀ v ∈ tasks,
      remCount tasks (popped ++ ((absLoop tasks fuel queue popped).take k).map
        (fun v => v.id)) v = 0 →
      ¬ v.id ∈ popped ++ ((absLoop tasks fuel queue popped).take k).map
        (fun v => v.id) →
      keyLE (taskKeyT u) (taskKeyT v) = true := by
  intro fuel
  induction fuel with
  | zero =>
    intro queue popped _ k u hu
    rw [absLoop_zero] at hu
    cases k <;> cases hu
  | succ fuel ih =>
    intro queue popped G k u hu v hv hrem hvp
    by_cases hq : queue = []
    · subst hq
      rw [absLoop_nil] at hu
      cases k <;> cases hu
    · rcases hsort : sortByKey taskKeyT queue with _ | ⟨t, rest⟩
      · exact absurd hsort (sortByKey_ne_nil taskKeyT hq)
      rw [absLoop_cons tasks fuel popped hq hsort] at hu hrem hvp
      cases k with
      | zero =>
        rw [List.get?_cons_zero] at hu
        rcases Option.some.inj hu with rfl
        simp only [List.take_zero, List.map_nil, List.append_nil] at hrem hvp
        have hvq : v ∈ queue := (G.frontier v hv).mpr ⟨hrem, hvp⟩
        have hvs : v ∈ t :: rest := by
          rw [← hsort]
          exact ((sortByKey_perm taskKeyT queue).mem_iff).mpr hvq
        rcases List.mem_cons.mp hvs with rfl | hvr
        · exact keyLE_refl _
        · have hsorted := sortByKey_sorted taskKeyT queue
          rw [hsort] at hsorted
          exact (List.pairwise_cons.mp hsorted).1 v hvr
      | succ k =>
        rw [List.get?_cons_succ] at hu
        rw [List.take_succ_cons] at hrem hvp
        have happ : popped ++ (t :: (absLoop tasks fuel
              (rest ++ released tasks popped t) (popped ++ [t.id])).take k).map
              (fun v => v.id)
            = (popped ++ [t.id]) ++ ((absLoop tasks fuel
              (rest ++ released tasks popped t) (popped ++ [t.id])).take k).map
              (fun v => v.id) := by
          simp
        rw [happ] at hrem hvp
        exact ih (rest ++ released tasks popped t) (popped ++ [t.id])
          (G.stepGood hnd hsort) k u hu v hv hrem hvp

/-- Among equal-key tasks the run follows insertion order: the step at
which a task became ready (as reconstructed from the final pop order) is
monotone along the output. -/
theorem absLoop_insStep_mono (tasks : List Task) (hnd : (idsOf tasks).Nodup) :
    ∀ (fuel : Nat) (queue : List Task) (popped : List String),
    Good tasks queue popped → OrdInv tasks queue popped →
    ∀ (i j : Nat) (u w : Task),
      (absLoop tasks fuel queue popped).get? i = some u →
      (absLoop tasks fuel queue popped).get? j = some w →
      i < j → taskKeyT u = taskKeyT w →
      insStep tasks (popped ++ (absLoop tasks fuel queue popped).map
        (fun v => v.id)) u ≤
      insStep tasks (popped ++ (absLoop tasks fuel queue popped).map
        (fun v => v.id)) w := by
  intro fuel
  induction fuel with
  | zero =>
    intro queue popped _ _ i j u w hu
    rw [absLoop_zero] at hu
    cases i <;> cases hu
  | succ fuel ih =>
    intro queue popped G O i j u w hu hw hij hk
    by_cases hq : queue = []
    · subst hq
      rw [absLoop_nil] at hu
      cases i <;> cases hu
    · rcases hsort : sortByKey taskKeyT queue with _ | ⟨t, rest⟩
      · exact absurd hsort (sortByKey_ne_nil taskKeyT hq)
      obtain ⟨htq, ht, hrem0, htp⟩ := G.head_facts hsort
      rw [absLoop_cons tasks fuel popped hq hsort] at hu hw ⊢
      obtain ⟨run1, run2, run3⟩ := absLoop_run tasks hnd (fuel + 1) queue popped G
      rw [absLoop_cons tasks fuel popped hq hsort] at run1 run2 run3
      cases i with
      | succ i =>
        cases j with
        | zero => exact absurd hij (by omega)
        | succ j =>
          rw [List.get?_cons_succ] at hu hw
          have happ : popped ++ (t :: absLoop tasks fuel
                (rest ++ released tasks popped t) (popped ++ [t.id])).map
                (fun v => v.id)
              = (popped ++ [t.id]) ++ (absLoop tasks fuel
                (rest ++ released tasks popped t) (popped ++ [t.id])).map
                (fun v => v.id) := by
            simp
          rw [happ]
          exact ih (rest ++ released tasks popped t) (popped ++ [t.id])
            (G.stepGood hnd hsort) (O.stepOrd hnd G hsort) i j u w hu hw
            (by omega) hk
      | zero =>
        rw [List.get?_cons_zero] at hu
        rcases Option.some.inj hu with rfl
        cases j with
        | zero => exact absurd hij (by omega)
        | succ j =>
          rw [List.get?_cons_succ] at hw
          have hwout : w ∈ absLoop tasks fuel
              (rest ++ released tasks popped t) (popped ++ [t.id]) :=
            List.get?_mem hw
          have hwt : w ∈ tasks := run1 w (List.mem_cons_of_mem _ hwout)
          have hwid : w.id ∈ (t :: absLoop tasks fuel
              (rest ++ released tasks popped t) (popped ++ [t.id])).map
              (fun v => v.id) :=
            List.mem_map_of_mem _ (List.mem_cons_of_mem _ hwout)
          have hut : insStep tasks (popped ++ (t :: absLoop tasks fuel
              (rest ++ released tasks popped t) (popped ++ [t.id])).map
              (fun v => v.id)) t
              = insStep tasks popped t :=
            insStep_stable tasks popped _ t
              ((remCount_zero_iff tasks popped t).mp hrem0)
          have hule : insStep tasks popped t ≤ popped.length :=
            insStep_le tasks popped t
              ((remCount_zero_iff tasks popped t).mp hrem0)
          have hdisj : ∀ a ∈ popped, ¬ a ∈ (t :: absLoop tasks fuel
              (rest ++ released tasks popped t) (popped ++ [t.id])).map
              (fun v => v.id) := by
            rw [List.nodup_append] at run2
            exact run2.2.2
          by_cases hwp : w.id ∈ popped
          · exact absurd hwid (hdisj w.id hwp)
          · by_cases hwr : remCount tasks popped w = 0
            · have hwq : w ∈ queue := (G.frontier w hwt).mpr ⟨hwr, hwp⟩
              have hws : w ∈ t :: rest := by
                rw [← hsort]
                exact ((sortByKey_perm taskKeyT queue).mem_iff).mpr hwq
              have hwne : w ≠ t := by
                intro he
                subst he
                have : w.id ∈ (absLoop tasks fuel
                    (rest ++ released tasks popped w) (popped ++ [w.id])).map
                    (fun v => v.id) := List.mem_map_of_mem _ hwout
                have hnd2 : ((w :: absLoop tasks fuel
                    (rest ++ released tasks popped w) (popped ++ [w.id])).map
                    (fun v => v.id)).Nodup :=
                  (List.nodup_append.mp run2).2.1
                rw [List.map_cons, List.nodup_cons] at hnd2
                exact hnd2.1 this
              have hwrest : w ∈ rest := by
                rcases List.mem_cons.mp hws with he | h
                · exact absurd he hwne
                · exact h
              have hord := sortByKey_pairwise_cond taskKeyT _ queue O
              rw [hsort] at hord
              have h1 := (List.pairwise_cons.mp hord).1 w hwrest hk
              have hwstable : insStep tasks (popped ++ (t :: absLoop tasks fuel
                  (rest ++ released tasks popped t) (popped ++ [t.id])).map
                  (fun v => v.id)) w
                  = insStep tasks popped w :=
                insStep_stable tasks popped _ w
                  ((remCount_zero_iff tasks popped w).mp hwr)
              rw [hut, hwstable]
              rcases h1 with h1 | h1
              · omega
              · omega
            · rcases remCount_exists_of_ne_zero tasks popped w hwr with ⟨d, hd, hdp⟩
              have hclosed := run3 w hwt (List.mem_append.mpr (Or.inr hwid)) d hd
              have hdix : popped.length ≤ (popped ++ (t :: absLoop tasks fuel
                  (rest ++ released tasks popped t) (popped ++ [t.id])).map
                  (fun v => v.id)).indexOf d :=
                indexOf_append_ge hdp
              have hne : presentDeps tasks w ≠ [] := List.ne_nil_of_mem hd
              have hmax : (popped ++ (t :: absLoop tasks fuel
                  (rest ++ released tasks popped t) (popped ++ [t.id])).map
                  (fun v => v.id)).indexOf d ≤
                  ((presentDeps tasks w).map (fun d => (popped ++ (t :: absLoop tasks
                    fuel (rest ++ released tasks popped t)
                    (popped ++ [t.id])).map (fun v => v.id)).indexOf d)).foldr
                    max 0 :=
                le_foldr_max (List.mem_map_of_mem _ hd)
              have hwins : insStep tasks (popped ++ (t :: absLoop tasks fuel
                  (rest ++ released tasks popped t) (popped ++ [t.id])).map
                  (fun v => v.id)) w
                  = 1 + ((presentDeps tasks w).map (fun d => (popped ++ (t ::
                    absLoop tasks fuel (rest ++ released tasks popped t)
                    (popped ++ [t.id])).map (fun v => v.id)).indexOf d)).foldr
                    max 0 := by
                unfold insStep
                rw [if_neg hne]
              rw [hut, hwins]
              omega

theorem filterMap_cons_eq_some {α β : Type} (f : α → Option β) (a : α) (l : List α)
    {b : β} (h : f a = some b) : (a :: l).filterMap f = b :: l.filterMap f := by
  rw [List.filterMap_cons, h]

theorem filterMap_cons_eq_none {α β : Type} (f : α → Option β) (a : α) (l : List α)
    (h : f a = none) : (a :: l).filterMap f = l.filterMap f := by
  rw [List.filterMap_cons, h]

theorem remCount_nil (tasks : List Task) (u : Task) :
    remCount tasks [] u = (presentDeps tasks u).length := by
  unfold remCount
  congr 1
  apply List.filter_eq_self.mpr
  intro d _
  simp

theorem initQueue_map (tasks : List Task) : ∀ (l : List Task),
    (l.map (fun u => (u.id, ((presentDeps tasks u).length : Int)))).filterMap
      (fun p => if p.2 = 0 then some p.1 else none)
    = (l.filter (fun u => remCount tasks [] u == 0)).map (fun u => u.id)
  | [] => rfl
  | u :: l => by
    simp only [List.map_cons]
    by_cases h : ((presentDeps tasks u).length : Int) = 0
    · have h2 : remCount tasks [] u = 0 := by
        rw [remCount_nil]; exact_mod_cast h
      have hf : (fun (p : String × Int) => if p.2 = 0 then some p.1 else none)
          (u.id, ((presentDeps tasks u).length : Int)) = some u.id := by
        simp [h]
      rw [filterMap_cons_eq_some (fun (p : String × Int) =>
        if p.2 = 0 then some p.1 else none) _ _ hf]
      rw [List.filter_cons_of_pos (by simp [h2])]
      rw [List.map_cons, initQueue_map tasks l]
    · have h2 : ¬ remCount tasks [] u = 0 := by
        rw [remCount_nil]; intro hc
        exact h (by exact_mod_cast hc)
      have hf : (fun (p : String × Int) => if p.2 = 0 then some p.1 else none)
          (u.id, ((presentDeps tasks u).length : Int)) = none := by
        simp [h]
      rw [filterMap_cons_eq_none (fun (p : String × Int) =>
        if p.2 = 0 then some p.1 else none) _ _ hf]
      rw [List.filter_cons_of_neg (by simp [h2])]
      exact initQueue_map tasks l

theorem Good_init (tasks : List Task) (hnd : (idsOf tasks).Nodup) :
    Good tasks (initQueue tasks) [] := by
  refine ⟨?_, ?_, ?_, ?_, ?_, ?_⟩
  · intro v hv
    exact (List.mem_filter.mp hv).1
  · have hsub : List.Sublist ((initQueue tasks).map (fun v => v.id)) (idsOf tasks) := by
      unfold initQueue idsOf
      exact List.Sublist.map _ (List.filter_sublist tasks)
    exact hsub.nodup hnd
  · intro v hv
    constructor
    · intro hq
      have := (List.mem_filter.mp hq).2
      refine ⟨by simpa using this, ?_⟩
      intro hc
      cases hc
    · rintro ⟨h0, _⟩
      exact List.mem_filter.mpr ⟨hv, by simpa using h0⟩
  · intro d hd
    cases hd
  · exact List.nodup_nil
  · intro v _ hvp
    cases hvp

theorem OrdInv_init (tasks : List Task) (hnd : (idsOf tasks).Nodup) :
    OrdInv tasks (initQueue tasks) [] := by
  unfold OrdInv
  have h : (initQueue tasks).Pairwise (fun u w => posIn tasks u < posIn tasks w) := by
    unfold initQueue
    exact List.Pairwise.filter _ (pairwise_posIn tasks hnd)
  apply h.imp_of_mem
  intro u v hu hv hlt _
  right
  have hu0 : presentDeps tasks u = [] := by
    have := (List.mem_filter.mp hu).2
    rw [List.length_eq_zero.symm, ← remCount_nil]
    simpa using this
  have hv0 : presentDeps tasks v = [] := by
    have := (List.mem_filter.mp hv).2
    rw [List.length_eq_zero.symm, ← remCount_nil]
    simpa using this
  refine ⟨?_, hlt⟩
  unfold insStep
  rw [if_pos hu0, if_pos hv0]

theorem topological_sort_unfold (tasks : List Task) :
    topological_sort tasks =
      if tasks = [] then some [] else
      if (kahnLoop tasks (buildGraphInd tasks).1 (fuelOf tasks)
          ((buildGraphInd tasks).2.filterMap
            (fun p => if p.2 = 0 then some p.1 else none))
          (buildGraphInd tasks).2 []).length ≠ tasks.length then none
      else some (kahnLoop tasks (buildGraphInd tasks).1 (fuelOf tasks)
          ((buildGraphInd tasks).2.filterMap
            (fun p => if p.2 = 0 then some p.1 else none))
          (buildGraphInd tasks).2 []) := rfl

/-- `topological_sort` is the abstract loop run from the initial frontier,
guarded by the length check. -/
theorem topological_sort_eq (tasks : List Task) (hnd : (idsOf tasks).Nodup) :
    topological_sort tasks =
      if (absLoop tasks (fuelOf tasks) (initQueue tasks) []).length ≠ tasks.length
      then none
      else some (absLoop tasks (fuelOf tasks) (initQueue tasks) []) := by
  by_cases he : tasks = []
  · subst he
    have h1 : initQueue [] = [] := rfl
    rw [h1, absLoop_nil]
    rfl
  · rw [topological_sort_unfold tasks, if_neg he, buildGraphInd_eq tasks hnd]
    show (if (kahnLoop tasks (tasks.map (fun u => (u.id, adjSpec tasks u.id)))
        (fuelOf tasks)
        ((tasks.map (fun u =>
          (u.id, ((presentDeps tasks u).length : Int)))).filterMap
          (fun p => if p.2 = 0 then some p.1 else none))
        (tasks.map (fun u => (u.id, ((presentDeps tasks u).length : Int))))
        []).length ≠ tasks.length then none
      else some (kahnLoop tasks (tasks.map (fun u => (u.id, adjSpec tasks u.id)))
        (fuelOf tasks)
        ((tasks.map (fun u =>
          (u.id, ((presentDeps tasks u).length : Int)))).filterMap
          (fun p => if p.2 = 0 then some p.1 else none))
        (tasks.map (fun u => (u.id, ((presentDeps tasks u).length : Int))))
        [])) = _
    have hq0 : (tasks.map (fun u =>
        (u.id, ((presentDeps tasks u).length : Int)))).filterMap
          (fun p => if p.2 = 0 then some p.1 else none)
        = (initQueue tasks).map (fun u => u.id) := initQueue_map tasks tasks
    have hcnt : (tasks.map (fun u => (u.id, ((presentDeps tasks u).length : Int))))
        = tasks.map (fun u => (u.id, (remCount tasks [] u : Int))) := by
      apply List.map_congr_left
      intro u _
      rw [remCount_nil]
    rw [hq0, hcnt]
    rw [kahnLoop_eq_absLoop tasks hnd (fuelOf tasks) (initQueue tasks) [] []
      (Good_init tasks hnd)]
    rw [List.nil_append]

/-! ### Idempotence: running the loop on its own output -/
theorem presentDeps_congr {tasks l : List Task}
    (h : ∀ d, d ∈ idsOf tasks ↔ d ∈ idsOf l) (v : Task) :
    presentDeps tasks v = presentDeps l v := by
  unfold presentDeps
  apply List.filter_congr
  intro d _
  rw [Bool.eq_iff_iff]
  simp only [List.elem_iff]
  exact h d

theorem remCount_congr {tasks l : List Task}
    (h : ∀ d, d ∈ idsOf tasks ↔ d ∈ idsOf l) (popped : List String) (v : Task) :
    remCount tasks popped v = remCount l popped v := by
  unfold remCount
  rw [presentDeps_congr h]

theorem insStep_congr {tasks l : List Task}
    (h : ∀ d, d ∈ idsOf tasks ↔ d ∈ idsOf l) (popped : List String) (v : Task) :
    insStep tasks popped v = insStep l popped v := by
  unfold insStep
  rw [presentDeps_congr h]

theorem indexOf_append_right {d : String} {l1 : List String} (l2 : List String)
    (h : ¬ d ∈ l1) :
    (l1 ++ l2).indexOf d = l1.length + l2.indexOf d := by
  induction l1 with
  | nil => simp
  | cons x xs ih =>
    have hx : x ≠ d := fun he => h (by simp [he])
    simp only [List.cons_append, List.indexOf_cons,
      show ((x == d) = false) from beq_eq_false_iff_ne.mpr hx, cond_false,
      List.length_cons]
    rw [ih (fun hm => h (List.mem_cons_of_mem _ hm))]
    omega

/-- Running the loop on a list that satisfies the invariants established
by a first run reproduces the list — the source of idempotence. -/
theorem absLoop_self (l : List Task) (hnd : (idsOf l).Nodup)
    (hM3 : ∀ (k : Nat) (u : Task), l.get? k = some u → ∀ v ∈ l,
        remCount l ((l.take k).map (fun v => v.id)) v = 0 →
        ¬ v.id ∈ (l.take k).map (fun v => v.id) →
        keyLE (taskKeyT u) (taskKeyT v) = true)
    (hM4 : ∀ (i j : Nat) (u w : Task), l.get? i = some u → l.get? j = some w →
        i < j → taskKeyT u = taskKeyT w →
        insStep l (idsOf l) u ≤ insStep l (idsOf l) w)
    (hcl : ∀ w ∈ l, ∀ d ∈ presentDeps l w,
        (idsOf l).indexOf d < (idsOf l).indexOf w.id) :
    ∀ (todo done queue : List Task) (fuel : Nat),
      l = done ++ todo → todo.length ≤ fuel →
      Good l queue (idsOf done) → OrdInv l queue (idsOf done) →
      absLoop l fuel queue (idsOf done) = todo := by
  intro todo
  induction todo with
  | nil =>
    intro done queue fuel he hf G O
    rw [List.append_nil] at he
    subst he
    have hq : queue = [] := by
      rcases hqe : queue with _ | ⟨v, rest⟩
      · rfl
      · exfalso
        have hv : v ∈ queue := by rw [hqe]; simp
        have hvl := G.sub v hv
        exact ((G.frontier v hvl).mp hv).2 (List.mem_map_of_mem _ hvl)
    rw [hq, absLoop_nil]
  | cons t₀ todo ih =>
    intro done queue fuel he hf G O
    rcases fuel with _ | fuel
    · simp at hf
    have ht₀l : t₀ ∈ l := by rw [he]; simp
    have hids : idsOf l = idsOf done ++ t₀.id :: idsOf todo := by
      rw [he]; simp [idsOf]
    have hdisj : ¬ t₀.id ∈ idsOf done := by
      intro hc
      have h2 : (idsOf done ++ t₀.id :: idsOf todo).Nodup := by
        rw [← hids]; exact hnd
      rcases List.nodup_append.mp h2 with ⟨_, _, hdj⟩
      exact hdj hc (by simp)
    have hlen_done : (idsOf done).length = done.length := by simp [idsOf]
    have hpos₀ : (idsOf l).indexOf t₀.id = (idsOf done).length := by
      have h0 : (t₀.id :: idsOf todo).indexOf t₀.id = 0 := by
        simp [List.indexOf_cons]
      rw [hids, indexOf_append_right _ hdisj, h0]
      omega
    have hrem₀ : remCount l (idsOf done) t₀ = 0 := by
      rw [remCount_zero_iff]
      intro d hd
      have hlt := hcl t₀ ht₀l d hd
      rw [hpos₀] at hlt
      by_contra hdc
      have hge : (idsOf done).length ≤
          (idsOf done ++ t₀.id :: idsOf todo).indexOf d :=
        indexOf_append_ge hdc
      rw [← hids] at hge
      omega
    have ht₀q : t₀ ∈ queue := (G.frontier t₀ ht₀l).mpr ⟨hrem₀, hdisj⟩
    have hq : queue ≠ [] := fun hc => by rw [hc] at ht₀q; cases ht₀q
    rcases hsort : sortByKey taskKeyT queue with _ | ⟨w, rest⟩
    · exact absurd hsort (sortByKey_ne_nil taskKeyT hq)
    obtain ⟨hwq, hwl, hwrem, hwp⟩ := G.head_facts hsort
    by_cases hwt : w = t₀
    · subst hwt
      rw [absLoop_cons l fuel (idsOf done) hq hsort]
      have hids2 : idsOf done ++ [w.id] = idsOf (done ++ [w]) := by simp [idsOf]
      have he2 : l = (done ++ [w]) ++ todo := by rw [he]; simp
      have G2 := G.stepGood hnd hsort
      have O2 := O.stepOrd hnd G hsort
      rw [hids2] at G2 O2
      rw [hids2]
      rw [ih (done ++ [w]) (rest ++ released l (idsOf done) w) fuel he2
        (by simp only [List.length_cons] at hf; omega) G2 O2]
    · exfalso
      have hget₀ : l.get? done.length = some t₀ := by
        rw [he, List.get?_append_right (le_refl done.length)]
        simp
      have htake : l.take done.length = done := by
        rw [he]; exact List.take_left done _
      have hwrem' : remCount l ((l.take done.length).map (fun v => v.id)) w = 0 := by
        rw [htake]; exact hwrem
      have hwp' : ¬ w.id ∈ (l.take done.length).map (fun v => v.id) := by
        rw [htake]; exact hwp
      have hMk := hM3 done.length t₀ hget₀ w hwl hwrem' hwp'
      have hkmin : keyLE (taskKeyT w) (taskKeyT t₀) = true := by
        have hsorted := sortByKey_sorted taskKeyT queue
        rw [hsort] at hsorted
        have ht₀s : t₀ ∈ w :: rest := by
          rw [← hsort]
          exact ((sortByKey_perm taskKeyT queue).mem_iff).mpr ht₀q
        rcases List.mem_cons.mp ht₀s with he' | hr
        · exact absurd he'.symm hwt
        · exact (List.pairwise_cons.mp hsorted).1 t₀ hr
      have hkeq : taskKeyT t₀ = taskKeyT w := keyLE_antisymm hMk hkmin
      have hwid_ne : w.id ≠ t₀.id := fun hidq => hwt (task_id_inj hnd hwl ht₀l hidq)
      have hw_todo : w ∈ todo := by
        have hw' : w ∈ done ++ t₀ :: todo := by rw [← he]; exact hwl
        rcases List.mem_append.mp hw' with hd | hd
        · exact absurd (List.mem_map_of_mem (fun v => v.id) hd) hwp
        · rcases List.mem_cons.mp hd with he' | hd'
          · exact absurd he' hwt
          · exact hd'
      rcases List.get?_of_mem hw_todo with ⟨m, hm⟩
      have hgetw : l.get? (done.length + 1 + m) = some w := by
        rw [he, List.get?_append_right (by omega)]
        have hsub : done.length + 1 + m - done.length = m + 1 := by omega
        rw [hsub, List.get?_cons_succ]
        exact hm
      have hM4i := hM4 done.length (done.length + 1 + m) t₀ w hget₀ hgetw
        (by omega) hkeq
      have hwdeps : ∀ d ∈ presentDeps l w, d ∈ idsOf done :=
        (remCount_zero_iff l (idsOf done) w).mp hwrem
      have ht₀deps : ∀ d ∈ presentDeps l t₀, d ∈ idsOf done :=
        (remCount_zero_iff l (idsOf done) t₀).mp hrem₀
      have hbr : ∀ (v : Task), (∀ d ∈ presentDeps l v, d ∈ idsOf done) →
          insStep l (idsOf l) v = insStep l (idsOf done) v := by
        intro v hv
        rw [hids]
        exact insStep_stable l (idsOf done) _ v hv
      rw [hbr t₀ ht₀deps, hbr w hwdeps] at hM4i
      have hord := sortByKey_pairwise_cond taskKeyT _ queue O
      rw [hsort] at hord
      have ht₀rest : t₀ ∈ rest := by
        have ht₀s : t₀ ∈ w :: rest := by
          rw [← hsort]
          exact ((sortByKey_perm taskKeyT queue).mem_iff).mpr ht₀q
        rcases List.mem_cons.mp ht₀s with he' | hr
        · exact absurd he'.symm hwt
        · exact hr
      have hOr := (List.pairwise_cons.mp hord).1 t₀ ht₀rest hkeq.symm
      have hposw : done.length < posIn l w := by
        unfold posIn
        have hnotin : ¬ w.id ∈ idsOf done ++ [t₀.id] := by
          intro hc
          rcases List.mem_append.mp hc with hc | hc
          · exact hwp hc
          · exact hwid_ne (by simpa using hc)
        have hge : (idsOf done ++ [t₀.id]).length ≤
            ((idsOf done ++ [t₀.id]) ++ idsOf todo).indexOf w.id :=
          indexOf_append_ge hnotin
        have heq2 : (idsOf done ++ [t₀.id]) ++ idsOf todo = idsOf l := by
          rw [hids]; simp
        rw [heq2] at hge
        simp only [List.length_append, List.length_singleton] at hge
        omega
      have hpost₀ : posIn l t₀ = done.length := by
        unfold posIn
        rw [hpos₀, hlen_done]
      rcases hOr with h1 | h1
      · omega
      · rcases h1 with ⟨_, h2⟩
        omega

/-- The Kahn run under acyclicity: success, permutation, dependency order,
and reproduction on its own output. -/
theorem topological_sort_correct (tasks : List Task)
    (hnd : (idsOf tasks).Nodup) (hac : NoDepCycle tasks) :
    ∃ l, topological_sort tasks = some l ∧ List.Perm l tasks ∧
      (∀ u ∈ l, ∀ w ∈ l, u.id ∈ w.depends_on →
        (idsOf l).indexOf u.id < (idsOf l).indexOf w.id) ∧
      topological_sort l = some l := by
  rcases hac with ⟨f, hf⟩
  have hrank : ∀ v ∈ tasks, ∀ d ∈ presentDeps tasks v, f d < f v.id := by
    intro v hv d hd
    have hdep : d ∈ v.depends_on := (List.mem_filter.mp hd).1
    rcases List.mem_map.mp (presentDeps_mem_ids hd) with ⟨u, hu, hud⟩
    rw [← hud]
    exact hf v hv u hu (by rw [hud]; exact hdep)
  set out := absLoop tasks (fuelOf tasks) (initQueue tasks) [] with hout
  have G0 := Good_init tasks hnd
  have O0 := OrdInv_init tasks hnd
  obtain ⟨run1, run2, run3⟩ :=
    absLoop_run tasks hnd (fuelOf tasks) (initQueue tasks) [] G0
  simp only [List.nil_append, ← hout] at run1 run2 run3
  have hcomp : ∀ v ∈ tasks, v.id ∈ out.map (fun v => v.id) := by
    intro v hv
    have h := absLoop_complete tasks hnd f hrank (fuelOf tasks) (initQueue tasks)
      [] G0 (by simp only [List.length_nil]; unfold fuelOf; omega) v hv
    simpa [← hout] using h
  have hlen : tasks.length ≤ out.length := by
    have hsp : List.Subperm (idsOf tasks) (out.map (fun v => v.id)) :=
      List.subperm_of_subset hnd (fun d hd => by
        rcases List.mem_map.mp hd with ⟨v, hv, hdv⟩
        rw [← hdv]
        exact hcomp v hv)
    have hl := hsp.length_le
    simpa [idsOf] using hl
  have houtnd : out.Nodup := List.Nodup.of_map _ run2
  have hperm : List.Perm out tasks :=
    (List.subperm_of_subset houtnd run1).perm_of_length_le hlen
  have hlen_eq : out.length = tasks.length := hperm.length_eq
  have hts : topological_sort tasks = some out := by
    rw [topological_sort_eq tasks hnd, ← hout, if_neg (by omega)]
  have hord : ∀ u ∈ out, ∀ w ∈ out, u.id ∈ w.depends_on →
      (idsOf out).indexOf u.id < (idsOf out).indexOf w.id := by
    intro u hu w hw hdep
    have hwt : w ∈ tasks := run1 w hw
    have hut : u ∈ tasks := run1 u hu
    have hd : u.id ∈ presentDeps tasks w := by
      unfold presentDeps
      rw [List.mem_filter]
      refine ⟨hdep, ?_⟩
      simp only [List.elem_iff]
      exact List.mem_map_of_mem _ hut
    exact (run3 w hwt (List.mem_map_of_mem _ hw) u.id hd).2
  have hnd_out : (idsOf out).Nodup := run2
  have hmem_iff : ∀ d, d ∈ idsOf tasks ↔ d ∈ idsOf out := by
    intro d
    constructor
    · intro hd
      rcases List.mem_map.mp hd with ⟨v, hv, hdv⟩
      rw [← hdv]
      exact hcomp v hv
    · intro hd
      rcases List.mem_map.mp hd with ⟨v, hv, hdv⟩
      rw [← hdv]
      exact List.mem_map_of_mem _ (run1 v hv)
  have hM3l : ∀ (k : Nat) (u : Task), out.get? k = some u → ∀ v ∈ out,
      remCount out ((out.take k).map (fun v => v.id)) v = 0 →
      ¬ v.id ∈ (out.take k).map (fun v => v.id) →
      keyLE (taskKeyT u) (taskKeyT v) = true := by
    intro k u hk v hv hrc hnp
    apply absLoop_min_key tasks hnd (fuelOf tasks) (initQueue tasks) [] G0 k u
      (by rw [← hout]; exact hk) v (run1 v hv)
    · show remCount tasks ((out.take k).map (fun v => v.id)) v = 0
      rw [remCount_congr hmem_iff]
      exact hrc
    · show ¬ v.id ∈ (out.take k).map (fun v => v.id)
      exact hnp
  have hM4l : ∀ (i j : Nat) (u w : Task), out.get? i = some u →
      out.get? j = some w → i < j → taskKeyT u = taskKeyT w →
      insStep out (idsOf out) u ≤ insStep out (idsOf out) w := by
    intro i j u w hi hj hij hk
    have h := absLoop_insStep_mono tasks hnd (fuelOf tasks) (initQueue tasks) []
      G0 O0 i j u w (by rw [← hout]; exact hi) (by rw [← hout]; exact hj) hij hk
    rw [insStep_congr hmem_iff, insStep_congr hmem_iff] at h
    exact h
  have hcll : ∀ w ∈ out, ∀ d ∈ presentDeps out w,
      (idsOf out).indexOf d < (idsOf out).indexOf w.id := by
    intro w hw d hd
    have hwt : w ∈ tasks := run1 w hw
    have hd' : d ∈ presentDeps tasks w := by
      rw [presentDeps_congr hmem_iff]
      exact hd
    exact (run3 w hwt (List.mem_map_of_mem _ hw) d hd').2
  have hself : absLoop out (fuelOf out) (initQueue out) [] = out :=
    absLoop_self out hnd_out hM3l hM4l hcll out [] (initQueue out) (fuelOf out)
      rfl (by unfold fuelOf; omega) (Good_init out hnd_out)
      (OrdInv_init out hnd_out)
  have hts2 : topological_sort out = some out := by
    rw [topological_sort_eq out hnd_out, hself, if_neg (by omega)]
  exact ⟨out, hts, hperm, hord, hts2⟩

/-- C4: for every task list with duplicate-free ids (the store invariant)
and no dependency cycle, `topological_sort` succeeds and returns a
permutation of the input in which every task referenced by another task's
`depends_on` precedes that dependent, and running it again on its own
output returns the same ordering. -/
theorem claim_C4_topological_order (tasks : List Task)
    (hnd : (idsOf tasks).Nodup) (hac : NoDepCycle tasks) :
    ∃ l, topological_sort tasks = some l ∧ List.Perm l tasks ∧
      (∀ u ∈ l, ∀ w ∈ l, u.id ∈ w.depends_on →
        (idsOf l).indexOf u.id < (idsOf l).indexOf w.id) ∧
      topological_sort l = some l :=
  topological_sort_correct tasks hnd hac

/-- Witness: the two-task chain `[b ← a]` given in reverse order. -/
theorem claim_C4_topological_order_witness :
    ∃ l, topological_sort [c4TaskB, c4TaskA] = some l ∧
      List.Perm l [c4TaskB, c4TaskA] ∧
      (∀ u ∈ l, ∀ w ∈ l, u.id ∈ w.depends_on →
        (idsOf l).indexOf u.id < (idsOf l).indexOf w.id) ∧
      topological_sort l = some l :=
  claim_C4_topological_order [c4TaskB, c4TaskA] (by decide)
    ⟨fun s => if s = "a" then 0 else 1, by decide⟩

/-! ### Absent dependency ids (claim C5) -/
theorem get_next_executable_unfold (tasks : List Task) :
    get_next_executable tasks =
      match topological_sort (tasks.filter (fun t => t.status == "queued")) with
      | none => none
      | some sorted => some (sorted.find? (fun t => t.depends_on.all
          (fun d => ((tasks.filter (fun t => t.status == "completed")).map
            (fun t => t.id)).contains d))) := rfl

/-- C5, counterexample: an absent dependency id is indeed skipped by the
sort (the task is ordered without error), but it is **not** treated as
satisfied by `get_next_executable`: with `c5Task` the only queued task and
`"ghost"` absent, no task is returned at all (`some none`), so the absent
id does prevent the task from being returned. -/
theorem claim_C5_counterexample :
    c5Task.status = "queued" ∧ ¬ "ghost" ∈ idsOf [c5Task] ∧
    topological_sort [c5Task] = some [c5Task] ∧
    get_next_executable [c5Task] = some none := by
  refine ⟨rfl, by decide, ?_, ?_⟩ <;> rfl

/-- C5, amended: an absent dependency id is silently non-blocking for
`topological_sort` — under the store invariant and acyclicity of the
present-id dependency relation the sort succeeds and every task, ghost
deps or not, appears in the output.  `get_next_executable`, however,
returns a task only when every `depends_on` entry (absent ids included)
is the id of a completed stored task, so an absent id blocks there. -/
theorem claim_C5_amended (tasks : List Task) (hnd : (idsOf tasks).Nodup)
    (hac : NoDepCycle tasks) :
    (∃ l, topological_sort tasks = some l ∧ ∀ v ∈ tasks, v ∈ l) ∧
    (∀ r : Task, get_next_executable tasks = some (some r) →
      ∀ d ∈ r.depends_on,
        d ∈ (tasks.filter (fun t => t.status == "completed")).map
          (fun t => t.id)) := by
  constructor
  · rcases topological_sort_correct tasks hnd hac with ⟨l, h1, h2, _, _⟩
    exact ⟨l, h1, fun v hv => h2.mem_iff.mpr hv⟩
  · intro r hr d hd
    rw [get_next_executable_unfold] at hr
    rcases hts : topological_sort (tasks.filter (fun t => t.status == "queued"))
      with _ | sorted
    · rw [hts] at hr
      exact Option.noConfusion hr
    · rw [hts] at hr
      have hf := Option.some.inj hr
      have hp := List.find?_some hf
      rw [List.all_eq_true] at hp
      have hdp := hp d hd
      simpa [List.elem_iff] using hdp

/-- Witness for the amended C5 at the single ghost-dep task. -/
theorem claim_C5_amended_witness :
    (∃ l, topological_sort [c5Task] = some l ∧ ∀ v ∈ [c5Task], v ∈ l) ∧
    (∀ r : Task, get_next_executable [c5Task] = some (some r) →
      ∀ d ∈ r.depends_on,
        d ∈ (([c5Task].filter (fun t => t.status == "completed")).map
          (fun t => t.id))) :=
  claim_C5_amended [c5Task] (by decide) ⟨fun _ => 0, by decide⟩

end DependencyResolver

namespace ParallelScheduler
open DependencyResolver

/-! ### Facts about the built graph -/
theorem task_map_get_id {tasks : List Task} {tid : String} {t : Task}
    (h : task_map_get tasks tid = some t) : t.id = tid := by
  unfold task_map_get at h
  have h2 := List.find?_some h
  simpa using h2

theorem task_map_get_mem {tasks : List Task} {tid : String} {t : Task}
    (h : task_map_get tasks tid = some t) : t ∈ tasks := by
  unfold task_map_get at h
  exact List.mem_reverse.mp (List.mem_of_find?_eq_some h)

theorem aGet?_mem {α : Type} {m : Assoc α} {k : String} {v : α}
    (h : aGet? m k = some v) : (k, v) ∈ m := by
  unfold aGet? at h
  rcases Option.map_eq_some'.mp h with ⟨p, hp, hpv⟩
  have h1 := List.find?_some hp
  have h2 := List.mem_of_find?_eq_some hp
  have hk : p.1 = k := by simpa using h1
  have hpe : p = (k, v) := by
    rcases p with ⟨p1, p2⟩
    simp only at hk hpv
    rw [hk, hpv]
  rw [← hpe]
  exact h2

theorem addNode_edges (g : DepGraph) (n : String) :
    (addNode g n).edges = g.edges := rfl

theorem addEdge_get_edge_type (g : DepGraph) (d t ty f s : String) :
    get_edge_type (addEdge g d t ty) f s =
      if d = f ∧ t = s then some ty else get_edge_type g f s := by
  show get_edge_type { addNode (addNode g d) t with
      edges := aSet g.edges d (aSet ((aGet? g.edges d).getD []) t ty) } f s = _
  unfold get_edge_type
  by_cases hdf : d = f
  · subst hdf
    show (match aGet? (aSet g.edges d (aSet ((aGet? g.edges d).getD []) t ty)) d with
      | some inner => aGet? inner s
      | none => none) = _
    rw [aGet?_aSet_self]
    by_cases hts : t = s
    · subst hts
      rw [if_pos ⟨rfl, rfl⟩]
      show aGet? (aSet ((aGet? g.edges d).getD []) t ty) t = some ty
      exact aGet?_aSet_self _ _ _
    · rw [if_neg (fun hc => hts hc.2)]
      show aGet? (aSet ((aGet? g.edges d).getD []) t ty) s = _
      rw [aGet?_aSet_ne _ _ _ _ (fun he => hts he.symm)]
      rcases hE : aGet? g.edges d with _ | inner
      · rfl
      · rfl
  · show (match aGet? (aSet g.edges d (aSet ((aGet? g.edges d).getD []) t ty)) f with
      | some inner => aGet? inner s
      | none => none) = _
    rw [aGet?_aSet_ne _ _ _ _ (fun he => hdf he.symm)]
    rw [if_neg (fun hc => hdf hc.1)]

theorem EdgeOK_addEdge (g : DepGraph) (d t ty f s : String)
    (hty : ty = "hard" ∨ ty = "dependency")
    (h : EdgeOK g f s) : EdgeOK (addEdge g d t ty) f s := by
  rcases h with ⟨ty0, h1, h2⟩
  by_cases hc : d = f ∧ t = s
  · exact ⟨ty, by rw [addEdge_get_edge_type, if_pos hc], hty⟩
  · exact ⟨ty0, by rw [addEdge_get_edge_type, if_neg hc]; exact h1, h2⟩

theorem EdgeOK_addEdge_self (g : DepGraph) (d t ty : String)
    (hty : ty = "hard" ∨ ty = "dependency") :
    EdgeOK (addEdge g d t ty) d t :=
  ⟨ty, by rw [addEdge_get_edge_type, if_pos ⟨rfl, rfl⟩], hty⟩

theorem EdgeOK_foldHard (a : Task) {f s : String} :
    ∀ (rest : List Task) (g : DepGraph), EdgeOK g f s →
    EdgeOK (rest.foldl (fun g b =>
      if analyze_conflict_level a b = ConflictLevel.HARD
      then addEdge g a.id b.id "hard" else g) g) f s
  | [], _, h => h
  | b :: rest, g, h => by
    simp only [List.foldl_cons]
    apply EdgeOK_foldHard a rest
    by_cases hc : analyze_conflict_level a b = ConflictLevel.HARD
    · rw [if_pos hc]
      exact EdgeOK_addEdge _ _ _ _ _ _ (Or.inl rfl) h
    · rw [if_neg hc]
      exact h

theorem EdgeOK_pairFoldHard {f s : String} :
    ∀ (l : List Task) (g : DepGraph), EdgeOK g f s → EdgeOK (pairFoldHard g l) f s
  | [], _, h => h
  | a :: rest, g, h =>
    EdgeOK_pairFoldHard rest (hardPairStep g a rest) (EdgeOK_foldHard a rest g h)

theorem EdgeOK_depFold (tid : String) :
    ∀ (deps : List String) (g : DepGraph) (d0 : String),
    (d0 ∈ deps ∨ EdgeOK g d0 tid) →
    EdgeOK (deps.foldl (fun g d => addEdge g d tid "dependency") g) d0 tid
  | [], _, d0, h => by
    rcases h with h | h
    · cases h
    · exact h
  | d :: deps, g, d0, h => by
    simp only [List.foldl_cons]
    apply EdgeOK_depFold tid deps
    rcases h with h | h
    · rcases List.mem_cons.mp h with rfl | h2
      · exact Or.inr (EdgeOK_addEdge_self g d0 tid "dependency" (Or.inr rfl))
      · exact Or.inl h2
    · exact Or.inr (EdgeOK_addEdge _ _ _ _ _ _ (Or.inr rfl) h)

theorem EdgeOK_depFold_pres (tid : String) {f s : String} :
    ∀ (deps : List String) (g : DepGraph), EdgeOK g f s →
    EdgeOK (deps.foldl (fun g d => addEdge g d tid "dependency") g) f s
  | [], _, h => h
  | d :: deps, g, h => by
    simp only [List.foldl_cons]
    exact EdgeOK_depFold_pres tid deps _ (EdgeOK_addEdge _ _ _ _ _ _ (Or.inr rfl) h)

theorem EdgeOK_phase2 :
    ∀ (l : List Task) (g : DepGraph) (w : Task) (d : String),
    ((w ∈ l ∧ d ∈ w.depends_on) ∨ EdgeOK g d w.id) →
    EdgeOK (l.foldl (fun g t => t.depends_on.foldl
      (fun g d => addEdge g d t.id "dependency") g) g) d w.id
  | [], _, w, d, h => by
    rcases h with ⟨h, _⟩ | h
    · cases h
    · exact h
  | t :: l, g, w, d, h => by
    simp only [List.foldl_cons]
    apply EdgeOK_phase2 l
    rcases h with ⟨hw, hd⟩ | h
    · rcases List.mem_cons.mp hw with rfl | hw2
      · exact Or.inr (EdgeOK_depFold w.id w.depends_on g d (Or.inl hd))
      · exact Or.inl ⟨hw2, hd⟩
    · exact Or.inr (EdgeOK_depFold_pres t.id t.depends_on g h)

theorem EdgeOK_hardStep_mem (a : Task) :
    ∀ (rest : List Task) (g : DepGraph) (b : Task), b ∈ rest →
    analyze_conflict_level a b = ConflictLevel.HARD →
    EdgeOK (rest.foldl (fun g b =>
      if analyze_conflict_level a b = ConflictLevel.HARD
      then addEdge g a.id b.id "hard" else g) g) a.id b.id
  | [], _, b, hb, _ => by cases hb
  | c :: rest, g, b, hb, hh => by
    simp only [List.foldl_cons]
    rcases List.mem_cons.mp hb with rfl | hb2
    · apply EdgeOK_foldHard a rest
      rw [if_pos hh]
      exact EdgeOK_addEdge_self _ _ _ _ (Or.inl rfl)
    · exact EdgeOK_hardStep_mem a rest _ b hb2 hh

theorem EdgeOK_pairFold_mem :
    ∀ (l : List Task) (g : DepGraph) (i j : Nat) (u w : Task),
    l.get? i = some u → l.get? j = some w → i < j →
    analyze_conflict_level u w = ConflictLevel.HARD →
    EdgeOK (pairFoldHard g l) u.id w.id
  | [], _, i, _, _, _, hi, _, _, _ => by cases i <;> cases hi
  | a :: l, g, i, j, u, w, hi, hj, hij, hh => by
    cases i with
    | zero =>
      rw [List.get?_cons_zero] at hi
      rcases Option.some.inj hi with rfl
      cases j with
      | zero => exact absurd hij (by omega)
      | succ j =>
        rw [List.get?_cons_succ] at hj
        have hwmem : w ∈ l := List.get?_mem hj
        show EdgeOK (pairFoldHard (hardPairStep g a l) l) a.id w.id
        apply EdgeOK_pairFoldHard
        exact EdgeOK_hardStep_mem a l g w hwmem hh
    | succ i =>
      cases j with
      | zero => exact absurd hij (by omega)
      | succ j =>
        rw [List.get?_cons_succ] at hi hj
        exact EdgeOK_pairFold_mem l _ i j u w hi hj (by omega) hh

theorem build_dependency_graph_unfold (tasks : List Task) :
    build_dependency_graph tasks =
      pairFoldHard (tasks.foldl (fun g t => t.depends_on.foldl
        (fun g d => addEdge g d t.id "dependency") g)
        (tasks.foldl (fun g t => addNode g t.id) {})) tasks := rfl

theorem build_edge_dep (tasks : List Task) {w : Task} {d : String}
    (hw : w ∈ tasks) (hd : d ∈ w.depends_on) :
    EdgeOK (build_dependency_graph tasks) d w.id := by
  rw [build_dependency_graph_unfold]
  apply EdgeOK_pairFoldHard
  exact EdgeOK_phase2 tasks _ w d (Or.inl ⟨hw, hd⟩)

theorem build_edge_hard (tasks : List Task) {i j : Nat} {u w : Task}
    (hi : tasks.get? i = some u) (hj : tasks.get? j = some w) (hij : i < j)
    (hh : analyze_conflict_level u w = ConflictLevel.HARD) :
    EdgeOK (build_dependency_graph tasks) u.id w.id := by
  rw [build_dependency_graph_unfold]
  exact EdgeOK_pairFold_mem tasks _ i j u w hi hj hij hh

theorem hardDepsSat_sound {g : DepGraph} {tid : String} {sched : List String}
    (h : hardDepsSat g tid sched = true) {d : String}
    (he : EdgeOK g d tid) : d ∈ sched := by
  rcases he with ⟨ty, hty, hallow⟩
  unfold get_edge_type at hty
  rcases hE : aGet? g.edges d with _ | inner
  · rw [hE] at hty
    cases hty
  · rw [hE] at hty
    have hty2 : aGet? inner tid = some ty := hty
    have hmem : (d, inner) ∈ g.edges := aGet?_mem hE
    have hds : d ∈ dependsSources g tid := by
      unfold dependsSources
      apply List.mem_map.mpr
      refine ⟨(d, inner), ?_, rfl⟩
      rw [List.mem_filter]
      exact ⟨hmem, by simp [hty2]⟩
    unfold hardDepsSat at h
    rw [List.all_eq_true] at h
    have hget : get_edge_type g d tid = some ty := by
      unfold get_edge_type
      rw [hE]
      exact hty2
    have h2 := h d hds
    rw [hget] at h2
    have h3 : (if ty = "hard" ∨ ty = "dependency"
        then sched.contains d else true) = true := h2
    rw [if_pos hallow] at h3
    exact List.elem_iff.mp h3

/-! ### The group-formation loop -/
theorem innerFold_none (tasks : List Task) (tid : String) :
    ∀ (gids : List String), gids.foldl (innerStep tasks tid) none = none
  | [] => rfl
  | _ :: gids => innerFold_none tasks tid gids

theorem innerFold_false (tasks : List Task) (tid : String) :
    ∀ (gids : List String) (grp : ParallelGroup),
    gids.foldl (innerStep tasks tid) (some (false, grp)) = some (false, grp)
  | [], _ => rfl
  | e :: gids, grp => by
    simp only [List.foldl_cons]
    rw [show innerStep tasks tid (some (false, grp)) e = some (false, grp) from rfl]
    exact innerFold_false tasks tid gids grp

theorem innerStep_some_tasks (tasks : List Task) (tid e : String)
    (b0 : Bool) (grp0 : ParallelGroup) (b1 : Bool) (grp1 : ParallelGroup)
    (hs : innerStep tasks tid (some (b0, grp0)) e = some (b1, grp1)) :
    grp1.tasks = grp0.tasks := by
  by_cases hb : b0 = false
  · subst hb
    have hs2 : (some ((false : Bool), grp0) :
        Option (Bool × ParallelGroup)) = some (b1, grp1) := hs
    have he2 : grp0 = grp1 := congrArg Prod.snd (Option.some.inj hs2)
    rw [← he2]
  · have hb1 : b0 = true := by
      cases b0
      · exact absurd rfl hb
      · rfl
    subst hb1
    have hs2 : (match task_map_get tasks e, task_map_get tasks tid with
      | some te, some tt =>
        match analyze_conflict_level te tt with
        | ConflictLevel.HARD => some ((false : Bool), grp0)
        | ConflictLevel.SOFT => some ((true : Bool), { grp0 with
            has_soft_conflicts := true,
            soft_conflict_pairs := grp0.soft_conflict_pairs ++ [(e, tid)] })
        | ConflictLevel.NONE => some ((true : Bool), grp0)
      | _, _ => none) = some (b1, grp1) := hs
    rcases h1 : task_map_get tasks e with _ | te <;> rw [h1] at hs2
    · cases hs2
    · rcases h2 : task_map_get tasks tid with _ | tt <;> rw [h2] at hs2
      · cases hs2
      · have hs3 : (match analyze_conflict_level te tt with
          | ConflictLevel.HARD => some ((false : Bool), grp0)
          | ConflictLevel.SOFT => some ((true : Bool), { grp0 with
              has_soft_conflicts := true,
              soft_conflict_pairs := grp0.soft_conflict_pairs ++ [(e, tid)] })
          | ConflictLevel.NONE => some ((true : Bool), grp0))
            = some (b1, grp1) := hs2
        rcases h3 : analyze_conflict_level te tt with _ | _ | _ <;> rw [h3] at hs3 <;>
          · have he := Option.some.inj hs3
            rw [Prod.mk.injEq] at he
            rw [← he.2]

theorem innerFold_tasks (tasks : List Task) (tid : String) :
    ∀ (gids : List String) (b0 : Bool) (grp0 : ParallelGroup)
      (b : Bool) (grp' : ParallelGroup),
    gids.foldl (innerStep tasks tid) (some (b0, grp0)) = some (b, grp') →
    grp'.tasks = grp0.tasks
  | [], b0, grp0, b, grp', h => by
    have he := Option.some.inj h
    rw [Prod.mk.injEq] at he
    rw [← he.2]
  | e :: gids, b0, grp0, b, grp', h => by
    simp only [List.foldl_cons] at h
    rcases hs : innerStep tasks tid (some (b0, grp0)) e with _ | ⟨b1, grp1⟩
    · rw [hs, innerFold_none tasks tid gids] at h
      cases h
    · rw [hs] at h
      rw [innerFold_tasks tasks tid gids b1 grp1 b grp' h]
      exact innerStep_some_tasks tasks tid e b0 grp0 b1 grp1 hs

theorem innerStep_true_inv (tasks : List Task) (tid e : String)
    (grp0 grp1 : ParallelGroup)
    (hs : innerStep tasks tid (some (true, grp0)) e = some (true, grp1)) :
    ∃ te tt, task_map_get tasks e = some te ∧
      task_map_get tasks tid = some tt ∧
      analyze_conflict_level te tt ≠ ConflictLevel.HARD := by
  have hs2 : (match task_map_get tasks e, task_map_get tasks tid with
    | some te, some tt =>
      match analyze_conflict_level te tt with
      | ConflictLevel.HARD => some ((false : Bool), grp0)
      | ConflictLevel.SOFT => some ((true : Bool), { grp0 with
          has_soft_conflicts := true,
          soft_conflict_pairs := grp0.soft_conflict_pairs ++ [(e, tid)] })
      | ConflictLevel.NONE => some ((true : Bool), grp0)
    | _, _ => none) = some ((true : Bool), grp1) := hs
  rcases h1 : task_map_get tasks e with _ | te <;> rw [h1] at hs2
  · cases hs2
  · rcases h2 : task_map_get tasks tid with _ | tt <;> rw [h2] at hs2
    · cases hs2
    · have hs3 : (match analyze_conflict_level te tt with
        | ConflictLevel.HARD => some ((false : Bool), grp0)
        | ConflictLevel.SOFT => some ((true : Bool), { grp0 with
            has_soft_conflicts := true,
            soft_conflict_pairs := grp0.soft_conflict_pairs ++ [(e, tid)] })
        | ConflictLevel.NONE => some ((true : Bool), grp0))
          = some ((true : Bool), grp1) := hs2
      rcases h3 : analyze_conflict_level te tt with _ | _ | _ <;> rw [h3] at hs3
      · exact ⟨te, tt, rfl, rfl, by rw [h3]; intro hc; cases hc⟩
      · exact ⟨te, tt, rfl, rfl, by rw [h3]; intro hc; cases hc⟩
      · exact Bool.noConfusion (congrArg Prod.fst (Option.some.inj hs3))

theorem innerFold_true (tasks : List Task) (tid : String) :
    ∀ (gids : List String) (grp0 grp' : ParallelGroup),
    gids.foldl (innerStep tasks tid) (some (true, grp0)) = some (true, grp') →
    ∀ eid ∈ gids, ∃ te tt, task_map_get tasks eid = some te ∧
      task_map_get tasks tid = some tt ∧
      analyze_conflict_level te tt ≠ ConflictLevel.HARD
  | [], _, _, _, eid, he => by cases he
  | e :: gids, grp0, grp', h, eid, he => by
    simp only [List.foldl_cons] at h
    rcases hs : innerStep tasks tid (some (true, grp0)) e with _ | ⟨b1, grp1⟩
    · rw [hs, innerFold_none tasks tid gids] at h
      cases h
    · rw [hs] at h
      cases b1 with
      | false =>
        rw [innerFold_false tasks tid gids grp1] at h
        exact Bool.noConfusion (congrArg Prod.fst (Option.some.inj h))
      | true =>
        rcases List.mem_cons.mp he with rfl | he2
        · exact innerStep_true_inv tasks tid eid grp0 grp1 hs
        · exact innerFold_true tasks tid gids grp1 grp' h eid he2

theorem considerTask_spec (tasks : List Task) (hnd : (idsOf tasks).Nodup)
    (sched₀ avail : List String) (tid : String) (htid : tid ∈ avail)
    (group : ParallelGroup) (gids scheduled : List String)
    (st' : ParallelGroup × List String × List String)
    (h : considerTask tasks (group, gids, scheduled) tid = some st')
    (hI : GState tasks sched₀ avail (group, gids, scheduled)) :
    GState tasks sched₀ avail st' := by
  have h0 : (match gids.foldl (innerStep tasks tid) (some (true, group)) with
    | none => none
    | some (can_add, grp) =>
      if can_add then
        match task_map_get tasks tid with
        | none => none
        | some t => some ({ grp with tasks := grp.tasks ++ [t] },
            (if gids.contains tid then gids else gids ++ [tid]),
            (if scheduled.contains tid then scheduled else scheduled ++ [tid]))
      else some (grp, gids, scheduled)) = some st' := h
  clear h
  rcases hin : gids.foldl (innerStep tasks tid) (some (true, group))
    with _ | ⟨b, grp⟩ <;> rw [hin] at h0
  · cases h0
  · cases b with
    | false =>
      have h2 : some ((grp, gids, scheduled) :
          ParallelGroup × List String × List String) = some st' := h0
      rcases Option.some.inj h2 with rfl
      have htasks : grp.tasks = group.tasks :=
        innerFold_tasks tasks tid gids true group false grp hin
      exact {
        sub := by rw [htasks] at *; exact hI.sub
        pair := by rw [htasks] at *; exact hI.pair
        mem_gids := by rw [htasks] at *; exact hI.mem_gids
        gids_mem := by rw [htasks] at *; exact hI.gids_mem
        sched_iff := by rw [htasks] at *; exact hI.sched_iff
        from_avail := by rw [htasks] at *; exact hI.from_avail }
    | true =>
      rcases hm : task_map_get tasks tid with _ | t <;> rw [hm] at h0
      · cases h0
      · have h2 : some (({ grp with tasks := grp.tasks ++ [t] },
            (if gids.contains tid then gids else gids ++ [tid]),
            (if scheduled.contains tid then scheduled
             else scheduled ++ [tid])) :
            ParallelGroup × List String × List String) = some st' := h0
        rcases Option.some.inj h2 with rfl
        have htasks : grp.tasks = group.tasks :=
          innerFold_tasks tasks tid gids true group true grp hin
        have hchk := innerFold_true tasks tid gids group grp hin
        have htmem : t ∈ tasks := task_map_get_mem hm
        have htIt : t.id = tid := task_map_get_id hm
        have htidg : tid ∈ (if gids.contains tid then gids
            else gids ++ [tid]) := by
          by_cases hcg : gids.contains tid = true
          · rw [if_pos hcg]
            exact List.elem_iff.mp hcg
          · rw [if_neg hcg]
            simp
        have hschedm : ∀ x, x ∈ (if scheduled.contains tid then scheduled
            else scheduled ++ [tid]) ↔ x ∈ scheduled ∨ x = tid := by
          intro x
          by_cases hcs : scheduled.contains tid = true
          · rw [if_pos hcs]
            constructor
            · exact Or.inl
            · rintro (hx | rfl)
              · exact hx
              · exact List.elem_iff.mp hcs
          · rw [if_neg hcs]
            simp
        refine {
          sub := ?_, pair := ?_, mem_gids := ?_, gids_mem := ?_,
          sched_iff := ?_, from_avail := ?_ }
        · intro t' ht'
          rcases List.mem_append.mp ht' with ht' | ht'
          · rw [htasks] at ht'
            exact hI.sub t' ht'
          · rw [List.mem_singleton.mp ht']
            exact htmem
        · show (grp.tasks ++ [t]).Pairwise _
          rw [List.pairwise_append]
          refine ⟨by rw [htasks]; exact hI.pair, List.pairwise_singleton _ _, ?_⟩
          intro a ha b hb
          rw [List.mem_singleton.mp hb]
          rw [htasks] at ha
          rcases hchk a.id (hI.mem_gids a ha) with ⟨te, tt, hte, htt, hne⟩
          have hea : te = a :=
            (Option.some.inj ((task_map_get_eq hnd (hI.sub a ha)).symm.trans hte)).symm
          have het : tt = t := (Option.some.inj (hm.symm.trans htt)).symm
          rw [← hea, ← het]
          exact hne
        · intro t' ht'
          rcases List.mem_append.mp ht' with ht' | ht'
          · rw [htasks] at ht'
            have := hI.mem_gids t' ht'
            by_cases hcg : gids.contains tid = true
            · rw [if_pos hcg]
              exact this
            · rw [if_neg hcg]
              exact List.mem_append.mpr (Or.inl this)
          · rw [List.mem_singleton.mp ht', htIt]
            exact htidg
        · intro x hx
          by_cases hcg : gids.contains tid = true
          · rw [if_pos hcg] at hx
            rcases hI.gids_mem x hx with ⟨t', ht', hid⟩
            rw [← htasks] at ht'
            exact ⟨t', List.mem_append.mpr (Or.inl ht'), hid⟩
          · rw [if_neg hcg] at hx
            rcases List.mem_append.mp hx with hx | hx
            · rcases hI.gids_mem x hx with ⟨t', ht', hid⟩
              rw [← htasks] at ht'
              exact ⟨t', List.mem_append.mpr (Or.inl ht'), hid⟩
            · refine ⟨t, List.mem_append.mpr (Or.inr (by simp)), ?_⟩
              rw [htIt]
              exact (List.mem_singleton.mp hx).symm
        · intro x
          rw [hschedm x, hI.sched_iff x]
          constructor
          · rintro ((hx | ⟨t', ht', hid⟩) | rfl)
            · exact Or.inl hx
            · rw [← htasks] at ht'
              exact Or.inr ⟨t', List.mem_append.mpr (Or.inl ht'), hid⟩
            · exact Or.inr ⟨t, List.mem_append.mpr (Or.inr (by simp)), htIt⟩
          · rintro (hx | ⟨t', ht', hid⟩)
            · exact Or.inl (Or.inl hx)
            · rcases List.mem_append.mp ht' with ht' | ht'
              · rw [htasks] at ht'
                exact Or.inl (Or.inr ⟨t', ht', hid⟩)
              · right
                rw [← hid, List.mem_singleton.mp ht', htIt]
        · intro t' ht'
          rcases List.mem_append.mp ht' with ht' | ht'
          · rw [htasks] at ht'
            exact hI.from_avail t' ht'
          · rw [List.mem_singleton.mp ht', htIt]
            exact htid

theorem considerLoop_spec (tasks : List Task) (hnd : (idsOf tasks).Nodup)
    (sched₀ avail : List String) :
    ∀ (lst : List String), (∀ x ∈ lst, x ∈ avail) →
    ∀ (st st' : ParallelGroup × List String × List String),
    considerLoop tasks lst st = some st' →
    GState tasks sched₀ avail st → GState tasks sched₀ avail st'
  | [], _, st, st', h, hI => by
    have h2 : some st = some st' := h
    rcases Option.some.inj h2 with rfl
    exact hI
  | tid :: lst, hsub, st, st', h, hI => by
    have h2 : (match considerTask tasks st tid with
      | none => none
      | some st2 => considerLoop tasks lst st2) = some st' := h
    rcases hc : considerTask tasks st tid with _ | st2 <;> rw [hc] at h2
    · cases h2
    · rcases st with ⟨group, gids, scheduled⟩
      exact considerLoop_spec tasks hnd sched₀ avail lst
        (fun x hx => hsub x (List.mem_cons_of_mem _ hx)) st2 st' h2
        (considerTask_spec tasks hnd sched₀ avail tid (hsub tid (by simp))
          group gids scheduled st2 hc hI)

/-- The while-loop invariant, unrolled over a successful run: the new
groups hold stored tasks, pairwise non-HARD; and every blocking-edge
source of a member is either pre-scheduled or in an earlier new group. -/
theorem schedLoop_spec (tasks : List Task) (g : DepGraph) (topo : List String) :
    ∀ (fuel : Nat) (scheduled : List String) (groups₀ res : List ParallelGroup),
    (idsOf tasks).Nodup →
    schedLoop tasks g topo fuel scheduled groups₀ = some res →
    ∃ gs, res = groups₀ ++ gs ∧
      (∀ group ∈ gs, (∀ t ∈ group.tasks, t ∈ tasks) ∧
        group.tasks.Pairwise (fun a b =>
          analyze_conflict_level a b ≠ ConflictLevel.HARD)) ∧
      (∀ (k : Nat) (group : ParallelGroup), gs.get? k = some group →
        ∀ w ∈ group.tasks, ∀ d, EdgeOK g d w.id →
          d ∈ scheduled ∨ ∃ g2 ∈ gs.take k, ∃ u ∈ g2.tasks, u.id = d)
  | 0, scheduled, groups₀, res, _, h => by
    have h2 : some groups₀ = some res := h
    rcases Option.some.inj h2 with rfl
    exact ⟨[], by simp, by simp, by intro k group hk; cases k <;> cases hk⟩
  | fuel + 1, scheduled, groups₀, res, hnd, h => by
    have h0 : (if scheduled.length < tasks.length then
        (if (topo.filter (fun tid =>
              ¬ scheduled.contains tid ∧ hardDepsSat g tid scheduled)) = []
         then some groups₀
         else match considerLoop tasks (topo.filter (fun tid =>
              ¬ scheduled.contains tid ∧ hardDepsSat g tid scheduled))
              ({}, [], scheduled) with
          | none => none
          | some (group, _, scheduled2) =>
            if group.tasks = [] then
              schedLoop tasks g topo fuel scheduled2 groups₀
            else
              schedLoop tasks g topo fuel scheduled2 (groups₀ ++
                [{ group with
                    can_parallel := decide (group.tasks.length > 1) }]))
       else some groups₀) = some res := h
    clear h
    by_cases hlen : scheduled.length < tasks.length
    · rw [if_pos hlen] at h0
      by_cases hav : (topo.filter (fun tid =>
          ¬ scheduled.contains tid ∧ hardDepsSat g tid scheduled)) = []
      · rw [if_pos hav] at h0
        rcases Option.some.inj h0 with rfl
        exact ⟨[], by simp, by simp, by intro k group hk; cases k <;> cases hk⟩
      · rw [if_neg hav] at h0
        rcases hcl : considerLoop tasks (topo.filter (fun tid =>
            ¬ scheduled.contains tid ∧ hardDepsSat g tid scheduled))
            ({}, [], scheduled) with _ | ⟨group, gids, scheduled2⟩ <;>
          rw [hcl] at h0
        · cases h0
        · have hGS0 : GState tasks scheduled (topo.filter (fun tid =>
              ¬ scheduled.contains tid ∧ hardDepsSat g tid scheduled))
              ({}, [], scheduled) := by
            refine ⟨?_, ?_, ?_, ?_, ?_, ?_⟩
            · intro t ht
              cases ht
            · exact List.Pairwise.nil
            · intro t ht
              cases ht
            · intro x hx
              cases hx
            · intro x
              constructor
              · exact Or.inl
              · rintro (hx | ⟨t, ht, _⟩)
                · exact hx
                · cases ht
            · intro t ht
              cases ht
          have hGS := considerLoop_spec tasks hnd scheduled _ _
            (fun x hx => hx) ({}, [], scheduled) (group, gids, scheduled2)
            hcl hGS0
          have h1 : (if group.tasks = [] then
              schedLoop tasks g topo fuel scheduled2 groups₀
            else
              schedLoop tasks g topo fuel scheduled2 (groups₀ ++
                [{ group with
                    can_parallel := decide (group.tasks.length > 1) }]))
              = some res := h0
          by_cases hge : group.tasks = []
          · rw [if_pos hge] at h1
            rcases schedLoop_spec tasks g topo fuel scheduled2 groups₀ res
              hnd h1 with ⟨gs, hres, hprops, hord⟩
            refine ⟨gs, hres, hprops, ?_⟩
            intro k grp hk w hw d hEd
            rcases hord k grp hk w hw d hEd with hd | hd
            · rcases (hGS.sched_iff d).mp hd with hd2 | ⟨t, ht, _⟩
              · exact Or.inl hd2
              · rw [show (group, gids, scheduled2).1.tasks = group.tasks
                  from rfl, hge] at ht
                cases ht
            · exact Or.inr hd
          · rw [if_neg hge] at h1
            rcases schedLoop_spec tasks g topo fuel scheduled2 (groups₀ ++
              [{ group with
                  can_parallel := decide (group.tasks.length > 1) }]) res
              hnd h1 with ⟨gs', hres, hprops, hord⟩
            refine ⟨{ group with
                can_parallel := decide (group.tasks.length > 1) } :: gs',
              by rw [hres]; simp, ?_, ?_⟩
            · intro grp hg
              rcases List.mem_cons.mp hg with rfl | hg
              · exact ⟨hGS.sub, hGS.pair⟩
              · exact hprops grp hg
            · intro k grp hk w hw d hEd
              cases k with
              | zero =>
                rw [List.get?_cons_zero] at hk
                rcases Option.some.inj hk with rfl
                have hwa := hGS.from_avail w hw
                have hp2 := (List.mem_filter.mp hwa).2
                have h3 := of_decide_eq_true hp2
                exact Or.inl (hardDepsSat_sound h3.2 hEd)
              | succ k =>
                rw [List.get?_cons_succ] at hk
                rcases hord k grp hk w hw d hEd with hd | hd
                · rcases (hGS.sched_iff d).mp hd with hd2 | ⟨t, ht, hid⟩
                  · exact Or.inl hd2
                  · refine Or.inr ⟨{ group with
                      can_parallel := decide (group.tasks.length > 1) },
                      ?_, t, ht, hid⟩
                    rw [List.take_succ_cons]
                    exact List.mem_cons_self _ _
                · rcases hd with ⟨g2, hg2, hrest⟩
                  refine Or.inr ⟨g2, ?_, hrest⟩
                  rw [List.take_succ_cons]
                  exact List.mem_cons_of_mem _ hg2
    · rw [if_neg hlen] at h0
      rcases Option.some.inj h0 with rfl
      exact ⟨[], by simp, by simp, by intro k group hk; cases k <;> cases hk⟩

theorem create_parallel_groups_unfold (tasks : List Task) :
    create_parallel_groups tasks =
      if tasks = [] then some [] else
        schedLoop tasks (build_dependency_graph tasks)
          (build_dependency_graph tasks).topological_sort
          (tasks.length + 1) [] [] := rfl

/-- C3, counterexample: `create_parallel_groups` does **not** in general
return a topological ordering covering the input.  For the two acyclic
tasks `[b (depends on a), a]`, the explicit dependency edge `a → b` and
the positional HARD edge `b → a` form a cycle in the scheduler's graph,
the topological order comes back empty, and the function returns **no
groups at all** — the concatenation of the returned groups misses every
input task. -/
theorem claim_C3_counterexample :
    create_parallel_groups [c3TaskB, c3TaskA] = some [] ∧
    [c3TaskB, c3TaskA] ≠ [] := by
  refine ⟨by decide, by decide⟩

/-- C3, amended: whenever `create_parallel_groups` returns groups (it can
also raise on absent dependency ids, and can drop tasks, see the
counterexample), every group holds stored tasks no two of which conflict
at level HARD, and every predecessor of a scheduled task — an explicit
`depends_on` source or an earlier HARD-conflicting task — is placed in a
strictly earlier group. -/
theorem claim_C3_amended (tasks : List Task) (hnd : (idsOf tasks).Nodup)
    (groups : List ParallelGroup)
    (hg : create_parallel_groups tasks = some groups) :
    (∀ group ∈ groups, (∀ t ∈ group.tasks, t ∈ tasks) ∧
      group.tasks.Pairwise (fun a b =>
        analyze_conflict_level a b ≠ ConflictLevel.HARD)) ∧
    (∀ (k : Nat) (group : ParallelGroup), groups.get? k = some group →
      ∀ w ∈ group.tasks, ∀ u ∈ tasks,
        (u.id ∈ w.depends_on ∨
          (∃ i j, tasks.get? i = some u ∧ tasks.get? j = some w ∧ i < j ∧
            analyze_conflict_level u w = ConflictLevel.HARD)) →
        ∃ g2 ∈ groups.take k, u ∈ g2.tasks) := by
  rw [create_parallel_groups_unfold] at hg
  by_cases he : tasks = []
  · rw [if_pos he] at hg
    rcases Option.some.inj hg with rfl
    refine ⟨?_, ?_⟩
    · intro group hgp
      cases hgp
    · intro k group hk
      cases k <;> cases hk
  · rw [if_neg he] at hg
    rcases schedLoop_spec tasks (build_dependency_graph tasks)
      (build_dependency_graph tasks).topological_sort (tasks.length + 1)
      [] [] groups hnd hg with ⟨gs, hres, hprops, hord⟩
    rw [List.nil_append] at hres
    subst hres
    refine ⟨hprops, ?_⟩
    intro k group hk w hw u hu hrel
    have hwt : w ∈ tasks := (hprops group (List.get?_mem hk)).1 w hw
    have hEd : EdgeOK (build_dependency_graph tasks) u.id w.id := by
      rcases hrel with hdep | ⟨i, j, hi, hj, hij, hh⟩
      · exact build_edge_dep tasks hwt hdep
      · exact build_edge_hard tasks hi hj hij hh
    rcases hord k group hk w hw u.id hEd with hd | ⟨g2, hg2, u', hu', hid⟩
    · cases hd
    · have hu't : u' ∈ tasks :=
        (hprops g2 (List.take_subset _ _ hg2)).1 u' hu'
      have heq : u' = u := task_id_inj hnd hu't hu hid
      exact ⟨g2, hg2, heq ▸ hu'⟩

/-- Witness for the amended C3: the well-ordered two-task chain. -/
theorem claim_C3_amended_witness :
    (∀ group ∈ [c3GroupA, c3GroupB], (∀ t ∈ group.tasks, t ∈ [c3TaskA, c3TaskB]) ∧
      group.tasks.Pairwise (fun a b =>
        analyze_conflict_level a b ≠ ConflictLevel.HARD)) ∧
    (∀ (k : Nat) (group : ParallelGroup),
      [c3GroupA, c3GroupB].get? k = some group →
      ∀ w ∈ group.tasks, ∀ u ∈ [c3TaskA, c3TaskB],
        (u.id ∈ w.depends_on ∨
          (∃ i j, [c3TaskA, c3TaskB].get? i = some u ∧
            [c3TaskA, c3TaskB].get? j = some w ∧ i < j ∧
            analyze_conflict_level u w = ConflictLevel.HARD)) →
        ∃ g2 ∈ [c3GroupA, c3GroupB].take k, u ∈ g2.tasks) :=
  claim_C3_amended [c3TaskA, c3TaskB] (by decide) [c3GroupA, c3GroupB]
    (by decide)

end ParallelScheduler

/-! ### What the `@`-pattern captures -/
theorem scanM_cons (m : List Char → Option (List Char × List Char))
    (fuel : Nat) (c : Char) (rest : List Char) :
    scanM m (fuel + 1) (c :: rest) =
      match m (c :: rest) with
      | some (cap, after) => cap :: scanM m fuel after
      | none => scanM m fuel rest := rfl

theorem takeWhile_append_all {p : Char → Bool} :
    ∀ {l1 : List Char} (l2 : List Char), (∀ c ∈ l1, p c = true) →
    (l1 ++ l2).takeWhile p = l1 ++ l2.takeWhile p
  | [], _, _ => rfl
  | c :: l1, l2, h => by
    have hc : p c = true := h c (by simp)
    simp only [List.cons_append, List.takeWhile_cons, hc, if_true]
    rw [takeWhile_append_all l2 (fun x hx => h x (List.mem_cons_of_mem _ hx))]

theorem takeWhile_head_false {p : Char → Bool} {l : List Char}
    (h : ∀ c, l.head? = some c → p c = false) : l.takeWhile p = [] := by
  cases l with
  | nil => rfl
  | cons c rest => simp [List.takeWhile_cons, h c rfl]

theorem lower_not_space {c : Char} (h : isLowerAlpha c = true) :
    pyIsSpace c = false := by
  unfold isLowerAlpha at h
  rw [decide_eq_true_eq] at h
  unfold pyIsSpace
  apply decide_eq_false
  rintro (rfl | rfl | rfl | rfl | rfl | rfl) <;> exact absurd h (by decide)

theorem lower_ne_dot {c : Char} (h : isLowerAlpha c = true) : c ≠ '.' := by
  intro he
  rw [he] at h
  exact absurd h (by decide)

theorem eligDot_sep (stem ext : List Char) (hstem_ne : stem ≠ [])
    (hext_ne : ext ≠ []) (hext : ∀ c ∈ ext, isLowerAlpha c = true) :
    eligDot (stem ++ '.' :: ext) stem.length = true := by
  unfold eligDot
  rcases ext with _ | ⟨e, ext2⟩
  · exact absurd rfl hext_ne
  rw [Bool.and_eq_true, Bool.and_eq_true]
  refine ⟨⟨?_, ?_⟩, ?_⟩
  · rw [decide_eq_true_eq]
    rcases stem with _ | _
    · exact absurd rfl hstem_ne
    · simp
  · rw [decide_eq_true_eq]
    rw [List.get?_append_right (le_refl _)]
    simp
  · rw [show (stem ++ '.' :: e :: ext2).get? (stem.length + 1) = some e from ?_]
    · exact hext e (by simp)
    · rw [List.get?_append_right (by omega)]
      rw [show stem.length + 1 - stem.length = 1 from by omega]
      rfl

theorem eligDot_after (stem ext : List Char)
    (hext : ∀ c ∈ ext, isLowerAlpha c = true) :
    ∀ d, stem.length < d → eligDot (stem ++ '.' :: ext) d = false := by
  intro d hd
  unfold eligDot
  rw [List.get?_append_right (by omega)]
  rcases hk : d - stem.length with _ | k
  · exact absurd hk (by omega)
  · rw [List.get?_cons_succ]
    rcases hg : ext.get? k with _ | c
    · simp
    · have hc := hext c (List.get?_mem hg)
      rw [show decide (some c = some '.') = false from by
        apply decide_eq_false
        intro he
        exact lower_ne_dot hc (Option.some.inj he)]
      simp

theorem foldl_lastSat (p : Nat → Bool) :
    ∀ (n m : Nat), m < n → p m = true → (∀ d, m < d → d < n → p d = false) →
    (List.range n).foldl (fun acc d => if p d then some d else acc) none = some m
  | 0, m, hm, _, _ => absurd hm (by omega)
  | n + 1, m, hm, hpm, haft => by
    rw [List.range_succ, List.foldl_append]
    simp only [List.foldl_cons, List.foldl_nil]
    by_cases hmn : m = n
    · subst hmn
      rw [if_pos hpm]
    · have hlt : m < n := by omega
      rw [show p n = false from haft n hlt (by omega)]
      rw [if_neg (by simp)]
      exact foldl_lastSat p n m hlt hpm (fun d h1 h2 => haft d h1 (by omega))

theorem lastDotIdx_sep (stem ext : List Char) (hstem_ne : stem ≠ [])
    (hext_ne : ext ≠ []) (hext : ∀ c ∈ ext, isLowerAlpha c = true) :
    lastDotIdx (stem ++ '.' :: ext) = some stem.length := by
  unfold lastDotIdx
  apply foldl_lastSat
  · rw [List.length_append, List.length_cons]
    omega
  · exact eligDot_sep stem ext hstem_ne hext_ne hext
  · intro d h1 _
    exact eligDot_after stem ext hext d h1

theorem fileCapAt_eq (stem ext post : List Char) (hstem_ne : stem ≠ [])
    (hstem : ∀ c ∈ stem, pyIsSpace c = false)
    (hext_ne : ext ≠ []) (hext : ∀ c ∈ ext, isLowerAlpha c = true)
    (hpost : ∀ c, post.head? = some c → pyIsSpace c = true) :
    fileCapAt (stem ++ '.' :: (ext ++ post)) = some (stem ++ '.' :: ext, post) := by
  unfold fileCapAt
  have hassoc : stem ++ '.' :: (ext ++ post) = (stem ++ '.' :: ext) ++ post := by
    simp
  have hall : ∀ c ∈ stem ++ '.' :: ext, (¬ pyIsSpace c : Bool) = true := by
    intro c hc
    rcases List.mem_append.mp hc with h1 | h1
    · simp [hstem c h1]
    · rcases List.mem_cons.mp h1 with rfl | h1
      · decide
      · simp [lower_not_space (hext c h1)]
  have hrun : ((stem ++ '.' :: ext) ++ post).takeWhile (fun c => ¬ pyIsSpace c)
      = stem ++ '.' :: ext := by
    rw [takeWhile_append_all post hall]
    rw [takeWhile_head_false (fun c hc => by simp [hpost c hc])]
    simp
  rw [hassoc, hrun]
  unfold fileCapCore
  rw [lastDotIdx_sep stem ext hstem_ne hext_ne hext]
  have hdrop : (stem ++ '.' :: ext).drop (stem.length + 1) = ext := by
    rw [show stem ++ '.' :: ext = (stem ++ ['.']) ++ ext from by simp]
    rw [show stem.length + 1 = (stem ++ ['.']).length from by simp]
    exact List.drop_left _ _
  show some (((stem ++ '.' :: ext) ++ post).take (stem.length + 1 +
      (((stem ++ '.' :: ext).drop (stem.length + 1)).takeWhile
        isLowerAlpha).length),
    ((stem ++ '.' :: ext) ++ post).drop (stem.length + 1 +
      (((stem ++ '.' :: ext).drop (stem.length + 1)).takeWhile
        isLowerAlpha).length)) = _
  rw [hdrop]
  have htw : ext.takeWhile isLowerAlpha = ext := by
    have h2 : (ext ++ ([] : List Char)).takeWhile isLowerAlpha
        = ext ++ ([] : List Char).takeWhile isLowerAlpha :=
      takeWhile_append_all [] hext
    simpa using h2
  rw [htw]
  rw [show stem.length + 1 + ext.length = (stem ++ '.' :: ext).length from by
    rw [List.length_append, List.length_cons]
    omega]
  rw [List.take_left, List.drop_left]

theorem takeWhile_lt_of_mem_false (p : Char → Bool) :
    ∀ {l1 : List Char} {s : Char}, s ∈ l1 → p s = false →
    (∀ l2, (l1 ++ l2).takeWhile p = l1.takeWhile p) ∧
      (l1.takeWhile p).length < l1.length := by
  intro l1
  induction l1 with
  | nil =>
    intro s hs
    cases hs
  | cons c l1 ih =>
    intro s hs hps
    by_cases hc : p c = true
    · have hsl : s ∈ l1 := by
        rcases List.mem_cons.mp hs with rfl | h
        · rw [hps] at hc
          cases hc
        · exact h
      rcases ih hsl hps with ⟨h1, h2⟩
      constructor
      · intro l2
        simp only [List.cons_append, List.takeWhile_cons, hc, if_true]
        rw [h1 l2]
      · simp only [List.takeWhile_cons, hc, if_true, List.length_cons]
        omega
    · have hc2 : p c = false := by
        cases hpc : p c
        · rfl
        · exact absurd hpc hc
      constructor
      · intro l2
        simp [List.takeWhile_cons, hc2]
      · simp [List.takeWhile_cons, hc2]

theorem lastDotIdx_elig : ∀ {run : List Char} {d : Nat},
    lastDotIdx run = some d → eligDot run d = true := by
  intro run d h
  unfold lastDotIdx at h
  suffices haux : ∀ (L : List Nat) (acc : Option Nat),
      (∀ x, acc = some x → eligDot run x = true) →
      L.foldl (fun acc d => if eligDot run d then some d else acc) acc
        = some d → eligDot run d = true by
    exact haux (List.range run.length) none (fun x hx => by cases hx) h
  intro L
  induction L with
  | nil =>
    intro acc hacc h2
    exact hacc d h2
  | cons e L ih =>
    intro acc hacc h2
    simp only [List.foldl_cons] at h2
    apply ih _ ?_ h2
    intro x hx
    by_cases he : eligDot run e = true
    · rw [if_pos he] at hx
      rw [← Option.some.inj hx]
      exact he
    · rw [if_neg he] at hx
      exact hacc x hx

theorem fileCapAt_sub {l1 l2 cap after : List Char} {s : Char}
    (hs : s ∈ l1) (hsp : pyIsSpace s = true)
    (h : fileCapAt (l1 ++ l2) = some (cap, after)) :
    ∃ k, 1 ≤ k ∧ k < l1.length ∧ after = l1.drop k ++ l2 := by
  unfold fileCapAt at h
  have hps : (fun c => (¬ pyIsSpace c : Bool)) s = false := by simp [hsp]
  rcases takeWhile_lt_of_mem_false (fun c => (¬ pyIsSpace c : Bool)) hs hps
    with ⟨h1, h2⟩
  rw [h1 l2] at h
  unfold fileCapCore at h
  rcases hld : lastDotIdx (l1.takeWhile (fun c => ¬ pyIsSpace c)) with _ | d
  · rw [hld] at h
    cases h
  · rw [hld] at h
    have h3 : some ((l1 ++ l2).take (d + 1 +
          (((l1.takeWhile (fun c => ¬ pyIsSpace c)).drop (d + 1)).takeWhile
            isLowerAlpha).length),
        (l1 ++ l2).drop (d + 1 +
          (((l1.takeWhile (fun c => ¬ pyIsSpace c)).drop (d + 1)).takeWhile
            isLowerAlpha).length)) = some (cap, after) := h
    have helig := lastDotIdx_elig hld
    unfold eligDot at helig
    rw [Bool.and_eq_true, Bool.and_eq_true] at helig
    have hdlt : d < (l1.takeWhile (fun c => ¬ pyIsSpace c)).length := by
      rcases List.get?_eq_some.mp (decide_eq_true_eq.mp helig.1.2) with ⟨hb, _⟩
      exact hb
    have hble : (((l1.takeWhile (fun c => ¬ pyIsSpace c)).drop
        (d + 1)).takeWhile isLowerAlpha).length ≤
        (l1.takeWhile (fun c => ¬ pyIsSpace c)).length - (d + 1) := by
      have hsub : (((l1.takeWhile (fun c => ¬ pyIsSpace c)).drop
          (d + 1)).takeWhile isLowerAlpha).Sublist
          ((l1.takeWhile (fun c => ¬ pyIsSpace c)).drop (d + 1)) :=
        List.takeWhile_sublist _
      have := hsub.length_le
      rw [List.length_drop] at this
      omega
    refine ⟨d + 1 + (((l1.takeWhile (fun c => ¬ pyIsSpace c)).drop
        (d + 1)).takeWhile isLowerAlpha).length, by omega, by omega, ?_⟩
    have hpair := Option.some.inj h3
    rw [Prod.mk.injEq] at hpair
    rw [← hpair.2]
    exact List.drop_append_of_le_length (by omega)

theorem getLast?_cons_of_ne_nil {c : Char} {l : List Char} (h : l ≠ []) :
    (c :: l).getLast? = l.getLast? := by
  rcases l with _ | ⟨x, xs⟩
  · exact absurd rfl h
  · exact List.getLast?_cons_cons

/-- The `@`-pattern scan finds the capture at an `@` that follows a
space-final prefix: every earlier match stays inside its own non-space
run and the scan reaches the `@` intact. -/
theorem scanAt_mem :
    ∀ (fuel : Nat) (l1 tl cap after : List Char),
    (∀ c, l1.getLast? = some c → pyIsSpace c = true) →
    l1.length + 1 ≤ fuel →
    fileCapAt tl = some (cap, after) →
    cap ∈ scanM atMatcher fuel (l1 ++ '@' :: tl)
  | 0, l1, _, _, _, _, hf, _ => absurd hf (by omega)
  | fuel + 1, l1, tl, cap, after, hlast, hf, hcap => by
    cases l1 with
    | nil =>
      rw [List.nil_append, scanM_cons]
      rw [show atMatcher ('@' :: tl) = fileCapAt tl from rfl]
      rw [hcap]
      exact List.mem_cons_self _ _
    | cons c l1 =>
      rw [List.cons_append, scanM_cons]
      simp only [List.length_cons] at hf
      by_cases hc : c = '@'
      · subst hc
        rw [show atMatcher ('@' :: (l1 ++ '@' :: tl))
            = fileCapAt (l1 ++ '@' :: tl) from rfl]
        have hl1ne : l1 ≠ [] := by
          intro he
          subst he
          exact absurd (hlast '@' rfl) (by decide)
        have hlast1 : ∀ c2, l1.getLast? = some c2 → pyIsSpace c2 = true := by
          intro c2 hc2
          apply hlast
          rw [getLast?_cons_of_ne_nil hl1ne]
          exact hc2
        rcases hgl : l1.getLast? with _ | s
        · exact absurd (List.getLast?_eq_none_iff.mp hgl) hl1ne
        have hsp : pyIsSpace s = true := hlast1 s hgl
        have hsmem : s ∈ l1 := List.mem_of_mem_getLast? hgl
        rcases hm : fileCapAt (l1 ++ '@' :: tl) with _ | ⟨cap2, after2⟩
        · exact scanAt_mem fuel l1 tl cap after hlast1 (by omega) hcap
        · rcases fileCapAt_sub hsmem hsp hm with ⟨k, hk1, hk2, hk3⟩
          subst hk3
          show cap ∈ cap2 :: scanM atMatcher fuel (l1.drop k ++ '@' :: tl)
          apply List.mem_cons_of_mem
          have hdp : l1.drop k ≠ [] := by
            intro he
            have h4 := congrArg List.length he
            rw [List.length_drop] at h4
            simp at h4
            omega
          apply scanAt_mem fuel (l1.drop k) tl cap after ?_ ?_ hcap
          · intro c2 hc2
            apply hlast1
            have h5 : l1.getLast? = (l1.drop k).getLast? := by
              conv_lhs => rw [← List.take_append_drop k l1]
              exact List.getLast?_append_of_ne_nil _ hdp
            rw [h5]
            exact hc2
          · rw [List.length_drop]
            omega
      · rw [show atMatcher (c :: (l1 ++ '@' :: tl)) = none from by
          show (if c = '@' then fileCapAt (l1 ++ '@' :: tl) else none) = none
          rw [if_neg hc]]
        show cap ∈ scanM atMatcher fuel (l1 ++ '@' :: tl)
        apply scanAt_mem fuel l1 tl cap after ?_ (by omega) hcap
        intro c2 hc2
        apply hlast
        rcases hl1 : l1 with _ | ⟨x, xs⟩
        · rw [hl1] at hc2
          cases hc2
        · rw [List.getLast?_cons_cons, ← hl1]
          exact hc2

theorem filesRaw_p3_mem {command : String} {cap : List Char}
    (h : cap ∈ scanM atMatcher ((pyLower command).data.length + 1)
      (pyLower command).data) :
    (⟨cap⟩ : String) ∈ filesRaw command := by
  show (⟨cap⟩ : String) ∈ (List.map (fun l => (⟨l⟩ : String)) _)
  apply List.mem_map.mpr
  refine ⟨cap, ?_, rfl⟩
  exact List.mem_append.mpr (Or.inl (List.mem_append.mpr (Or.inr h)))

/-- C8, counterexample: the command `"fix @Main.ts"` contains the
explicit reference `@Main.ts`, but the extraction runs on
`command.lower()`, so the files list holds `"main.ts"` (and the
`fix …`-pattern's `"@main.ts"`) — never the literal `"Main.ts"`. -/
theorem claim_C8_counterexample :
    strContains "fix @Main.ts" "@Main.ts" = true ∧
    ¬ "Main.ts" ∈ extract_scope_files "fix @Main.ts" ∧
    "main.ts" ∈ extract_scope_files "fix @Main.ts" := by
  refine ⟨by decide, by decide, by decide⟩

/-- C8, amended: for a command whose lowercasing splits as
`pre ++ "@" ++ stem ++ "." ++ ext ++ post` — `pre` empty or ending in
whitespace, `stem` nonempty without whitespace, `ext` nonempty lowercase
letters, `post` empty or starting with whitespace — the extracted files
contain the **lowercased** reference `stem ++ "." ++ ext`, and
`estimated_scope` is `"file"` whatever the other extractions produce. -/
theorem claim_C8_amended (command pre stem ext post : String)
    (hsplit : pyLower command = pre ++ "@" ++ stem ++ "." ++ ext ++ post)
    (hpre : ∀ c, pre.data.getLast? = some c → pyIsSpace c = true)
    (hstem_ne : stem.data ≠ [])
    (hstem : ∀ c ∈ stem.data, pyIsSpace c = false)
    (hext_ne : ext.data ≠ [])
    (hext : ∀ c ∈ ext.data, isLowerAlpha c = true)
    (hpost : ∀ c, post.data.head? = some c → pyIsSpace c = true) :
    (stem ++ "." ++ ext) ∈ extract_scope_files command ∧
    ∀ dirs mods, estimatedScopeOf (filesRaw command) dirs mods
      (pyLower command) = "file" := by
  have hdata : (pyLower command).data
      = pre.data ++ '@' :: (stem.data ++ '.' :: (ext.data ++ post.data)) := by
    rw [hsplit]
    simp [String.data_append]
  have hcap : fileCapAt (stem.data ++ '.' :: (ext.data ++ post.data))
      = some (stem.data ++ '.' :: ext.data, post.data) :=
    fileCapAt_eq stem.data ext.data post.data hstem_ne hstem hext_ne hext hpost
  have hmem3 : (stem.data ++ '.' :: ext.data) ∈ scanM atMatcher
      ((pyLower command).data.length + 1) (pyLower command).data := by
    rw [hdata]
    apply scanAt_mem _ pre.data _ _ post.data hpre ?_ hcap
    rw [List.length_append, List.length_cons]
    omega
  have hraw : (⟨stem.data ++ '.' :: ext.data⟩ : String) ∈ filesRaw command :=
    filesRaw_p3_mem hmem3
  have hstr : (stem ++ "." ++ ext)
      = (⟨stem.data ++ '.' :: ext.data⟩ : String) := by
    apply String.ext
    simp [String.data_append]
  constructor
  · unfold extract_scope_files
    rw [List.mem_dedup, List.mem_filter]
    refine ⟨by rw [hstr]; exact hraw, ?_⟩
    rw [decide_eq_true_eq]
    intro he
    have h2 := congrArg String.data he
    rw [String.data_append, String.data_append] at h2
    simp at h2
  · intro dirs mods
    unfold estimatedScopeOf
    rw [if_pos (List.ne_nil_of_mem hraw)]

/-- Witness for the amended C8 at `"fix @Main.ts"`. -/
theorem claim_C8_amended_witness :
    ("main" ++ "." ++ "ts") ∈ extract_scope_files "fix @Main.ts" ∧
    ∀ dirs mods, estimatedScopeOf (filesRaw "fix @Main.ts") dirs mods
      (pyLower "fix @Main.ts") = "file" :=
  claim_C8_amended "fix @Main.ts" "fix " "main" "ts" ""
    (by decide)
    (fun c hc => by
      have hc2 : (some ' ' : Option Char) = some c := hc
      rw [← Option.some.inj hc2]
      decide)
    (by decide) (by decide) (by decide) (by decide)
    (fun c hc => Option.noConfusion hc)

end QueueSpec
